import Mathlib

/-!
# Vehicle-App: appointment index, price calculation, vehicle list, documents and parts

A shallow embedding of `src/vehicle/src/vehicle.cpp` and of the vehicle and
appointment operations of `src/vehicleapp/src/vehicleapp.cpp` (with the data model
of `src/vehicle/header/vehicle.h`) and theorems about it.

Modelling conventions.

* `std::string` is `List Char`; a text file is the `List Char` of its content, a
  file that cannot be opened for reading is `none`.
* `std::queue<Appointment>` is a `List Appointment` whose head is the front;
  `push` appends at the end, `pop` drops the head.
* `std::vector` is a `List`; the global `appointmentMatrix` is passed in and
  returned explicitly.
* An index operation `v[i]` outside the bounds of `v` is undefined behaviour in
  the source; the embedding is total and returns `none` there.
* C++ `int` values are integers.  Container sizes and loop counters are taken to
  fit in an `int` (the source compares `int` counters against `size()`), so the
  index arithmetic is exact.  The 32-bit range is kept where the source observes
  it: formatted extraction `>> int` fails on a literal outside
  `[-2^31, 2^31 - 1]`, and the additions on a date that the user enters are 32-bit
  additions (`wrapInt`).  In the runs of the application the counter of the vehicle
  IDs is shown to stay in the range; a `Registration` that would take it out of the
  range is undefined.
* `float` prices are exact rationals; the formatted input and output of a `float`
  are parameters of the functions that use them.
* A local object that the source leaves uninitialised has an indeterminate value in
  its `int` member: the parameter `uninit` of the functions that declare one.
-/

namespace VehicleApp

/-! ## Data model (vehicle.h) -/

/-- The struct `Appointment`. -/
structure Appointment where
  vehicleID : Int
  customerName : List Char
  appointmentType : List Char
deriving DecidableEq

/-- The struct `Date`. -/
structure Date where
  year : Int
  month : Int
  day : Int
deriving DecidableEq

/-- The struct `Part`; the price is an exact number. -/
structure Part where
  partID : Int
  name : List Char
  compatiblemodel : List Char
  price : ℚ
deriving DecidableEq

/-- The struct `PriceResult`. -/
structure PriceResult where
  totalAmount : ℚ
  amountWithoutLabor : ℚ
deriving DecidableEq

/-- A `std::queue<Appointment>`: the head of the list is the front. -/
abbrev Queue := List Appointment

/-- The type of the global `appointmentMatrix`: years, then months, then days. -/
abbrev AppointmentMatrix := List (List (List Queue))

/-! ## calculateTotalPrice -/

/-- One iteration of the range-for loop of `calculateTotalPrice`. -/
def priceStep (acc : PriceResult) (part : Part) : PriceResult :=
  let amountWithoutLabor := acc.amountWithoutLabor + part.price
  let totalAmount :=
    if part.price < 500 then acc.totalAmount + part.price
    else if part.price < 2000 then acc.totalAmount + (part.price + 1000)
    else if part.price < 10000 then acc.totalAmount + (part.price + 3000)
    else acc.totalAmount + (part.price + 8000)
  ⟨totalAmount, amountWithoutLabor⟩

/-- The function `calculateTotalPrice`: both accumulators start at 0 and the loop
runs over the parts in order. -/
def calculateTotalPrice (selectedParts : List Part) : PriceResult :=
  selectedParts.foldl priceStep ⟨0, 0⟩

/-- The tier markup as the specification words it: 0 below 500, 1000 from 500
below 2000, 3000 from 2000 below 10000, 8000 from 10000 on. -/
def markup (p : ℚ) : ℚ :=
  if p < 500 then 0
  else if 500 ≤ p ∧ p < 2000 then 1000
  else if 2000 ≤ p ∧ p < 10000 then 3000
  else 8000

/-! ## Vectors and the appointment matrix -/

/-- The call `v.resize(n)`: keeps the first `n` elements and pads with
value-initialised elements `d` up to size `n`. -/
def resize {α : Type} (v : List α) (n : Nat) (d : α) : List α :=
  v.take n ++ List.replicate (n - v.length) d

/-- The function `initializeAppointmentMatrix`.  After `resize(years + 1)` the
loop `for i = 0 .. years` visits every slot of the outer vector, and likewise
`for j = 0 .. months` every slot of `appointmentMatrix[i]`, so each loop is a
`map`.  A `resize` with a negative `int` argument converts it to a huge
`size_t` and throws `std::length_error`: that is `none`. -/
def initializeAppointmentMatrix (years months days : Int)
    (appointmentMatrix : AppointmentMatrix) : Option AppointmentMatrix :=
  if years + 1 < 0 then none
  else if 0 ≤ years ∧ months + 1 < 0 then none
  else if 0 ≤ years ∧ 0 ≤ months ∧ days + 1 < 0 then none
  else
    some ((resize appointmentMatrix (years + 1).toNat []).map fun yearSlot =>
      (resize yearSlot (months + 1).toNat []).map fun monthSlot =>
        resize monthSlot (days + 1).toNat [])

/-- The matrix after the call `initializeAppointmentMatrix(2050, 13, 30)` of `main`
(and of the test fixture) on the empty global: 2051 year slots of 14 month slots
of 31 empty queues. -/
def mainMatrix : AppointmentMatrix :=
  (resize ([] : AppointmentMatrix) 2051 []).map fun yearSlot =>
    (resize yearSlot 14 []).map fun monthSlot => resize monthSlot 31 []

/-- The read `v[i]` with an `int` index: `none` outside the bounds. -/
def index? {α : Type} (v : List α) (i : Int) : Option α :=
  if 0 ≤ i then v[i.toNat]? else none

/-- The update of the element `v[i]` in place by `f`: `none` when the index is
outside the bounds or `f` is undefined on the element. -/
def modifyAt {α : Type} (v : List α) (i : Int) (f : α → Option α) : Option (List α) :=
  if 0 ≤ i then
    match v[i.toNat]? with
    | none => none
    | some x => (f x).map fun y => v.set i.toNat y
  else none

/-- The queue `appointmentMatrix[date.year][date.month][date.day]`. -/
def cell (m : AppointmentMatrix) (date : Date) : Option Queue :=
  (index? m date.year).bind fun yearSlot =>
    (index? yearSlot date.month).bind fun monthSlot => index? monthSlot date.day

/-- An operation `f` applied in place to the queue
`appointmentMatrix[date.year][date.month][date.day]`. -/
def updateCell (m : AppointmentMatrix) (date : Date) (f : Queue → Queue) :
    Option AppointmentMatrix :=
  modifyAt m date.year fun yearSlot =>
    modifyAt yearSlot date.month fun monthSlot =>
      modifyAt monthSlot date.day fun q => some (f q)

/-- The sizes of the matrix: for every year slot, the number of day slots of each
of its month slots. -/
def dims (m : AppointmentMatrix) : List (List Nat) :=
  m.map fun yearSlot => yearSlot.map List.length

/-- The function `addAppointment`: `push` on the queue of the date. -/
def addAppointment (date : Date) (appointment : Appointment) (m : AppointmentMatrix) :
    Option AppointmentMatrix :=
  updateCell m date fun q => q ++ [appointment]

/-- The matrix of `main` after one `addAppointment(date, a)`, as the tests set it
up (the matrix of `main` itself if the date were outside its bounds). -/
def mainMatrixWith (date : Date) (a : Appointment) : AppointmentMatrix :=
  (addAppointment date a mainMatrix).getD mainMatrix

/-! ## Formatted output and input of `int` and `string` -/

/-- The output `stream << n` for an `int`: decimal digits, a minus sign first for a
negative number. -/
def formatInt (n : Int) : List Char :=
  if n < 0 then '-' :: Nat.toDigits 10 n.natAbs else Nat.toDigits 10 n.natAbs

/-- The C locale `isspace`: space, `\t`, `\n`, `\v`, `\f`, `\r`. -/
def isspace (c : Char) : Bool :=
  c == ' ' || c == '\t' || c == '\n' || c == '\x0b' || c == '\x0c' || c == '\r'

/-- The value of a decimal digit character. -/
def digitValue (c : Char) : Nat := c.toNat - 48

/-- The value of a run of decimal digits. -/
def digitsValue (ds : List Char) : Nat :=
  ds.foldl (fun acc c => acc * 10 + digitValue c) 0

/-- The optional sign read by `>> int`: whether it is a minus, and the rest. -/
def readSign : List Char → Bool × List Char
  | '-' :: t => (true, t)
  | '+' :: t => (false, t)
  | s => (false, s)

/-- The extraction `stream >> n` for an `int`: skips leading whitespace, reads an
optional sign and the longest run of decimal digits; fails (`none`) when there is
no digit or the value does not fit in 32 bits.  On success returns the value and
the rest of the stream. -/
def extractInt (s : List Char) : Option (Int × List Char) :=
  let signed := readSign (s.dropWhile isspace)
  let ds := signed.2.takeWhile Char.isDigit
  let rest := signed.2.dropWhile Char.isDigit
  if ds = [] then none
  else
    let v : Int := if signed.1 then -(digitsValue ds : Int) else (digitsValue ds : Int)
    if -2147483648 ≤ v ∧ v ≤ 2147483647 then some (v, rest) else none

/-- The extraction `stream >> str` for a `std::string`: skips leading whitespace
and reads up to the next whitespace; fails when no character is read. -/
def extractWord (s : List Char) : Option (List Char × List Char) :=
  let s1 := s.dropWhile isspace
  let w := s1.takeWhile fun c => !isspace c
  if w = [] then none else some (w, s1.dropWhile fun c => !isspace c)

/-- The condition `iss >> day >> month >> year >> customerName` of
`readAppointmentsFromFile` on one line: the four extracted values, or `none` when
one of the extractions fails. -/
def parseLine (line : List Char) : Option (Int × Int × Int × List Char) :=
  match extractInt line with
  | none => none
  | some (day, s1) =>
    match extractInt s1 with
    | none => none
    | some (month, s2) =>
      match extractInt s2 with
      | none => none
      | some (year, s3) =>
        match extractWord s3 with
        | none => none
        | some (customerName, _) => some (day, month, year, customerName)

/-- The lines returned by the successive successful calls `getline(file, line)`:
the content is cut at every `\n`; a last line that is not terminated by `\n` is
returned when it is not empty. -/
def getlines : List Char → List (List Char)
  | [] => []
  | c :: cs =>
    if c = '\n' then [] :: getlines cs
    else
      match getlines cs with
      | [] => [[c]]
      | l :: ls => (c :: l) :: ls

/-! ## writeAppointmentsToFile -/

/-- The text `date.day ' ' date.month ' ' date.year ' ' customerName '\n'` written
for one appointment. -/
def appointmentLine (date : Date) (a : Appointment) : List Char :=
  formatInt date.day ++ ' ' :: (formatInt date.month ++ ' ' ::
    (formatInt date.year ++ ' ' :: (a.customerName ++ ['\n'])))

/-- The loop `while (!appointments.empty())` of `writeAppointmentsToFile`: writes
the front and pops it.  Returns the queue left and the file content. -/
def drainToFile (date : Date) : Queue → List Char → Queue × List Char
  | [], file => ([], file)
  | a :: rest, file => drainToFile date rest (file ++ appointmentLine date a)

/-- The loop over `k` of `writeAppointmentsToFile`, from index `k` on. -/
def writeDays (i j : Nat) : Nat → List Queue → List Char → List Queue × List Char
  | _, [], file => ([], file)
  | k, q :: qs, file =>
    let r := drainToFile ⟨i, j, k⟩ q file
    let rs := writeDays i j (k + 1) qs r.2
    (r.1 :: rs.1, rs.2)

/-- The loop over `j` of `writeAppointmentsToFile`, from index `j` on. -/
def writeMonths (i : Nat) : Nat → List (List Queue) → List Char →
    List (List Queue) × List Char
  | _, [], file => ([], file)
  | j, monthSlot :: rest, file =>
    let r := writeDays i j 0 monthSlot file
    let rs := writeMonths i (j + 1) rest r.2
    (r.1 :: rs.1, rs.2)

/-- The loop over `i` of `writeAppointmentsToFile`, from index `i` on. -/
def writeYears : Nat → AppointmentMatrix → List Char → AppointmentMatrix × List Char
  | _, [], file => ([], file)
  | i, yearSlot :: rest, file =>
    let r := writeMonths i 0 yearSlot file
    let rs := writeYears (i + 1) rest r.2
    (r.1 :: rs.1, rs.2)

/-- The function `writeAppointmentsToFile`; `file` is the content of the file
before the call (empty when the file did not exist: it is opened with `ios::app`).
Returns the matrix and the content of the file after the call. -/
def writeAppointmentsToFile (m : AppointmentMatrix) (file : List Char) :
    AppointmentMatrix × List Char :=
  writeYears 0 m file

/-- The appointments of one cell, each with the date of the cell, front first. -/
def cellEntries (i j k : Nat) (q : Queue) : List (Date × Appointment) :=
  q.map fun a => (⟨i, j, k⟩, a)

/-- The appointments of a month slot in ascending day order, the days numbered
from `k0`. -/
def entriesDays (i j k0 : Nat) (monthSlot : List Queue) : List (Date × Appointment) :=
  (List.enumFrom k0 monthSlot).flatMap fun p => cellEntries i j p.1 p.2

/-- The appointments of a year slot in ascending month, then day order, the months
numbered from `j0`. -/
def entriesMonths (i j0 : Nat) (yearSlot : List (List Queue)) : List (Date × Appointment) :=
  (List.enumFrom j0 yearSlot).flatMap fun p => entriesDays i p.1 0 p.2

/-- The appointments of a matrix in ascending year, then month, then day order, the
years numbered from `i0`. -/
def entriesYears (i0 : Nat) (m : AppointmentMatrix) : List (Date × Appointment) :=
  (List.enumFrom i0 m).flatMap fun p => entriesMonths p.1 0 p.2

/-- All queued appointments of the matrix with the indices of their cells, in
ascending year, then month, then day order and in queue order inside a cell. -/
def entries (m : AppointmentMatrix) : List (Date × Appointment) :=
  entriesYears 0 m

/-- The total number of queued appointments. -/
def total (m : AppointmentMatrix) : Nat :=
  (m.map fun yearSlot => (yearSlot.map fun monthSlot => (monthSlot.map List.length).sum).sum).sum

/-- The order of dates by year, then month, then day. -/
def dateLe (a b : Date) : Prop :=
  a.year < b.year ∨ (a.year = b.year ∧ (a.month < b.month ∨ (a.month = b.month ∧ a.day ≤ b.day)))

instance (a b : Date) : Decidable (dateLe a b) := by
  unfold dateLe
  infer_instance

/-- The matrix with the same slots and every queue empty. -/
def emptied (m : AppointmentMatrix) : AppointmentMatrix :=
  m.map fun yearSlot => yearSlot.map fun monthSlot => monthSlot.map fun _ => ([] : Queue)

/-! ## listAppointments -/

/-- The loop of `listAppointments`, with the counter `count`: prints the front
with its number and pops it.  Returns the queue left and the text printed. -/
def listLoop : Int → Queue → List Char → Queue × List Char
  | _, [], out => ([], out)
  | count, a :: rest, out =>
    listLoop (count + 1) rest
      (out ++ (formatInt count ++ ('.' :: ' ' :: (a.customerName ++ ['\n']))))

/-- The header line printed by `listAppointments`. -/
def listHeader (date : Date) : List Char :=
  "Appointments ".toList ++ (formatInt (date.day + 1) ++ '.' ::
    (formatInt (date.month + 1) ++ '.' :: (formatInt date.year ++ [':', '\n'])))

/-- The function `listAppointments`: returns the matrix after the call and the
text written to standard output by the call. -/
def listAppointments (date : Date) (m : AppointmentMatrix) :
    Option (AppointmentMatrix × List Char) :=
  match cell m date with
  | none => none
  | some q =>
    (updateCell m date fun q0 => (listLoop 1 q0 (listHeader date)).1).map fun m1 =>
      (m1, (listLoop 1 q (listHeader date)).2)

/-- The appointment lines of a listing as the specification words them: the line
`<i>. <name>\n` for the `i`-th name, numbered from `start`. -/
def numberedLines (start : Nat) (names : List (List Char)) : List Char :=
  (List.enumFrom start names).flatMap fun p =>
    formatInt (p.1 : Int) ++ ('.' :: ' ' :: (p.2 ++ ['\n']))

/-! ## readAppointmentsFromFile -/

/-- The diagnostic written to the error stream for a line that does not parse
(`endl` ends it with a newline). -/
def formatError (line : List Char) : List Char :=
  "Incorrect file format: ".toList ++ (line ++ ['\n'])

/-- The loop `while (getline(file, line))` of `readAppointmentsFromFile` over the
lines of the file.  The local `Appointment appointment;` has an indeterminate
`vehicleID`, the parameter `uninit`, and an empty `appointmentType`.  Returns the
matrix and the text written to the error stream. -/
def readLoop (uninit : Int) : List (List Char) → AppointmentMatrix → List Char →
    Option (AppointmentMatrix × List Char)
  | [], m, err => some (m, err)
  | line :: rest, m, err =>
    match parseLine line with
    | some (day, month, year, customerName) =>
      match addAppointment ⟨year, month, day⟩ ⟨uninit, customerName, []⟩ m with
      | none => none
      | some m1 => readLoop uninit rest m1 err
    | none => readLoop uninit rest m (err ++ formatError line)

/-- The function `readAppointmentsFromFile`; `file` is the content of the file,
`none` when it cannot be opened (then `getline` fails at once).  Returns the
matrix after the call and the text written to the error stream by the call. -/
def readAppointmentsFromFile (uninit : Int) (file : Option (List Char))
    (m : AppointmentMatrix) : Option (AppointmentMatrix × List Char) :=
  match file with
  | none => some (m, [])
  | some content => readLoop uninit (getlines content) m []


/-! ## Notions used in the statements about the appointments file -/

/-- A customer name that survives the file format: not empty and without a
whitespace character. -/
def isWord (s : List Char) : Bool :=
  !s.isEmpty && s.all fun c => !isspace c

/-- The appointments that reading the lines `ls` enqueues at `date`, in the order
of the lines: one for every line that parses with this date. -/
def enqueuedAt (uninit : Int) (ls : List (List Char)) (date : Date) : Queue :=
  ls.filterMap fun line =>
    match parseLine line with
    | some (day, month, year, customerName) =>
      if (⟨year, month, day⟩ : Date) = date then some ⟨uninit, customerName, []⟩ else none
    | none => none

/-- The diagnostics that reading the lines `ls` writes, in the order of the lines:
one for every line that does not parse. -/
def diagnostics (ls : List (List Char)) : List Char :=
  (ls.filter fun line => (parseLine line).isNone).flatMap fun line =>
    "Incorrect file format: ".toList ++ line ++ ['\n']

/-- The appointment as `readAppointmentsFromFile` restores it: the customer name
only. -/
def restored (uninit : Int) (a : Appointment) : Appointment :=
  ⟨uninit, a.customerName, []⟩

/-- The line of an entry in the appointments file, without its newline. -/
def writtenLine (e : Date × Appointment) : List Char :=
  formatInt e.1.day ++ ' ' :: (formatInt e.1.month ++ ' ' ::
    (formatInt e.1.year ++ ' ' :: e.2.customerName))

/-- The value fits in a 32-bit `int`. -/
def fitsInt (v : Int) : Prop :=
  -2147483648 ≤ v ∧ v ≤ 2147483647

instance (v : Int) : Decidable (fitsInt v) := by
  unfold fitsInt
  infer_instance

/-- The result of an `int` addition whose exact value is `v`: the 32-bit two's
complement value.  An addition that leaves the range of `int` is undefined behaviour
in the source; the embedding takes the value that wraps around, which is what the
compiled program computes. -/
def wrapInt (v : Int) : Int :=
  (v + 2147483648) % 4294967296 - 2147483648

/-! ## The vehicle list (vehicle.h, vehicle.cpp, vehicleapp.cpp)

The `Vehicle` objects live in a heap: the object at address `a` is `heap[a]`, a
pointer is `none` for `nullptr` and `some a` for the address `a`, and `new Vehicle`
returns the next free address, `heap.length`.  No `Vehicle` of the list is ever
deleted by the source (the `delete` in `DeleteVehicle` is commented out), so the
heap only grows.  Dereferencing a pointer that is no address of the heap is
undefined behaviour: `none`.  A loop that follows `next` runs with as much fuel as
the heap has objects, which is enough for every list that ends; on a list with a
cycle the source does not return, and the embedding gives `none`.

A record of the vehicle file is the image of a `Vehicle` object: the values of all
its members, the two pointers included, the strings by the content that they have
in the process that wrote the record.  In another process the image of a string
cannot be read or assigned to: see `Process`. -/

/-- The struct `Vehicle`. -/
structure Vehicle where
  vehicleID : Int
  customerID : Int
  customerName : List Char
  model : List Char
  plateNumber : List Char
  next : Option Nat
  prev : Option Nat
deriving DecidableEq

/-- The object `v` after the assignment `v.next = n`. -/
def setNext (v : Vehicle) (n : Option Nat) : Vehicle :=
  ⟨v.vehicleID, v.customerID, v.customerName, v.model, v.plateNumber, n, v.prev⟩

/-- The object `v` after the assignment `v.prev = p`. -/
def setPrev (v : Vehicle) (p : Option Nat) : Vehicle :=
  ⟨v.vehicleID, v.customerID, v.customerName, v.model, v.plateNumber, v.next, p⟩

/-- The globals of the vehicle list and the file `vehiclefileName` (`none` while the
file does not exist). -/
structure VehicleState where
  heap : List Vehicle
  headVehicle : Option Nat
  vehicleID : Int
  vehicleFile : Option (List Vehicle)
deriving DecidableEq

/-- The arguments of the calls of `showText`, in order: the title and the lines. -/
abbrev Screen := List (List Char × List (List Char))

/-- The assignment `a->next = n` through the pointer `a`. -/
def storeNext (heap : List Vehicle) (a : Nat) (n : Option Nat) : Option (List Vehicle) :=
  match heap[a]? with
  | none => none
  | some v => some (heap.set a (setNext v n))

/-- The assignment `a->prev = p` through the pointer `a`. -/
def storePrev (heap : List Vehicle) (a : Nat) (p : Option Nat) : Option (List Vehicle) :=
  match heap[a]? with
  | none => none
  | some v => some (heap.set a (setPrev v p))

/-- The function `writeVehicleToFile`: appends the image of `*vehicle` to the file
(created when it does not exist). Returns the content of the file. -/
def writeVehicleToFile (heap : List Vehicle) (vehicle : Nat) (file : Option (List Vehicle)) :
    Option (List Vehicle) :=
  match heap[vehicle]? with
  | none => none
  | some v => some (file.getD [] ++ [v])

/-- The loop of `updateVehicleFile`: writes `*current` to the temporary file and
goes to `current->next`, until `current` is `nullptr`. -/
def writeLoop (heap : List Vehicle) : Nat → Option Nat → List Vehicle → Option (List Vehicle)
  | _, none, temp => some temp
  | 0, some _, _ => none
  | fuel + 1, some current, temp =>
    match heap[current]? with
    | none => none
    | some v => writeLoop heap fuel v.next (temp ++ [v])

set_option linter.unusedVariables false in
/-- The function `updateVehicleFile`: the temporary file is opened with `ios::out`,
which empties it, the list is written to it, the final file is removed and the
temporary file takes its name.  Returns the temporary and the final file after the
call. -/
def updateVehicleFile (heap : List Vehicle) (headVehicle : Option Nat)
    (tempFile finalFile : Option (List Vehicle)) :
    Option (Option (List Vehicle) × Option (List Vehicle)) :=
  (writeLoop heap heap.length headVehicle []).map fun temp => (none, some temp)

/-- The loop of `loadVehiclesFromFile` over the records of the file.  Each round
allocates a `Vehicle`, sets its `next` to `nullptr`, reads the record over the whole
object, then sets its `prev` to `current`, links it after `current` (or makes it the
head when `current` is `nullptr`) and sets the counter to its ID plus one.  The
object allocated for the read that fails is deleted again. -/
def loadLoop : List Vehicle → List Vehicle → Option Nat → Option Nat → Int →
    Option (List Vehicle × Option Nat × Int)
  | [], heap, headVehicle, _, vehicleID => some (heap, headVehicle, vehicleID)
  | record :: rest, heap, headVehicle, current, _ =>
    let newVehicle := heap.length
    let heap1 := heap ++ [setPrev record current]
    match current with
    | some c =>
      match storeNext heap1 c (some newVehicle) with
      | none => none
      | some heap2 => loadLoop rest heap2 headVehicle (some newVehicle) (record.vehicleID + 1)
    | none => loadLoop rest heap1 (some newVehicle) (some newVehicle) (record.vehicleID + 1)

/-- The function `loadVehiclesFromFile`; `file` is the content of the file read,
`none` when it cannot be opened (then the function returns at once). -/
def loadVehiclesFromFile (file : Option (List Vehicle)) (s : VehicleState) :
    Option VehicleState :=
  match file with
  | none => some s
  | some records =>
    (loadLoop records s.heap s.headVehicle none 0).map fun r =>
      ⟨r.1, r.2.1, r.2.2, s.vehicleFile⟩

/-- The loop of `CountVehicles`. -/
def countLoop (heap : List Vehicle) : Nat → Option Nat → Int → Option Int
  | _, none, count => some count
  | 0, some _, _ => none
  | fuel + 1, some current, count =>
    match heap[current]? with
    | none => none
    | some v => countLoop heap fuel v.next (count + 1)

/-- The function `CountVehicles`: the count, and the state, which it only reads. -/
def CountVehicles (s : VehicleState) : Option (Int × VehicleState) :=
  (countLoop s.heap s.heap.length s.headVehicle 0).map fun count => (count, s)

/-- The loop `while (current->next != nullptr) current = current->next` of
`Registration`: the last vehicle of the list that starts at `current`. -/
def findTail (heap : List Vehicle) : Nat → Nat → Option Nat
  | 0, _ => none
  | fuel + 1, current =>
    match heap[current]? with
    | none => none
    | some v =>
      match v.next with
      | none => some current
      | some n => findTail heap fuel n

/-- The form shown by `Registration`. -/
def registrationScreen : Screen :=
  [("Registration".toList,
    ["Customer ID  : ".toList, "Customer Name: ".toList, "Vehicle Model: ".toList,
      "Plate Number :".toList])]

/-- The function `Registration`, with the four values read from the input. -/
def Registration (customerID : Int) (customerName model plateNumber : List Char)
    (s : VehicleState) : Option (VehicleState × Screen) :=
  let newVehicle := s.heap.length
  let heap0 := s.heap ++ [⟨s.vehicleID, customerID, customerName, model, plateNumber, none, none⟩]
  let linked : Option (List Vehicle × Option Nat) :=
    match s.headVehicle with
    | none => some (heap0, some newVehicle)
    | some h =>
      match findTail heap0 heap0.length h with
      | none => none
      | some current =>
        match storeNext heap0 current (some newVehicle) with
        | none => none
        | some heap1 => (storePrev heap1 newVehicle (some current)).map fun heap2 =>
            (heap2, s.headVehicle)
  match linked with
  | none => none
  | some (heap2, head2) =>
    (writeVehicleToFile heap2 newVehicle s.vehicleFile).map fun file =>
      (⟨heap2, head2, s.vehicleID + 1, some file⟩, registrationScreen)

/-- The search loop of `UpdateVehicle` and of `DeleteVehicle`: the first vehicle of
the list with the ID, `some none` when the list ends without one. -/
def findVehicle (heap : List Vehicle) (id : Int) : Nat → Option Nat → Option (Option Nat)
  | _, none => some none
  | 0, some _ => none
  | fuel + 1, some current =>
    match heap[current]? with
    | none => none
    | some v => if v.vehicleID = id then some (some current) else findVehicle heap id fuel v.next

/-- The line `Vehicle with ID <id> not found!`. -/
def notFoundLine (id : Int) : List Char :=
  "Vehicle with ID ".toList ++ formatInt id ++ " not found!".toList

/-- The calls of `showText` of `UpdateVehicle` when no vehicle has the ID. -/
def updateNotFoundScreen (id : Int) : Screen :=
  [("Update Vehicle".toList, ["Enter Vehicle ID: ".toList]),
    ("Update Vehicle".toList, [notFoundLine id, "Press any key to return...".toList])]

/-- The calls of `showText` of `UpdateVehicle` when a vehicle has the ID. -/
def updateDoneScreen : Screen :=
  [("Update Vehicle".toList, ["Enter Vehicle ID: ".toList]),
    ("Update Vehicle".toList, ["New Customer ID  : ".toList, "New Customer Name : ".toList,
      "New Vehicle Model : ".toList, "New Plate Number : ".toList]),
    ("Update Vehicle".toList,
      ["Vehicle has been updated.".toList, "Press any key to return...".toList])]

/-- The function `UpdateVehicle`, with the ID and the four new values read from the
input. -/
def UpdateVehicle (id customerID : Int) (customerName model plateNumber : List Char)
    (s : VehicleState) : Option (VehicleState × Screen) :=
  match findVehicle s.heap id s.heap.length s.headVehicle with
  | none => none
  | some none => some (s, updateNotFoundScreen id)
  | some (some current) =>
    match s.heap[current]? with
    | none => none
    | some v =>
      let heap1 := s.heap.set current
        ⟨v.vehicleID, customerID, customerName, model, plateNumber, v.next, v.prev⟩
      (updateVehicleFile heap1 s.headVehicle none s.vehicleFile).map fun files =>
        (⟨heap1, s.headVehicle, s.vehicleID, files.2⟩, updateDoneScreen)

/-- The three cases of `DeleteVehicle` on the vehicle found: both neighbours, a
previous vehicle only, no previous vehicle.  Returns the heap and the head. -/
def unlink (heap : List Vehicle) (headVehicle : Option Nat) (current : Nat) :
    Option (List Vehicle × Option Nat) :=
  match heap[current]? with
  | none => none
  | some v =>
    match v.prev, v.next with
    | some p, some n =>
      match storeNext heap p (some n) with
      | none => none
      | some heap1 =>
        match heap1[current]? with
        | none => none
        | some v1 =>
          match v1.next with
          | none => none
          | some n1 => (storePrev heap1 n1 v1.prev).map fun heap2 => (heap2, headVehicle)
    | some p, none => (storeNext heap p none).map fun heap1 => (heap1, headVehicle)
    | none, _ => some (heap, v.next)

/-- The calls of `showText` of `DeleteVehicle` when no vehicle has the ID. -/
def deleteNotFoundScreen (id : Int) : Screen :=
  [("Delete Vehicle".toList, ["Enter Vehicle ID to delete: ".toList]),
    ("Delete Vehicle".toList, [notFoundLine id, "Press any key to return...".toList])]

/-- The calls of `showText` of `DeleteVehicle` when a vehicle has the ID. -/
def deleteDoneScreen (id : Int) : Screen :=
  [("Delete Vehicle".toList, ["Enter Vehicle ID to delete: ".toList]),
    ("Delete Vehicle".toList,
      ["Vehicle with ID ".toList ++ formatInt id ++ " has been deleted.".toList])]

/-- The function `DeleteVehicle`, with the ID read from the input. -/
def DeleteVehicle (id : Int) (s : VehicleState) : Option (VehicleState × Screen) :=
  match findVehicle s.heap id s.heap.length s.headVehicle with
  | none => none
  | some none => some (s, deleteNotFoundScreen id)
  | some (some current) =>
    match unlink s.heap s.headVehicle current with
    | none => none
    | some (heap1, head1) =>
      (updateVehicleFile heap1 head1 none s.vehicleFile).map fun files =>
        (⟨heap1, head1, s.vehicleID, files.2⟩, deleteDoneScreen id)

/-! ## CreateWarranty -/

/-- The expiration date computed by `CreateWarranty`: `expirationDate.month += 1`,
then the month 1 of the next year, `expirationDate.year += 1`, when the month is
above 12.  Both additions are `int` additions. -/
def warrantyExpiration (date : Date) : Date :=
  let month := wrapInt (date.month + 1)
  if month > 12 then ⟨wrapInt (date.year + 1), 1, date.day⟩
  else ⟨date.year, month, date.day⟩

/-- The function `CreateWarranty`; `file` is the content of the file before the
call (empty when the file did not exist: it is opened with `ios::app`).  Returns
the content after the call. -/
def CreateWarranty (file : List Char) (appointment : Appointment) (date : Date) : List Char :=
  let expirationDate := warrantyExpiration date
  let warranty : List Char :=
    " | ".toList ++ appointment.appointmentType ++ ", performed to the customer : \n | ".toList ++
      appointment.customerName ++ " with vehicle ID ".toList ++ formatInt appointment.vehicleID ++
      ", on this date: ".toList ++ formatInt date.day ++ "/".toList ++ formatInt date.month ++
      "/".toList ++ formatInt date.year ++ "\n".toList ++
      " | Warranty for repair valid until: ".toList ++ formatInt expirationDate.day ++
      "/".toList ++ formatInt expirationDate.month ++ "/".toList ++
      formatInt expirationDate.year ++ "\n".toList
  file ++ warranty ++ "\n".toList

/-! ## Notions used in the statements about the vehicle list -/

/-- The list `l` is the forward traversal from the pointer `p`: the addresses met
from `p` by following `next` up to `nullptr`. -/
def isChain (heap : List Vehicle) : Option Nat → List Nat → Bool
  | p, [] => p.isNone
  | p, a :: l =>
    p == some a &&
      match heap[a]? with
      | none => false
      | some v => isChain heap v.next l

/-- The list `l` is the forward traversal from the pointer `p` (as a proposition). -/
abbrev IsChain (heap : List Vehicle) (p : Option Nat) (l : List Nat) : Prop :=
  isChain heap p l = true

/-- The `prev` pointers along the traversal `l` are right, `p` being what comes
before `l`: the first vehicle of `l` has `prev = p` and every later one has the
vehicle before it as `prev`. -/
def prevOK (heap : List Vehicle) : Option Nat → List Nat → Bool
  | _, [] => true
  | p, a :: l =>
    (match heap[a]? with
      | none => false
      | some v => v.prev == p) && prevOK heap (some a) l

/-- No vehicle of the traversal `l` has a `prev` pointer that is no address of the
heap or that points to a later vehicle of `l`. -/
def prevSafe (heap : List Vehicle) : List Nat → Bool
  | [] => true
  | a :: l =>
    (match heap[a]? with
      | none => false
      | some v =>
        match v.prev with
        | none => true
        | some p => decide (p < heap.length) && !l.contains p) && prevSafe heap l

/-- A well-formed doubly linked list with forward traversal `l`: the list ends,
`head.prev` is `nullptr` and `n.next.prev = n` for every vehicle `n` with a
successor. -/
def WellFormed (heap : List Vehicle) (headVehicle : Option Nat) (l : List Nat) : Prop :=
  IsChain heap headVehicle l ∧ prevOK heap none l = true

instance (heap : List Vehicle) (headVehicle : Option Nat) (l : List Nat) :
    Decidable (WellFormed heap headVehicle l) := by
  unfold WellFormed
  infer_instance

/-- The data of a vehicle: ID, customer ID, customer name, model and plate number. -/
def vehicleData (v : Vehicle) : Int × Int × List Char × List Char × List Char :=
  (v.vehicleID, v.customerID, v.customerName, v.model, v.plateNumber)

/-- The objects at the addresses `l`. -/
def recordsAt (heap : List Vehicle) (l : List Nat) : List Vehicle :=
  l.filterMap fun a => heap[a]?

/-- The data of the vehicles at the addresses `l`. -/
def dataAt (heap : List Vehicle) (l : List Nat) :
    List (Int × Int × List Char × List Char × List Char) :=
  (recordsAt heap l).map vehicleData

/-- The vehicle file mirrors the list with forward traversal `l`: its records carry
the data of the vehicles of `l`, in order (no file counts as no record). -/
def Mirrors (s : VehicleState) (l : List Nat) : Prop :=
  (s.vehicleFile.getD []).map vehicleData = dataAt s.heap l

instance (s : VehicleState) (l : List Nat) : Decidable (Mirrors s l) := by
  unfold Mirrors
  infer_instance

/-! ## CreateReport, CreateMaintenance, CreateFeedback and DisplayFileContent -/

/-- The function `CreateReport`; `file` is the content of the file before the call
(empty when the file did not exist: it is opened with `ios::app`).  Returns the
content after the call. -/
def CreateReport (file : List Char) (appointment : Appointment) (date : Date) : List Char :=
  let report : List Char :=
    " | The following operation: ".toList ++ appointment.appointmentType ++
      ", performed to the customer : \n | ".toList ++ appointment.customerName ++
      " with vehicle ID ".toList ++ formatInt appointment.vehicleID ++
      ", on this date: ".toList ++ formatInt date.day ++ "/".toList ++ formatInt date.month ++
      "/".toList ++ formatInt date.year ++ "\n".toList
  file ++ report ++ "\n".toList

/-- The expiration date computed by `CreateMaintenance`: the same day and month,
and `expirationDate.year += 1`, an `int` addition. -/
def maintenanceExpiration (date : Date) : Date :=
  ⟨wrapInt (date.year + 1), date.month, date.day⟩

/-- The function `CreateMaintenance`; `file` is the content of the file before the
call (empty when the file did not exist).  Returns the content after the call. -/
def CreateMaintenance (file : List Char) (appointment : Appointment) (date : Date) :
    List Char :=
  let expirationDate := maintenanceExpiration date
  let maintenance : List Char :=
    " | Maintenance appointment performed for the customer  \n | ".toList ++
      appointment.customerName ++ " with vehicle ID ".toList ++
      formatInt appointment.vehicleID ++ ", on this date: ".toList ++ formatInt date.day ++
      "/".toList ++ formatInt date.month ++ "/".toList ++ formatInt date.year ++ "\n".toList ++
      " | Next maintenance date is : ".toList ++ formatInt expirationDate.day ++
      "/".toList ++ formatInt expirationDate.month ++ "/".toList ++
      formatInt expirationDate.year ++ "\n".toList
  file ++ maintenance ++ "\n".toList

/-- The function `CreateFeedback`; `file` is the content of the file before the
call (empty when the file did not exist).  Returns the content after the call. -/
def CreateFeedback (file : List Char) (message : List Char) : List Char :=
  let feedback : List Char := message ++ "\n".toList
  file ++ feedback ++ "\n".toList

/-- The function `DisplayFileContent`; `file` is the content of the file, `none`
when it cannot be opened (then `getline` fails at once and the output stays
empty). -/
def DisplayFileContent (file : Option (List Char)) : List Char :=
  match file with
  | none => []
  | some content =>
    (getlines content).foldl (fun output line => output ++ (line ++ "\n".toList)) []

/-! ## The parts map (loadPartsFromFile, writePartToFile)

The files are a map from names to contents.  The global `partHash` is a list of
keys with their parts, without a meaning of the order.  The extraction
`stream >> price` and the output `stream << price` of a `float` are library
operations whose grammar is not part of the source: they are parameters, the
extraction giving the value and the number of characters it takes from the
stream. -/

/-- The global `partfileName`. -/
def partfileName : List Char := "../../../files/vehicle_parts.dat".toList

/-- The files by name: the content, `none` for a file that does not exist. -/
abbrev Files := List Char → Option (List Char)

/-- The global `partHash`: the keys with their parts. -/
abbrev PartHash := List (List Char × Part)

/-- The assignment `partHash[key] = part`: the entry of the key is replaced, or
added when there was none. -/
def assign (partHash : PartHash) (key : List Char) (part : Part) : PartHash :=
  (key, part) :: partHash.filter fun e => e.1 != key

/-- The loop `while (file >> part.name >> part.compatiblemodel >> part.price)` of
`loadPartsFromFile` on the rest `s` of the stream.  The local `Part part;` has an
indeterminate `partID`, the parameter `uninit`, which no round sets.  A round that
reads a part takes at least one character, so the loop ends before the fuel does
when the fuel exceeds the length of the stream. -/
def partsLoop (extractFloat : List Char → Option (ℚ × Nat)) (uninit : Int) :
    Nat → List Char → PartHash → Option PartHash
  | 0, _, _ => none
  | fuel + 1, s, partHash =>
    match extractWord s with
    | none => some partHash
    | some (name, s1) =>
      match extractWord s1 with
      | none => some partHash
      | some (compatiblemodel, s2) =>
        match extractFloat s2 with
        | none => some partHash
        | some (price, used) =>
          partsLoop extractFloat uninit fuel (s2.drop used)
            (assign partHash (formatInt uninit) ⟨uninit, name, compatiblemodel, price⟩)

set_option linter.unusedVariables false in
/-- The function `loadPartsFromFile`: the stream is opened on `partfileName`; when
the file cannot be opened the first extraction fails. -/
def loadPartsFromFile (extractFloat : List Char → Option (ℚ × Nat)) (uninit : Int)
    (fileName : List Char) (files : Files) (partHash : PartHash) : Option PartHash :=
  match files partfileName with
  | none => some partHash
  | some content => partsLoop extractFloat uninit (content.length + 1) content partHash

/-- The function `writePartToFile`: appends the line of the part to the file
`fileName` (created when it does not exist). -/
def writePartToFile (formatFloat : ℚ → List Char) (part : Part) (fileName : List Char)
    (files : Files) : Files :=
  fun name =>
    if name = fileName then
      some ((files name).getD [] ++ (part.name ++ " ".toList ++ part.compatiblemodel ++
        " ".toList ++ formatFloat part.price ++ "\n".toList))
    else files name

/-- The parts that the loop of `loadPartsFromFile` reads from the stream `s`, in
order: name, compatible model and price of each. -/
def parsedParts (extractFloat : List Char → Option (ℚ × Nat)) :
    Nat → List Char → List (List Char × List Char × ℚ)
  | 0, _ => []
  | fuel + 1, s =>
    match extractWord s with
    | none => []
    | some (name, s1) =>
      match extractWord s1 with
      | none => []
      | some (compatiblemodel, s2) =>
        match extractFloat s2 with
        | none => []
        | some (price, used) =>
          (name, compatiblemodel, price) :: parsedParts extractFloat fuel (s2.drop used)

/-- An extraction of a price that reads an integer literal, for the examples. -/
def extractWhole (s : List Char) : Option (ℚ × Nat) :=
  (extractInt s).map fun r => ((r.1 : ℚ), s.length - r.2.length)

/-- The map after the loop of `loadPartsFromFile`, given the parts read: unchanged
when there is none, and with the last part under the one key otherwise. -/
def afterParts (uninit : Int) (partHash : PartHash)
    (parts : List (List Char × List Char × ℚ)) : PartHash :=
  match parts.getLast? with
  | none => partHash
  | some p => assign partHash (formatInt uninit) ⟨uninit, p.1, p.2.1, p.2.2⟩

/-! ## Create_Appointment and List_Appointments (vehicleapp.cpp)

The values that the two functions read from the input are arguments.  The files of
the history, the warranties and the maintenances are their contents, empty while
they do not exist; the appointments file is `none` while it does not exist. -/

/-- The global `appointmentMatrix` and the files of the appointment menu. -/
structure AppointmentState where
  appointmentMatrix : AppointmentMatrix
  appointmentsFile : Option (List Char)
  historyFile : List Char
  warrantyFile : List Char
  maintenanceFile : List Char
deriving DecidableEq

/-- The form shown by `Create_Appointment`. -/
def createAppointmentScreen : Screen :=
  [("Create Appointment".toList,
    ["Enter the vehicle ID: ".toList, "Enter the customer name: ".toList,
      "Enter the appointment type".toList, "Enter the date: ".toList])]

/-- The function `Create_Appointment`, with the six values read from the input:
the report and the warranty are appended to their files, the maintenance too when
the type is `Maintenance`, the appointment is added to the matrix and the matrix is
written to the appointments file. -/
def Create_Appointment (vehicleID : Int) (customerName appointmentType : List Char)
    (day month year : Int) (s : AppointmentState) : Option (AppointmentState × Screen) :=
  let newAppointment : Appointment := ⟨vehicleID, customerName, appointmentType⟩
  let newDate : Date := ⟨year, month, day⟩
  let history := CreateReport s.historyFile newAppointment newDate
  let warranty := CreateWarranty s.warrantyFile newAppointment newDate
  let maintenance :=
    if appointmentType = "Maintenance".toList then
      CreateMaintenance s.maintenanceFile newAppointment newDate
    else s.maintenanceFile
  match addAppointment newDate newAppointment s.appointmentMatrix with
  | none => none
  | some m1 =>
    let written := writeAppointmentsToFile m1 (s.appointmentsFile.getD [])
    some (⟨written.1, some written.2, history, warranty, maintenance⟩, createAppointmentScreen)

/-- The manipulator `setw(n)` on the next output: padded on the left with spaces to
the width `n`. -/
def setw (n : Nat) (s : List Char) : List Char :=
  List.replicate (n - s.length) ' ' ++ s

/-- The line that `List_Appointments` prints for a cell: none for an empty queue, and
the date with the customer name of the front otherwise. -/
def frontLine (date : Date) (appointments : Queue) : List Char :=
  match appointments with
  | [] => []
  | front :: _ =>
    " | ".toList ++ setw 19 (formatInt date.day) ++ "/".toList ++ formatInt date.month ++
      "/".toList ++ formatInt date.year ++ " | ".toList ++ front.customerName ++ "\n".toList

/-- The loop over `k` of `List_Appointments`, from index `k` on. -/
def listDays (i j : Nat) : Nat → List Queue → List Char → List Char
  | _, [], out => out
  | k, q :: qs, out => listDays i j (k + 1) qs (out ++ frontLine ⟨i, j, k⟩ q)

/-- The loop over `j` of `List_Appointments`, from index `j` on. -/
def listMonths (i : Nat) : Nat → List (List Queue) → List Char → List Char
  | _, [], out => out
  | j, monthSlot :: rest, out => listMonths i (j + 1) rest (listDays i j 0 monthSlot out)

/-- The loop over `i` of `List_Appointments`, from index `i` on. -/
def listYears : Nat → AppointmentMatrix → List Char → List Char
  | _, [], out => out
  | i, yearSlot :: rest, out => listYears (i + 1) rest (listMonths i 0 yearSlot out)

/-- The heading shown by `List_Appointments`. -/
def listAppointmentsScreen : Screen :=
  [("List Appointments".toList, ["   Date   | Customer Name ".toList])]

/-- The function `List_Appointments`: reads the appointments file into the matrix,
then prints the front of every queue that is not empty; no queue is popped.
Returns the state, the heading, the text printed and the text written to the error
stream. -/
def List_Appointments (uninit : Int) (s : AppointmentState) :
    Option (AppointmentState × Screen × List Char × List Char) :=
  match readAppointmentsFromFile uninit s.appointmentsFile s.appointmentMatrix with
  | none => none
  | some (m1, err) =>
    some (⟨m1, s.appointmentsFile, s.historyFile, s.warrantyFile, s.maintenanceFile⟩,
      listAppointmentsScreen, listYears 0 m1 [], err)

/-- An action of the appointment menu. -/
inductive AppointmentAction where
  | create (vehicleID : Int) (customerName appointmentType : List Char) (day month year : Int)
  | list
deriving DecidableEq

/-- The state after one action of the appointment menu. -/
def appointmentStep (uninit : Int) (s : AppointmentState) :
    AppointmentAction → Option AppointmentState
  | .create vehicleID customerName appointmentType day month year =>
    (Create_Appointment vehicleID customerName appointmentType day month year s).map Prod.fst
  | .list => (List_Appointments uninit s).map Prod.fst

/-- The state after a sequence of actions of the appointment menu. -/
def appointmentRun (uninit : Int) : List AppointmentAction → AppointmentState →
    Option AppointmentState
  | [], s => some s
  | a :: rest, s => (appointmentStep uninit s a).bind (appointmentRun uninit rest)

/-- The appointments created by a sequence of actions. -/
def createdCount (actions : List AppointmentAction) : Nat :=
  (actions.filter fun a => a != AppointmentAction.list).length

/-! ## Sequences of operations on the vehicle list -/

/-- The state in which a first run of the application starts: no vehicle, the
counter at 1, no vehicle file. -/
def startState : VehicleState := ⟨[], none, 1, none⟩

/-- An operation of the vehicle menu, with the values read from the input. -/
inductive VehicleAction where
  | registration (customerID : Int) (customerName model plateNumber : List Char)
  | update (id customerID : Int) (customerName model plateNumber : List Char)
  | delete (id : Int)
deriving DecidableEq

/-- The state after one operation of the vehicle menu. -/
def vehicleStep (s : VehicleState) : VehicleAction → Option VehicleState
  | .registration customerID customerName model plateNumber =>
    (Registration customerID customerName model plateNumber s).map Prod.fst
  | .update id customerID customerName model plateNumber =>
    (UpdateVehicle id customerID customerName model plateNumber s).map Prod.fst
  | .delete id => (DeleteVehicle id s).map Prod.fst

/-- The state after a sequence of operations of the vehicle menu. -/
def vehicleRun : List VehicleAction → VehicleState → Option VehicleState
  | [], s => some s
  | a :: rest, s => (vehicleStep s a).bind (vehicleRun rest)

/-- A run of the application: the state of the vehicle list, and the number of
vehicles that this run read from the vehicle file; they are at the addresses below
`loaded`.  A record of the file is the image of a `Vehicle` object, byte for byte.
Its `int` members and its pointers are plain values.  Its three string members are
images of string objects of the run that wrote the record, whose character buffers
do not exist in another run: in the vehicles that a run loaded the embedding keeps
the image, which is what is written back to the file, but the characters cannot be
read, and an assignment to such a string writes through a dangling pointer. -/
structure Process where
  state : VehicleState
  loaded : Nat
deriving DecidableEq

/-- The first run of the application: no vehicle, the counter at 1, no vehicle file,
nothing loaded. -/
def startProcess : Process := ⟨startState, 0⟩

/-- A fresh process on the vehicle file that the application left: the globals have
their initial values and `main` calls `loadVehiclesFromFile`; every vehicle of the
heap afterwards was read from the file. -/
def restart (p : Process) : Option Process :=
  (loadVehiclesFromFile p.state.vehicleFile ⟨[], none, 1, p.state.vehicleFile⟩).map fun s =>
    ⟨s, s.heap.length⟩

/-- An action on a run of the application: an operation of the vehicle menu, or the
end of the run and the start of a fresh one. -/
inductive ProcessAction where
  | operation (a : VehicleAction)
  | restart
deriving DecidableEq

/-- The actions whose behaviour is undefined in the run `p`: a `Registration` when
the counter is 2147483647, where `vehicleID++` leaves the range of `int`, and an
`UpdateVehicle` that finds a vehicle that the run read from the file, where
`cin >> current->customerName` assigns to the image of a string of another run. -/
def undefinedIn (p : Process) : ProcessAction → Bool
  | .operation (.registration _ _ _ _) => decide (p.state.vehicleID = 2147483647)
  | .operation (.update id _ _ _ _) =>
    match findVehicle p.state.heap id p.state.heap.length p.state.headVehicle with
    | some (some current) => decide (current < p.loaded)
    | _ => false
  | _ => false

/-- The run after one action: `none` when the behaviour is undefined. -/
def processStep (p : Process) (a : ProcessAction) : Option Process :=
  if undefinedIn p a then none
  else
    match a with
    | .operation a => (vehicleStep p.state a).map fun s => ⟨s, p.loaded⟩
    | .restart => restart p

/-- The run after a sequence of actions. -/
def processRun : List ProcessAction → Process → Option Process
  | [], p => some p
  | a :: rest, p => (processStep p a).bind (processRun rest)

/-- The vehicle IDs of the vehicles at the addresses `l`. -/
def idsAt (heap : List Vehicle) (l : List Nat) : List Int :=
  (recordsAt heap l).map Vehicle.vehicleID

/-- The last record of the vehicle file, when there is one, has `nullptr` stored as
`next`. -/
def fileEnds (s : VehicleState) : Prop :=
  (s.vehicleFile.getD []).getLast?.bind Vehicle.next = none

instance (s : VehicleState) : Decidable (fileEnds s) := by
  unfold fileEnds
  infer_instance

/-- What every sequence of operations keeps, for the forward traversal `l`: the list
ends, no `prev` pointer is dangling or points forward, the vehicle IDs increase
along the list and are below the counter, the vehicle file mirrors the list and its
last record has `nullptr` stored as `next`. -/
def ListInvariant (s : VehicleState) (l : List Nat) : Prop :=
  IsChain s.heap s.headVehicle l ∧ prevSafe s.heap l = true ∧
    (idsAt s.heap l).Pairwise (fun x y => x < y) ∧ (∀ i ∈ idsAt s.heap l, i < s.vehicleID) ∧
    Mirrors s l ∧ fileEnds s

instance (s : VehicleState) (l : List Nat) : Decidable (ListInvariant s l) := by
  unfold ListInvariant
  infer_instance

/-- What every sequence of actions keeps in a run, for the forward traversal `l`:
the invariant of the list, and the vehicle IDs and the counter are not negative and
the counter is at most 2147483647, so that they are values of an `int`. -/
def ProcessInvariant (p : Process) (l : List Nat) : Prop :=
  ListInvariant p.state l ∧ (∀ i ∈ idsAt p.state.heap l, 0 ≤ i) ∧
    0 ≤ p.state.vehicleID ∧ p.state.vehicleID ≤ 2147483647

instance (p : Process) (l : List Nat) : Decidable (ProcessInvariant p l) := by
  unfold ProcessInvariant
  infer_instance

/-! ## Lemmas: price calculation -/

theorem priceStep_diff (acc : PriceResult) (part : Part) :
    (priceStep acc part).totalAmount - (priceStep acc part).amountWithoutLabor =
      acc.totalAmount - acc.amountWithoutLabor + markup part.price := by
  unfold priceStep markup
  by_cases h1 : part.price < 500
  · simp only [h1, if_true]; ring
  · by_cases h2 : part.price < 2000
    · have h3 : 500 ≤ part.price := not_lt.mp h1
      simp only [h1, h2, h3, if_true, if_false, and_self]; ring
    · by_cases h4 : part.price < 10000
      · have h3 : 2000 ≤ part.price := not_lt.mp h2
        simp only [h1, h2, h3, h4, if_true, if_false, and_self, and_false]; ring
      · simp only [h1, h2, h4, if_false, and_false]; ring

theorem priceStep_without (acc : PriceResult) (part : Part) :
    (priceStep acc part).amountWithoutLabor = acc.amountWithoutLabor + part.price := rfl

theorem foldl_priceStep_diff (parts : List Part) (acc : PriceResult) :
    (parts.foldl priceStep acc).totalAmount - (parts.foldl priceStep acc).amountWithoutLabor =
      acc.totalAmount - acc.amountWithoutLabor + (parts.map fun p => markup p.price).sum := by
  induction parts generalizing acc with
  | nil => simp
  | cons p ps ih =>
    rw [List.foldl_cons, ih, priceStep_diff, List.map_cons, List.sum_cons]
    ring

theorem foldl_priceStep_without (parts : List Part) (acc : PriceResult) :
    (parts.foldl priceStep acc).amountWithoutLabor =
      acc.amountWithoutLabor + (parts.map fun p => p.price).sum := by
  induction parts generalizing acc with
  | nil => simp
  | cons p ps ih =>
    rw [List.foldl_cons, ih, priceStep_without, List.map_cons, List.sum_cons]
    ring

/-- C10: the labour part of the total. For every list of parts the difference
`totalAmount - amountWithoutLabor` returned by `calculateTotalPrice` is the sum of
the tier markups of the parts, each a function of the part's own price; the prices
200, 1000, 8000, 11000 give 32200 and 20200. -/
theorem calculateTotalPrice_markup (parts : List Part) :
    (calculateTotalPrice parts).totalAmount - (calculateTotalPrice parts).amountWithoutLabor =
        (parts.map fun p => markup p.price).sum ∧
      calculateTotalPrice
          [⟨1, "Part1".toList, "Model1".toList, 200⟩, ⟨2, "Part2".toList, "Model2".toList, 1000⟩,
            ⟨1, "Part3".toList, "Model3".toList, 8000⟩, ⟨2, "Part4".toList, "Model4".toList, 11000⟩] =
        ⟨32200, 20200⟩ := by
  refine ⟨?_, ?_⟩
  · unfold calculateTotalPrice
    rw [foldl_priceStep_diff]
    simp
  · simp only [calculateTotalPrice, List.foldl_cons, List.foldl_nil, priceStep]
    norm_num


/-! ## Lemmas: indexing -/

theorem index?_eq_some_iff {α : Type} {v : List α} {i : Int} {x : α} :
    index? v i = some x ↔ 0 ≤ i ∧ v[i.toNat]? = some x := by
  unfold index?
  by_cases h : 0 ≤ i <;> simp [h]

theorem index?_isSome_iff {α : Type} (v : List α) (i : Int) :
    (index? v i).isSome ↔ 0 ≤ i ∧ i < v.length := by
  unfold index?
  by_cases h : 0 ≤ i
  · simp only [h, if_true, true_and]
    rw [← Option.ne_none_iff_isSome, ne_eq, List.getElem?_eq_none_iff, not_le]
    omega
  · simp [h]

theorem index?_set_same {α : Type} {v : List α} {i : Int} {x : α} (y : α)
    (h : index? v i = some x) : index? (v.set i.toNat y) i = some y := by
  obtain ⟨h0, hx⟩ := index?_eq_some_iff.mp h
  have hlt : i.toNat < v.length := (List.getElem?_eq_some_iff.mp hx).1
  unfold index?
  simp [h0, List.getElem?_set, hlt]

theorem index?_set_ne {α : Type} (v : List α) {i j : Int} (y : α) (hi : 0 ≤ i)
    (hne : j ≠ i) : index? (v.set i.toNat y) j = index? v j := by
  unfold index?
  by_cases hj : 0 ≤ j
  · have : i.toNat ≠ j.toNat := by omega
    simp [hj, List.getElem?_set, this]
  · simp [hj]

theorem modifyAt_of_index? {α : Type} {v : List α} {i : Int} {f : α → Option α} {x y : α}
    (h : index? v i = some x) (hf : f x = some y) :
    modifyAt v i f = some (v.set i.toNat y) := by
  obtain ⟨h0, hx⟩ := index?_eq_some_iff.mp h
  unfold modifyAt
  simp [h0, hx, hf]

theorem modifyAt_eq_none {α : Type} {v : List α} {i : Int} (f : α → Option α)
    (h : index? v i = none) : modifyAt v i f = none := by
  unfold index? at h
  unfold modifyAt
  by_cases h0 : 0 ≤ i
  · simp only [h0, if_true] at h ⊢
    rw [h]
  · simp [h0]

/-- The three vectors met on the way to an existing cell. -/
theorem cell_eq_some_iff {m : AppointmentMatrix} {date : Date} {q : Queue} :
    cell m date = some q ↔
      ∃ yearSlot monthSlot, index? m date.year = some yearSlot ∧
        index? yearSlot date.month = some monthSlot ∧ index? monthSlot date.day = some q := by
  unfold cell
  constructor
  · intro h
    obtain ⟨ys, hy, h⟩ := Option.bind_eq_some.mp h
    obtain ⟨ms, hm, h⟩ := Option.bind_eq_some.mp h
    exact ⟨ys, ms, hy, hm, h⟩
  · rintro ⟨ys, ms, hy, hm, hd⟩
    simp [hy, hm, hd]

/-- A date is within the bounds of the matrix. -/
theorem cell_isSome_iff (m : AppointmentMatrix) (date : Date) :
    (cell m date).isSome ↔
      ∃ yearSlot monthSlot, index? m date.year = some yearSlot ∧
        index? yearSlot date.month = some monthSlot ∧ (index? monthSlot date.day).isSome := by
  rw [Option.isSome_iff_exists]
  constructor
  · rintro ⟨q, h⟩
    obtain ⟨ys, ms, hy, hm, hd⟩ := cell_eq_some_iff.mp h
    exact ⟨ys, ms, hy, hm, by simp [hd]⟩
  · rintro ⟨ys, ms, hy, hm, hd⟩
    obtain ⟨q, hq⟩ := Option.isSome_iff_exists.mp hd
    exact ⟨q, cell_eq_some_iff.mpr ⟨ys, ms, hy, hm, hq⟩⟩

/-- The explicit result of an in-place update of an existing cell. -/
theorem updateCell_of_index? {m : AppointmentMatrix} {date : Date} {f : Queue → Queue}
    {yearSlot : List (List Queue)} {monthSlot : List Queue} {q : Queue}
    (hy : index? m date.year = some yearSlot) (hm : index? yearSlot date.month = some monthSlot)
    (hd : index? monthSlot date.day = some q) :
    updateCell m date f =
      some (m.set date.year.toNat
        (yearSlot.set date.month.toNat (monthSlot.set date.day.toNat (f q)))) := by
  unfold updateCell
  exact modifyAt_of_index? hy (modifyAt_of_index? hm (modifyAt_of_index? hd rfl))

theorem updateCell_eq_none {m : AppointmentMatrix} {date : Date} (f : Queue → Queue)
    (h : cell m date = none) : updateCell m date f = none := by
  unfold cell index? at h
  unfold updateCell modifyAt
  by_cases hy0 : 0 ≤ date.year
  · simp only [hy0, if_true] at h ⊢
    cases hy : m[date.year.toNat]? with
    | none => rfl
    | some ys =>
      simp only [hy, Option.some_bind] at h ⊢
      by_cases hm0 : 0 ≤ date.month
      · simp only [hm0, if_true] at h ⊢
        cases hm : ys[date.month.toNat]? with
        | none => rfl
        | some ms =>
          simp only [hm, Option.some_bind] at h ⊢
          by_cases hd0 : 0 ≤ date.day
          · simp only [hd0, if_true] at h ⊢
            simp [h]
          · simp [hd0]
      · simp [hm0]
  · simp [hy0]

theorem dims_set_set_set (m : AppointmentMatrix) (y mo d : Nat)
    {yearSlot : List (List Queue)} {monthSlot : List Queue} (q : Queue)
    (hy : m[y]? = some yearSlot) (hm : yearSlot[mo]? = some monthSlot) :
    dims (m.set y (yearSlot.set mo (monthSlot.set d q))) = dims m := by
  unfold dims
  apply List.ext_getElem?
  intro n
  simp only [List.getElem?_map, List.getElem?_set]
  by_cases hn : y = n
  · subst hn
    have hlt : y < m.length := (List.getElem?_eq_some_iff.mp hy).1
    simp only [if_true, hlt, hy, Option.map_some']
    congr 1
    apply List.ext_getElem?
    intro k
    simp only [List.getElem?_map, List.getElem?_set]
    by_cases hk : mo = k
    · subst hk
      have hlt2 : mo < yearSlot.length := (List.getElem?_eq_some_iff.mp hm).1
      simp [hlt2, hm]
    · simp [hk]
  · simp [hn]

/-- The effect of an in-place update of an existing cell: the cell holds the
updated queue, every other cell and all the sizes are as before. -/
theorem updateCell_spec {m : AppointmentMatrix} {date : Date} {q : Queue} (f : Queue → Queue)
    (h : cell m date = some q) :
    ∃ m1, updateCell m date f = some m1 ∧ cell m1 date = some (f q) ∧
      (∀ other : Date, other ≠ date → cell m1 other = cell m other) ∧ dims m1 = dims m := by
  obtain ⟨ys, ms, hy, hm, hd⟩ := cell_eq_some_iff.mp h
  obtain ⟨hy0, hyx⟩ := index?_eq_some_iff.mp hy
  obtain ⟨hm0, hmx⟩ := index?_eq_some_iff.mp hm
  obtain ⟨hd0, hdx⟩ := index?_eq_some_iff.mp hd
  refine ⟨_, updateCell_of_index? hy hm hd, ?_, ?_, dims_set_set_set m _ _ _ _ hyx hmx⟩
  · unfold cell
    rw [index?_set_same _ hy, Option.some_bind, index?_set_same _ hm, Option.some_bind,
      index?_set_same _ hd]
  · intro other hne
    unfold cell
    by_cases h1 : other.year = date.year
    · rw [h1, index?_set_same _ hy, hy, Option.some_bind, Option.some_bind]
      by_cases h2 : other.month = date.month
      · rw [h2, index?_set_same _ hm, hm, Option.some_bind, Option.some_bind]
        have h3 : other.day ≠ date.day := by
          intro h3
          apply hne
          cases other; cases date; simp_all
        rw [index?_set_ne _ _ hd0 h3]
      · rw [index?_set_ne _ _ hm0 h2]
    · rw [index?_set_ne _ _ hy0 h1]


/-! ## Lemmas: initializeAppointmentMatrix -/

theorem length_resize {α : Type} (v : List α) (n : Nat) (d : α) : (resize v n d).length = n := by
  unfold resize
  simp only [List.length_append, List.length_take, List.length_replicate]
  omega

theorem resize_nil {α : Type} (n : Nat) (d : α) : resize ([] : List α) n d = List.replicate n d := by
  simp [resize]

theorem mem_of_index? {α : Type} {v : List α} {i : Int} {x : α} (h : index? v i = some x) :
    x ∈ v :=
  List.getElem?_mem (index?_eq_some_iff.mp h).2

theorem exists_index? {α : Type} (v : List α) (i : Int) (h0 : 0 ≤ i) (h1 : i < v.length) :
    ∃ x, index? v i = some x :=
  Option.isSome_iff_exists.mp ((index?_isSome_iff v i).mpr ⟨h0, h1⟩)

theorem initializeAppointmentMatrix_eq (years months days : Int) (h1 : 0 ≤ years)
    (h2 : 0 ≤ months) (h3 : 0 ≤ days) (prior : AppointmentMatrix) :
    initializeAppointmentMatrix years months days prior =
      some ((resize prior (years + 1).toNat []).map fun yearSlot =>
        (resize yearSlot (months + 1).toNat []).map fun monthSlot =>
          resize monthSlot (days + 1).toNat []) := by
  unfold initializeAppointmentMatrix
  have a1 : ¬ years + 1 < 0 := by omega
  have a2 : ¬ months + 1 < 0 := by omega
  have a3 : ¬ days + 1 < 0 := by omega
  simp only [a1, a2, a3, if_false, and_false]

/-- The sizes after `initializeAppointmentMatrix`, whatever the matrix held. -/
theorem initializeAppointmentMatrix_dims (years months days : Int) (h1 : 0 ≤ years)
    (h2 : 0 ≤ months) (h3 : 0 ≤ days) (prior : AppointmentMatrix) :
    ∃ m, initializeAppointmentMatrix years months days prior = some m ∧
      (m.length : Int) = years + 1 ∧
      (∀ yearSlot ∈ m, (yearSlot.length : Int) = months + 1 ∧
        ∀ monthSlot ∈ yearSlot, (monthSlot.length : Int) = days + 1) ∧
      (prior = [] → ∀ yearSlot ∈ m, ∀ monthSlot ∈ yearSlot, ∀ q ∈ monthSlot, q = []) := by
  refine ⟨_, initializeAppointmentMatrix_eq years months days h1 h2 h3 prior, ?_, ?_, ?_⟩
  · rw [List.length_map, length_resize]; omega
  · intro ys hys
    obtain ⟨ys0, _, rfl⟩ := List.mem_map.mp hys
    refine ⟨by rw [List.length_map, length_resize]; omega, ?_⟩
    intro ms hms
    obtain ⟨ms0, _, rfl⟩ := List.mem_map.mp hms
    rw [length_resize]; omega
  · intro hp ys hys ms hms q hq
    subst hp
    obtain ⟨ys0, hys0, rfl⟩ := List.mem_map.mp hys
    obtain ⟨ms0, hms0, rfl⟩ := List.mem_map.mp hms
    rw [resize_nil] at hys0
    obtain rfl := List.eq_of_mem_replicate hys0
    rw [resize_nil] at hms0
    obtain rfl := List.eq_of_mem_replicate hms0
    rw [resize_nil] at hq
    exact List.eq_of_mem_replicate hq

/-- After `initializeAppointmentMatrix` every date within the three bounds has a
cell; the cell is an empty queue when the matrix was empty before. -/
theorem initializeAppointmentMatrix_cell (years months days : Int) (h1 : 0 ≤ years)
    (h2 : 0 ≤ months) (h3 : 0 ≤ days) (prior : AppointmentMatrix) (date : Date)
    (hy : 0 ≤ date.year ∧ date.year ≤ years) (hm : 0 ≤ date.month ∧ date.month ≤ months)
    (hd : 0 ≤ date.day ∧ date.day ≤ days) :
    ∃ m, initializeAppointmentMatrix years months days prior = some m ∧
      ∃ yearSlot monthSlot q, index? m date.year = some yearSlot ∧
        index? yearSlot date.month = some monthSlot ∧ index? monthSlot date.day = some q ∧
        cell m date = some q ∧ (prior = [] → q = []) := by
  obtain ⟨m, hm0, hlen, hslots, hempty⟩ :=
    initializeAppointmentMatrix_dims years months days h1 h2 h3 prior
  obtain ⟨ys, hys⟩ := exists_index? m date.year hy.1 (by omega)
  have hysm := mem_of_index? hys
  obtain ⟨hl2, hms⟩ := hslots ys hysm
  obtain ⟨ms, hms1⟩ := exists_index? ys date.month hm.1 (by omega)
  have hmsm := mem_of_index? hms1
  have hl3 := hms ms hmsm
  obtain ⟨q, hq⟩ := exists_index? ms date.day hd.1 (by omega)
  exact ⟨m, hm0, ys, ms, q, hys, hms1, hq, cell_eq_some_iff.mpr ⟨ys, ms, hys, hms1, hq⟩,
    fun hp => hempty hp ys hysm ms hmsm q (mem_of_index? hq)⟩

theorem addAppointment_spec {m : AppointmentMatrix} {date : Date} {q : Queue} (a : Appointment)
    (h : cell m date = some q) :
    ∃ m1, addAppointment date a m = some m1 ∧ cell m1 date = some (q ++ [a]) ∧
      (∀ other : Date, other ≠ date → cell m1 other = cell m other) ∧ dims m1 = dims m :=
  updateCell_spec (fun q => q ++ [a]) h


/-! ## The matrix of `main` -/

theorem initializeAppointmentMatrix_main :
    initializeAppointmentMatrix 2050 13 30 [] = some mainMatrix := by
  unfold mainMatrix
  rw [initializeAppointmentMatrix_eq _ _ _ (by decide) (by decide) (by decide)]
  rfl

/-- Every date with year up to 2050, month up to 13 and day up to 30 has an empty
queue in the matrix of `main`. -/
theorem cell_mainMatrix (date : Date) (hy : 0 ≤ date.year ∧ date.year ≤ 2050)
    (hm : 0 ≤ date.month ∧ date.month ≤ 13) (hd : 0 ≤ date.day ∧ date.day ≤ 30) :
    cell mainMatrix date = some [] := by
  obtain ⟨m, hm0, _, _, q, _, _, _, hc, hq⟩ :=
    initializeAppointmentMatrix_cell 2050 13 30 (by decide) (by decide) (by decide) [] date hy hm hd
  rw [initializeAppointmentMatrix_main] at hm0
  rw [Option.some.inj hm0, hc, hq rfl]

/-! ## Claims on addAppointment and initializeAppointmentMatrix -/

/-- C2: `addAppointment` enqueues at the cell of the date. For every matrix and
every date within its bounds, with `q` the queue of the date, the call succeeds and
gives the matrix whose cell of the date is `q` with the appointment at the back,
whose other cells are unchanged and whose sizes are unchanged; on an empty cell the
front afterwards is the appointment. -/
theorem addAppointment_enqueues (m : AppointmentMatrix) (date : Date) (a : Appointment)
    (q : Queue) (h : cell m date = some q) :
    ∃ m1, addAppointment date a m = some m1 ∧ cell m1 date = some (q ++ [a]) ∧
      (∀ other : Date, other ≠ date → cell m1 other = cell m other) ∧ dims m1 = dims m ∧
      (q = [] → (cell m1 date).bind List.head? = some a) := by
  obtain ⟨m1, h1, h2, h3, h4⟩ := addAppointment_spec a h
  refine ⟨m1, h1, h2, h3, h4, ?_⟩
  intro hq
  subst hq
  rw [h2]
  rfl

/-- C2, the test `TestAddAppointment`: after `addAppointment` of John Doe at
(2023, 11, 14) on the matrix of `main` the front of that cell is John Doe. -/
theorem addAppointment_enqueues_witness :
    cell mainMatrix ⟨2023, 11, 14⟩ = some [] ∧
      ∃ m1, addAppointment ⟨2023, 11, 14⟩ ⟨1, "John Doe".toList, "Repair".toList⟩ mainMatrix =
          some m1 ∧
        cell m1 ⟨2023, 11, 14⟩ = some ([] ++ [⟨1, "John Doe".toList, "Repair".toList⟩]) ∧
        (∀ other : Date, other ≠ ⟨2023, 11, 14⟩ → cell m1 other = cell mainMatrix other) ∧
        dims m1 = dims mainMatrix ∧
        ([] = ([] : Queue) → (cell m1 ⟨2023, 11, 14⟩).bind List.head? =
          some ⟨1, "John Doe".toList, "Repair".toList⟩) :=
  ⟨cell_mainMatrix _ (by decide) (by decide) (by decide),
    addAppointment_enqueues mainMatrix ⟨2023, 11, 14⟩ ⟨1, "John Doe".toList, "Repair".toList⟩ []
      (cell_mainMatrix _ (by decide) (by decide) (by decide))⟩

theorem listLoop_eq (q : Queue) (start : Nat) (out : List Char) :
    listLoop (start : Int) q out =
      ([], out ++ numberedLines start (q.map fun a => a.customerName)) := by
  induction q generalizing start out with
  | nil => simp [listLoop, numberedLines]
  | cons a rest ih =>
    have hcast : (start : Int) + 1 = ((start + 1 : Nat) : Int) := by push_cast; rfl
    rw [listLoop, hcast, ih]
    simp [numberedLines, List.enumFrom_cons]

theorem set_getElem?_self {α : Type} {v : List α} {i : Nat} {x : α} (h : v[i]? = some x) :
    v.set i x = v := by
  apply List.ext_getElem?
  intro n
  rw [List.getElem?_set]
  by_cases hn : i = n
  · subst hn
    have hlt : i < v.length := (List.getElem?_eq_some_iff.mp h).1
    simp [hlt, h]
  · simp [hn]

/-- An update that does not change the queue does not change the matrix. -/
theorem updateCell_of_fixed {m : AppointmentMatrix} {date : Date} {q : Queue}
    {f : Queue → Queue} (h : cell m date = some q) (hf : f q = q) :
    updateCell m date f = some m := by
  obtain ⟨ys, ms, hy, hm, hd⟩ := cell_eq_some_iff.mp h
  rw [updateCell_of_index? hy hm hd, hf,
    set_getElem?_self (index?_eq_some_iff.mp hd).2, set_getElem?_self (index?_eq_some_iff.mp hm).2,
    set_getElem?_self (index?_eq_some_iff.mp hy).2]

/-- The result of `listAppointments` on a date within the bounds: the cell is
drained and the output is the header followed by the numbered names. -/
theorem listAppointments_spec {m : AppointmentMatrix} {date : Date} {q : Queue}
    (h : cell m date = some q) :
    ∃ m1, listAppointments date m =
        some (m1, listHeader date ++ numberedLines 1 (q.map fun a => a.customerName)) ∧
      cell m1 date = some [] ∧
      (∀ other : Date, other ≠ date → cell m1 other = cell m other) ∧ dims m1 = dims m := by
  obtain ⟨m1, h1, h2, h3, h4⟩ :=
    updateCell_spec (fun q0 => (listLoop 1 q0 (listHeader date)).1) h
  have hl : ∀ q0 : Queue, listLoop 1 q0 (listHeader date) =
      ([], listHeader date ++ numberedLines 1 (q0.map fun a => a.customerName)) := fun q0 =>
    listLoop_eq q0 1 (listHeader date)
  refine ⟨m1, ?_, ?_, h3, h4⟩
  · unfold listAppointments
    simp only [h]
    rw [h1, Option.map_some', hl]
  · rw [h2, hl]

theorem listAppointments_eq_none {m : AppointmentMatrix} {date : Date}
    (h : cell m date = none) : listAppointments date m = none := by
  unfold listAppointments
  simp only [h]

/-- Listing a date whose queue is empty prints the header only and changes
nothing. -/
theorem listAppointments_of_empty {m : AppointmentMatrix} {date : Date}
    (h : cell m date = some []) : listAppointments date m = some (m, listHeader date) := by
  unfold listAppointments
  simp only [h]
  rw [updateCell_of_fixed h (by rfl)]
  rfl

theorem cell_mainMatrixWith (date : Date) (a : Appointment)
    (hy : 0 ≤ date.year ∧ date.year ≤ 2050) (hm : 0 ≤ date.month ∧ date.month ≤ 13)
    (hd : 0 ≤ date.day ∧ date.day ≤ 30) : cell (mainMatrixWith date a) date = some [a] := by
  obtain ⟨m1, h1, h2, _, _⟩ := addAppointment_spec a (cell_mainMatrix date hy hm hd)
  unfold mainMatrixWith
  rw [h1, Option.getD_some, h2]
  rfl

/-! ## Claims on listAppointments -/

/-- C3: the output of `listAppointments`. For every date within the bounds whose
queue holds the appointments `q`, the call prints the header
`Appointments <day+1>.<month+1>.<year>:` and then one line `<i>. <name>` for each
appointment of `q` in queue order, numbered from 1. -/
theorem listAppointments_output (m : AppointmentMatrix) (date : Date) (q : Queue)
    (h : cell m date = some q) :
    ∃ m1, listAppointments date m =
      some (m1, "Appointments ".toList ++ formatInt (date.day + 1) ++ ['.'] ++
        formatInt (date.month + 1) ++ ['.'] ++ formatInt date.year ++ [':', '\n'] ++
        numberedLines 1 (q.map fun a => a.customerName)) := by
  obtain ⟨m1, h1, _⟩ := listAppointments_spec h
  refine ⟨m1, ?_⟩
  rw [h1]
  simp [listHeader]

/-- C3, the test `TestListAppointments`: John Doe queued at (2023, 11, 14) in the
matrix of `main` is listed as `Appointments 15.12.2023:` and `1. John Doe`. -/
theorem listAppointments_output_witness :
    cell (mainMatrixWith ⟨2023, 11, 14⟩ ⟨1, "John Doe".toList, "Repair".toList⟩) ⟨2023, 11, 14⟩ =
        some [⟨1, "John Doe".toList, "Repair".toList⟩] ∧
      ∃ m1, listAppointments ⟨2023, 11, 14⟩
          (mainMatrixWith ⟨2023, 11, 14⟩ ⟨1, "John Doe".toList, "Repair".toList⟩) =
        some (m1, "Appointments 15.12.2023:\n1. John Doe\n".toList) := by
  have hc := cell_mainMatrixWith ⟨2023, 11, 14⟩ ⟨1, "John Doe".toList, "Repair".toList⟩
    (by decide) (by decide) (by decide)
  refine ⟨hc, ?_⟩
  obtain ⟨m1, h1⟩ := listAppointments_output _ _ _ hc
  refine ⟨m1, ?_⟩
  rw [h1]
  exact congrArg (fun s => some (m1, s)) (by decide)

/-- C4, as stated, fails: in the matrix with the single cell (0, 0, 0) holding John
Doe, the second `listAppointments` of that date still prints the header line. -/
theorem listAppointments_second_call_prints_header :
    ((listAppointments ⟨0, 0, 0⟩ [[[[⟨1, "John Doe".toList, "Repair".toList⟩]]]]).bind fun r =>
        (listAppointments ⟨0, 0, 0⟩ r.1).map Prod.snd) = some "Appointments 1.1.0:\n".toList ∧
      "Appointments 1.1.0:\n".toList ≠ [] := by
  decide

/-- C4, amended: listing is consuming. For every date within the bounds, after
`listAppointments` the queue of the date is empty, every other cell and the sizes
are unchanged, and a second call on the same date prints the header line only, no
appointment line, and leaves the matrix as it is. -/
theorem listAppointments_consumes (m : AppointmentMatrix) (date : Date) (q : Queue)
    (h : cell m date = some q) :
    ∃ m1 out, listAppointments date m = some (m1, out) ∧ cell m1 date = some [] ∧
      (∀ other : Date, other ≠ date → cell m1 other = cell m other) ∧ dims m1 = dims m ∧
      listAppointments date m1 =
        some (m1, "Appointments ".toList ++ formatInt (date.day + 1) ++ ['.'] ++
          formatInt (date.month + 1) ++ ['.'] ++ formatInt date.year ++ [':', '\n']) := by
  obtain ⟨m1, h1, h2, h3, h4⟩ := listAppointments_spec h
  refine ⟨m1, _, h1, h2, h3, h4, ?_⟩
  rw [listAppointments_of_empty h2]
  simp [listHeader]

/-- C4, amended, on the test data: after John Doe at (2023, 11, 14) has been listed
the second listing prints `Appointments 15.12.2023:` only. -/
theorem listAppointments_consumes_witness :
    cell (mainMatrixWith ⟨2023, 11, 14⟩ ⟨1, "John Doe".toList, "Repair".toList⟩) ⟨2023, 11, 14⟩ =
        some [⟨1, "John Doe".toList, "Repair".toList⟩] ∧
      ∃ m1 out, listAppointments ⟨2023, 11, 14⟩
          (mainMatrixWith ⟨2023, 11, 14⟩ ⟨1, "John Doe".toList, "Repair".toList⟩) = some (m1, out) ∧
        cell m1 ⟨2023, 11, 14⟩ = some [] ∧
        listAppointments ⟨2023, 11, 14⟩ m1 = some (m1, "Appointments 15.12.2023:\n".toList) := by
  have hc := cell_mainMatrixWith ⟨2023, 11, 14⟩ ⟨1, "John Doe".toList, "Repair".toList⟩
    (by decide) (by decide) (by decide)
  refine ⟨hc, ?_⟩
  obtain ⟨m1, out, h1, h2, _, _, h5⟩ := listAppointments_consumes _ _ _ hc
  refine ⟨m1, out, h1, h2, ?_⟩
  rw [h5]
  exact congrArg (fun s => some (m1, s)) (by decide)

/-- C9: indexing after initialisation is within the bounds. After
`initializeAppointmentMatrix(years, months, days)` with non-negative arguments, on
any prior matrix, every date with `0 ≤ year ≤ years`, `0 ≤ month ≤ months`,
`0 ≤ day ≤ days` finds its year slot, month slot and queue, so `addAppointment`
and `listAppointments` are defined there. -/
theorem indexing_within_bounds (years months days : Int) (h1 : 0 ≤ years) (h2 : 0 ≤ months)
    (h3 : 0 ≤ days) (prior : AppointmentMatrix) (date : Date) (a : Appointment)
    (hy : 0 ≤ date.year ∧ date.year ≤ years) (hm : 0 ≤ date.month ∧ date.month ≤ months)
    (hd : 0 ≤ date.day ∧ date.day ≤ days) :
    ∃ m, initializeAppointmentMatrix years months days prior = some m ∧
      (∃ yearSlot monthSlot q, index? m date.year = some yearSlot ∧
        index? yearSlot date.month = some monthSlot ∧ index? monthSlot date.day = some q) ∧
      (addAppointment date a m).isSome ∧ (listAppointments date m).isSome := by
  obtain ⟨m, hm0, ys, ms, q, hys, hms, hq, hc, _⟩ :=
    initializeAppointmentMatrix_cell years months days h1 h2 h3 prior date hy hm hd
  refine ⟨m, hm0, ⟨ys, ms, q, hys, hms, hq⟩, ?_, ?_⟩
  · obtain ⟨m1, hadd, _⟩ := addAppointment_spec a hc
    rw [hadd]; rfl
  · obtain ⟨m1, hlist, _⟩ := listAppointments_spec hc
    rw [hlist]; rfl

/-- C9 at the values of `main` and of the tests: (2050, 13, 30) and the date
(2023, 11, 14). -/
theorem indexing_within_bounds_witness :
    ((0 : Int) ≤ 2050 ∧ (0 : Int) ≤ 13 ∧ (0 : Int) ≤ 30) ∧
      ((0 : Int) ≤ 2023 ∧ (2023 : Int) ≤ 2050) ∧ ((0 : Int) ≤ 11 ∧ (11 : Int) ≤ 13) ∧
      ((0 : Int) ≤ 14 ∧ (14 : Int) ≤ 30) ∧
      ∃ m, initializeAppointmentMatrix 2050 13 30 [] = some m ∧
        (∃ yearSlot monthSlot q, index? m 2023 = some yearSlot ∧
          index? yearSlot 11 = some monthSlot ∧ index? monthSlot 14 = some q) ∧
        (addAppointment ⟨2023, 11, 14⟩ ⟨1, "John Doe".toList, "Repair".toList⟩ m).isSome ∧
        (listAppointments ⟨2023, 11, 14⟩ m).isSome :=
  ⟨by decide, by decide, by decide, by decide,
    indexing_within_bounds 2050 13 30 (by decide) (by decide) (by decide) [] ⟨2023, 11, 14⟩
      ⟨1, "John Doe".toList, "Repair".toList⟩ (by decide) (by decide) (by decide)⟩


/-! ## Lemmas: writeAppointmentsToFile -/

theorem entriesDays_nil (i j k0 : Nat) : entriesDays i j k0 [] = [] := rfl

theorem entriesDays_cons (i j k0 : Nat) (q : Queue) (qs : List Queue) :
    entriesDays i j k0 (q :: qs) = cellEntries i j k0 q ++ entriesDays i j (k0 + 1) qs := by
  simp [entriesDays, List.enumFrom_cons]

theorem entriesMonths_nil (i j0 : Nat) : entriesMonths i j0 [] = [] := rfl

theorem entriesMonths_cons (i j0 : Nat) (ms : List Queue) (rest : List (List Queue)) :
    entriesMonths i j0 (ms :: rest) = entriesDays i j0 0 ms ++ entriesMonths i (j0 + 1) rest := by
  simp [entriesMonths, List.enumFrom_cons]

theorem entriesYears_nil (i0 : Nat) : entriesYears i0 [] = [] := rfl

theorem entriesYears_cons (i0 : Nat) (ys : List (List Queue)) (rest : AppointmentMatrix) :
    entriesYears i0 (ys :: rest) = entriesMonths i0 0 ys ++ entriesYears (i0 + 1) rest := by
  simp [entriesYears, List.enumFrom_cons]

theorem drainToFile_eq (date : Date) (q : Queue) (file : List Char) :
    drainToFile date q file = ([], file ++ q.flatMap (appointmentLine date)) := by
  induction q generalizing file with
  | nil => simp [drainToFile]
  | cons a rest ih => rw [drainToFile, ih]; simp

theorem writeDays_eq (i j k : Nat) (qs : List Queue) (file : List Char) :
    writeDays i j k qs file =
      (qs.map fun _ => [],
        file ++ (entriesDays i j k qs).flatMap fun e => appointmentLine e.1 e.2) := by
  induction qs generalizing k file with
  | nil => simp [writeDays, entriesDays_nil]
  | cons q rest ih =>
    rw [writeDays, ih, drainToFile_eq, entriesDays_cons]
    simp [cellEntries, List.flatMap_map]

theorem writeMonths_eq (i j : Nat) (ys : List (List Queue)) (file : List Char) :
    writeMonths i j ys file =
      (ys.map fun monthSlot => monthSlot.map fun _ => [],
        file ++ (entriesMonths i j ys).flatMap fun e => appointmentLine e.1 e.2) := by
  induction ys generalizing j file with
  | nil => simp [writeMonths, entriesMonths_nil]
  | cons ms rest ih =>
    rw [writeMonths, ih, writeDays_eq, entriesMonths_cons]
    simp

theorem writeYears_eq (i : Nat) (m : AppointmentMatrix) (file : List Char) :
    writeYears i m file =
      (emptied m, file ++ (entriesYears i m).flatMap fun e => appointmentLine e.1 e.2) := by
  induction m generalizing i file with
  | nil => simp [writeYears, entriesYears_nil, emptied]
  | cons ys rest ih =>
    rw [writeYears, ih, writeMonths_eq, entriesYears_cons]
    simp [emptied]

/-- The result of `writeAppointmentsToFile`: every queue is emptied and the lines of
the entries are appended in order. -/
theorem writeAppointmentsToFile_eq (m : AppointmentMatrix) (file : List Char) :
    writeAppointmentsToFile m file =
      (emptied m, file ++ (entries m).flatMap fun e => appointmentLine e.1 e.2) :=
  writeYears_eq 0 m file

theorem dims_emptied (m : AppointmentMatrix) : dims (emptied m) = dims m := by
  simp [dims, emptied, Function.comp_def]

theorem emptied_queues (m : AppointmentMatrix) :
    ∀ yearSlot ∈ emptied m, ∀ monthSlot ∈ yearSlot, ∀ q ∈ monthSlot, q = [] := by
  intro ys hys ms hms q hq
  obtain ⟨ys0, _, rfl⟩ := List.mem_map.mp hys
  obtain ⟨ms0, _, rfl⟩ := List.mem_map.mp hms
  obtain ⟨q0, _, rfl⟩ := List.mem_map.mp hq
  rfl

theorem index?_map {α β : Type} (f : α → β) (v : List α) (i : Int) :
    index? (v.map f) i = (index? v i).map f := by
  unfold index?
  by_cases h : 0 ≤ i <;> simp [h]

theorem cell_emptied (m : AppointmentMatrix) (date : Date) :
    cell (emptied m) date = (cell m date).map fun _ => [] := by
  unfold cell emptied
  rw [index?_map]
  cases index? m date.year with
  | none => rfl
  | some ys =>
    simp only [Option.map_some', Option.some_bind]
    rw [index?_map]
    cases index? ys date.month with
    | none => rfl
    | some ms =>
      simp only [Option.map_some', Option.some_bind]
      rw [index?_map]

/-- C6: `writeAppointmentsToFile` drains the matrix and keeps its shape. For every
matrix and file, after the call every queue of the matrix is empty, and the number
of year slots, of month slots of every year and of day slots of every month are
unchanged, so the same dates are within the bounds. -/
theorem writeAppointmentsToFile_drains (m : AppointmentMatrix) (file : List Char) :
    (∀ yearSlot ∈ (writeAppointmentsToFile m file).1, ∀ monthSlot ∈ yearSlot,
        ∀ q ∈ monthSlot, q = []) ∧
      dims (writeAppointmentsToFile m file).1 = dims m ∧
      (writeAppointmentsToFile m file).1.length = m.length ∧
      ∀ date : Date, cell (writeAppointmentsToFile m file).1 date =
        (cell m date).map fun _ => [] := by
  rw [writeAppointmentsToFile_eq]
  refine ⟨emptied_queues m, dims_emptied m, by simp [emptied], cell_emptied m⟩


/-! ## Lemmas: the entries of a matrix -/

theorem mem_cellEntries {i j k : Nat} {q : Queue} {e : Date × Appointment}
    (h : e ∈ cellEntries i j k q) : e.1 = ⟨i, j, k⟩ ∧ e.2 ∈ q := by
  obtain ⟨a, ha, rfl⟩ := List.mem_map.mp h
  exact ⟨rfl, ha⟩

theorem mem_entriesDays {i j k0 : Nat} {ms : List Queue} {e : Date × Appointment}
    (h : e ∈ entriesDays i j k0 ms) :
    ∃ (n : Nat) (q : Queue), ms[n]? = some q ∧ e.1 = ⟨i, j, (k0 + n : Nat)⟩ ∧ e.2 ∈ q := by
  induction ms generalizing k0 with
  | nil => simp [entriesDays_nil] at h
  | cons q0 rest ih =>
    rw [entriesDays_cons, List.mem_append] at h
    rcases h with h | h
    · obtain ⟨h1, h2⟩ := mem_cellEntries h
      exact ⟨0, q0, List.getElem?_cons_zero, by simpa using h1, h2⟩
    · obtain ⟨n, q, h1, h2, h3⟩ := ih h
      refine ⟨n + 1, q, by simpa using h1, ?_, h3⟩
      rw [h2]
      congr 2
      omega

theorem mem_entriesMonths {i j0 : Nat} {ys : List (List Queue)} {e : Date × Appointment}
    (h : e ∈ entriesMonths i j0 ys) :
    ∃ (n : Nat) (ms : List Queue) (k : Nat) (q : Queue), ys[n]? = some ms ∧ ms[k]? = some q ∧
      e.1 = ⟨i, (j0 + n : Nat), k⟩ ∧ e.2 ∈ q := by
  induction ys generalizing j0 with
  | nil => simp [entriesMonths_nil] at h
  | cons ms0 rest ih =>
    rw [entriesMonths_cons, List.mem_append] at h
    rcases h with h | h
    · obtain ⟨k, q, h1, h2, h3⟩ := mem_entriesDays h
      exact ⟨0, ms0, k, q, List.getElem?_cons_zero, h1, by simpa using h2, h3⟩
    · obtain ⟨n, ms, k, q, h1, h2, h3, h4⟩ := ih h
      refine ⟨n + 1, ms, k, q, by simpa using h1, h2, ?_, h4⟩
      rw [h3]
      congr 2
      omega

theorem mem_entriesYears {i0 : Nat} {m : AppointmentMatrix} {e : Date × Appointment}
    (h : e ∈ entriesYears i0 m) :
    ∃ (n : Nat) (ys : List (List Queue)) (j : Nat) (ms : List Queue) (k : Nat) (q : Queue),
      m[n]? = some ys ∧ ys[j]? = some ms ∧ ms[k]? = some q ∧
      e.1 = ⟨(i0 + n : Nat), j, k⟩ ∧ e.2 ∈ q := by
  induction m generalizing i0 with
  | nil => simp [entriesYears_nil] at h
  | cons ys0 rest ih =>
    rw [entriesYears_cons, List.mem_append] at h
    rcases h with h | h
    · obtain ⟨j, ms, k, q, h1, h2, h3, h4⟩ := mem_entriesMonths h
      exact ⟨0, ys0, j, ms, k, q, List.getElem?_cons_zero, h1, h2, by simpa using h3, h4⟩
    · obtain ⟨n, ys, j, ms, k, q, h1, h2, h3, h4, h5⟩ := ih h
      refine ⟨n + 1, ys, j, ms, k, q, by simpa using h1, h2, h3, ?_, h5⟩
      rw [h4]
      congr 2
      omega

/-! ### The order of the entries -/

theorem pairwise_cellEntries (i j k : Nat) (q : Queue) :
    (cellEntries i j k q).Pairwise fun e1 e2 => dateLe e1.1 e2.1 := by
  apply List.Pairwise.imp_of_mem (R := fun _ _ => True)
  · intro e1 e2 h1 h2 _
    rw [(mem_cellEntries h1).1, (mem_cellEntries h2).1]
    simp [dateLe]
  · exact List.pairwise_of_forall (fun _ _ => trivial)

theorem pairwise_entriesDays (i j k0 : Nat) (ms : List Queue) :
    (entriesDays i j k0 ms).Pairwise fun e1 e2 => dateLe e1.1 e2.1 := by
  induction ms generalizing k0 with
  | nil => simp [entriesDays_nil]
  | cons q0 rest ih =>
    rw [entriesDays_cons, List.pairwise_append]
    refine ⟨pairwise_cellEntries i j k0 q0, ih (k0 + 1), ?_⟩
    intro e1 h1 e2 h2
    obtain ⟨n, q, _, h3, _⟩ := mem_entriesDays h2
    rw [(mem_cellEntries h1).1, h3]
    simp only [dateLe, Nat.cast_le, lt_self_iff_false, true_and, false_or, Nat.cast_lt]
    omega

theorem pairwise_entriesMonths (i j0 : Nat) (ys : List (List Queue)) :
    (entriesMonths i j0 ys).Pairwise fun e1 e2 => dateLe e1.1 e2.1 := by
  induction ys generalizing j0 with
  | nil => simp [entriesMonths_nil]
  | cons ms0 rest ih =>
    rw [entriesMonths_cons, List.pairwise_append]
    refine ⟨pairwise_entriesDays i j0 0 ms0, ih (j0 + 1), ?_⟩
    intro e1 h1 e2 h2
    obtain ⟨n1, q1, _, h3, _⟩ := mem_entriesDays h1
    obtain ⟨n, ms, k, q, _, _, h4, _⟩ := mem_entriesMonths h2
    rw [h3, h4]
    simp only [dateLe, Nat.cast_le, lt_self_iff_false, true_and, false_or, Nat.cast_lt]
    omega

theorem pairwise_entriesYears (i0 : Nat) (m : AppointmentMatrix) :
    (entriesYears i0 m).Pairwise fun e1 e2 => dateLe e1.1 e2.1 := by
  induction m generalizing i0 with
  | nil => simp [entriesYears_nil]
  | cons ys0 rest ih =>
    rw [entriesYears_cons, List.pairwise_append]
    refine ⟨pairwise_entriesMonths i0 0 ys0, ih (i0 + 1), ?_⟩
    intro e1 h1 e2 h2
    obtain ⟨n1, ms1, k1, q1, _, _, h3, _⟩ := mem_entriesMonths h1
    obtain ⟨n, ys, j, ms, k, q, _, _, _, h4, _⟩ := mem_entriesYears h2
    rw [h3, h4]
    simp only [dateLe, Nat.cast_lt]
    omega

/-! ### The number of entries -/

theorem length_entriesDays (i j k0 : Nat) (ms : List Queue) :
    (entriesDays i j k0 ms).length = (ms.map List.length).sum := by
  induction ms generalizing k0 with
  | nil => simp [entriesDays_nil]
  | cons q0 rest ih => simp [entriesDays_cons, ih, cellEntries]

theorem length_entriesMonths (i j0 : Nat) (ys : List (List Queue)) :
    (entriesMonths i j0 ys).length = (ys.map fun ms => (ms.map List.length).sum).sum := by
  induction ys generalizing j0 with
  | nil => simp [entriesMonths_nil]
  | cons ms0 rest ih => simp [entriesMonths_cons, ih, length_entriesDays]

theorem length_entriesYears (i0 : Nat) (m : AppointmentMatrix) :
    (entriesYears i0 m).length = total m := by
  induction m generalizing i0 with
  | nil => simp [entriesYears_nil, total]
  | cons ys0 rest ih =>
    simp only [entriesYears_cons, List.length_append, ih, length_entriesMonths]
    simp [total]


/-! ### The entries of one cell -/

theorem filter_eq_nil_of_ne {l : List (Date × Appointment)} {date : Date}
    (h : ∀ e ∈ l, e.1 ≠ date) : (l.filter fun e => decide (e.1 = date)) = [] := by
  rw [List.filter_eq_nil_iff]
  intro e he
  simpa using h e he

theorem filter_cellEntries (i j k : Nat) (q : Queue) :
    ((cellEntries i j k q).filter fun e => decide (e.1 = ⟨i, j, k⟩)).map Prod.snd = q := by
  have h : ((cellEntries i j k q).filter fun e => decide (e.1 = ⟨i, j, k⟩)) = cellEntries i j k q := by
    rw [List.filter_eq_self]
    intro e he
    simpa using (mem_cellEntries he).1
  rw [h]
  simp [cellEntries, Function.comp_def]

theorem filter_entriesDays {i j k0 n : Nat} {ms : List Queue} {q : Queue}
    (h : ms[n]? = some q) :
    ((entriesDays i j k0 ms).filter fun e => decide (e.1 = ⟨i, j, (k0 + n : Nat)⟩)).map
      Prod.snd = q := by
  induction ms generalizing k0 n with
  | nil => simp at h
  | cons q0 rest ih =>
    rw [entriesDays_cons, List.filter_append, List.map_append]
    cases n with
    | zero =>
      obtain rfl : q0 = q := by simpa using h
      have h2 : ((entriesDays i j (k0 + 1) rest).filter fun e =>
          decide (e.1 = ⟨i, j, (k0 + 0 : Nat)⟩)) = [] := by
        apply filter_eq_nil_of_ne
        intro e he
        obtain ⟨n, q, _, h3, _⟩ := mem_entriesDays he
        rw [h3]
        simp only [ne_eq, Date.mk.injEq, true_and, Nat.cast_inj]
        omega
      rw [h2, Nat.add_zero, filter_cellEntries]
      simp
    | succ n =>
      have h1 : ((cellEntries i j k0 q0).filter fun e =>
          decide (e.1 = ⟨i, j, (k0 + (n + 1) : Nat)⟩)) = [] := by
        apply filter_eq_nil_of_ne
        intro e he
        rw [(mem_cellEntries he).1]
        simp only [ne_eq, Date.mk.injEq, true_and, Nat.cast_inj]
        omega
      have h2 : k0 + (n + 1) = k0 + 1 + n := by omega
      rw [h1, h2, ih (by simpa using h)]
      rfl

theorem filter_entriesMonths {i j0 n k : Nat} {ys : List (List Queue)} {ms : List Queue}
    {q : Queue} (hm : ys[n]? = some ms) (hd : ms[k]? = some q) :
    ((entriesMonths i j0 ys).filter fun e => decide (e.1 = ⟨i, (j0 + n : Nat), k⟩)).map
      Prod.snd = q := by
  induction ys generalizing j0 n with
  | nil => simp at hm
  | cons ms0 rest ih =>
    rw [entriesMonths_cons, List.filter_append, List.map_append]
    cases n with
    | zero =>
      obtain rfl : ms0 = ms := by simpa using hm
      have h2 : ((entriesMonths i (j0 + 1) rest).filter fun e =>
          decide (e.1 = ⟨i, (j0 + 0 : Nat), k⟩)) = [] := by
        apply filter_eq_nil_of_ne
        intro e he
        obtain ⟨n, ms, k1, q1, _, _, h3, _⟩ := mem_entriesMonths he
        rw [h3]
        simp only [ne_eq, Date.mk.injEq, true_and, Nat.cast_inj]
        omega
      have h3 := @filter_entriesDays i j0 0 k _ _ hd
      rw [Nat.zero_add] at h3
      rw [h2, Nat.add_zero, h3]
      simp
    | succ n =>
      have h1 : ((entriesDays i j0 0 ms0).filter fun e =>
          decide (e.1 = ⟨i, (j0 + (n + 1) : Nat), k⟩)) = [] := by
        apply filter_eq_nil_of_ne
        intro e he
        obtain ⟨n1, q1, _, h3, _⟩ := mem_entriesDays he
        rw [h3]
        simp only [ne_eq, Date.mk.injEq, true_and, Nat.cast_inj]
        omega
      have h2 : j0 + (n + 1) = j0 + 1 + n := by omega
      rw [h1, h2, ih (by simpa using hm)]
      rfl

theorem filter_entriesYears {i0 n j k : Nat} {m : AppointmentMatrix} {ys : List (List Queue)}
    {ms : List Queue} {q : Queue} (hy : m[n]? = some ys) (hm : ys[j]? = some ms)
    (hd : ms[k]? = some q) :
    ((entriesYears i0 m).filter fun e => decide (e.1 = ⟨(i0 + n : Nat), j, k⟩)).map
      Prod.snd = q := by
  induction m generalizing i0 n with
  | nil => simp at hy
  | cons ys0 rest ih =>
    rw [entriesYears_cons, List.filter_append, List.map_append]
    cases n with
    | zero =>
      obtain rfl : ys0 = ys := by simpa using hy
      have h2 : ((entriesYears (i0 + 1) rest).filter fun e =>
          decide (e.1 = ⟨(i0 + 0 : Nat), j, k⟩)) = [] := by
        apply filter_eq_nil_of_ne
        intro e he
        obtain ⟨n, ys, j1, ms1, k1, q1, _, _, _, h3, _⟩ := mem_entriesYears he
        rw [h3]
        simp only [ne_eq, Date.mk.injEq, Nat.cast_inj]
        omega
      have h3 := @filter_entriesMonths i0 0 j k _ _ _ hm hd
      rw [Nat.zero_add] at h3
      rw [h2, Nat.add_zero, h3]
      simp
    | succ n =>
      have h1 : ((entriesMonths i0 0 ys0).filter fun e =>
          decide (e.1 = ⟨(i0 + (n + 1) : Nat), j, k⟩)) = [] := by
        apply filter_eq_nil_of_ne
        intro e he
        obtain ⟨n1, ms1, k1, q1, _, _, h3, _⟩ := mem_entriesMonths he
        rw [h3]
        simp only [ne_eq, Date.mk.injEq, Nat.cast_inj]
        omega
      have h2 : i0 + (n + 1) = i0 + 1 + n := by omega
      rw [h1, h2, ih (by simpa using hy)]
      rfl

theorem date_eq_of_nonneg (date : Date) (hy : 0 ≤ date.year) (hm : 0 ≤ date.month)
    (hd : 0 ≤ date.day) :
    date = ⟨(date.year.toNat : Nat), (date.month.toNat : Nat), (date.day.toNat : Nat)⟩ := by
  cases date
  simp only [Date.mk.injEq]
  simp only at hy hm hd
  omega

/-- The entries whose date is that of a cell are the appointments of the cell, in
queue order. -/
theorem filter_entries {m : AppointmentMatrix} {date : Date} {q : Queue}
    (h : cell m date = some q) :
    ((entries m).filter fun e => decide (e.1 = date)).map Prod.snd = q := by
  obtain ⟨ys, ms, hy, hm, hd⟩ := cell_eq_some_iff.mp h
  obtain ⟨hy0, hyx⟩ := index?_eq_some_iff.mp hy
  obtain ⟨hm0, hmx⟩ := index?_eq_some_iff.mp hm
  obtain ⟨hd0, hdx⟩ := index?_eq_some_iff.mp hd
  have h1 := @filter_entriesYears 0 _ _ _ m ys ms q hyx hmx hdx
  rw [Nat.zero_add, ← date_eq_of_nonneg date hy0 hm0 hd0] at h1
  exact h1

/-- Every entry is an appointment of the cell of its date. -/
theorem cell_of_mem_entries {m : AppointmentMatrix} {e : Date × Appointment}
    (h : e ∈ entries m) : ∃ q, cell m e.1 = some q ∧ e.2 ∈ q := by
  obtain ⟨n, ys, j, ms, k, q, h1, h2, h3, h4, h5⟩ := mem_entriesYears h
  refine ⟨q, ?_, h5⟩
  rw [h4, Nat.zero_add]
  apply cell_eq_some_iff.mpr
  refine ⟨ys, ms, ?_, ?_, ?_⟩ <;>
    simp [index?, h1, h2, h3]

/-! ## Lemmas: decimal output and input -/

theorem digitChar_isDigit : ∀ d : Fin 10, (Nat.digitChar d.val).isDigit = true ∧
    digitValue (Nat.digitChar d.val) = d.val := by
  decide

theorem digitChar_spec (d : Nat) (h : d < 10) :
    (Nat.digitChar d).isDigit = true ∧ digitValue (Nat.digitChar d) = d :=
  digitChar_isDigit ⟨d, h⟩

theorem toDigitsCore_spec (fuel n : Nat) (ds : List Char) (h : n < fuel)
    (hds : ∀ c ∈ ds, c.isDigit = true) :
    (∀ c ∈ Nat.toDigitsCore 10 fuel n ds, c.isDigit = true) ∧
      Nat.toDigitsCore 10 fuel n ds ≠ [] ∧
      (Nat.toDigitsCore 10 fuel n ds).foldl (fun acc c => acc * 10 + digitValue c) 0 =
        ds.foldl (fun acc c => acc * 10 + digitValue c) n := by
  induction fuel generalizing n ds with
  | zero => omega
  | succ fuel ih =>
    have hd := digitChar_spec (n % 10) (Nat.mod_lt n (by decide))
    unfold Nat.toDigitsCore
    by_cases h0 : n / 10 = 0
    · simp only [h0, if_true]
      refine ⟨?_, by simp, ?_⟩
      · intro c hc
        rcases List.mem_cons.mp hc with rfl | hc
        · exact hd.1
        · exact hds c hc
      · rw [List.foldl_cons, hd.2]
        have : n % 10 = n := Nat.mod_eq_of_lt (by omega)
        simp [this]
    · simp only [h0, if_false]
      have hds2 : ∀ c ∈ Nat.digitChar (n % 10) :: ds, c.isDigit = true := by
        intro c hc
        rcases List.mem_cons.mp hc with rfl | hc
        · exact hd.1
        · exact hds c hc
      obtain ⟨h1, h2, h3⟩ := ih (n / 10) (Nat.digitChar (n % 10) :: ds) (by omega) hds2
      refine ⟨h1, h2, ?_⟩
      rw [h3, List.foldl_cons, hd.2]
      have : n / 10 * 10 + n % 10 = n := by omega
      rw [this]

/-- The decimal digits of a number are digits, at least one, and have the number as
their value. -/
theorem toDigits_spec (n : Nat) :
    (∀ c ∈ Nat.toDigits 10 n, c.isDigit = true) ∧ Nat.toDigits 10 n ≠ [] ∧
      digitsValue (Nat.toDigits 10 n) = n := by
  obtain ⟨h1, h2, h3⟩ := toDigitsCore_spec (n + 1) n [] (by omega) (by simp)
  exact ⟨h1, h2, by simpa [digitsValue, Nat.toDigits] using h3⟩

theorem formatInt_natCast (n : Nat) : formatInt (n : Int) = Nat.toDigits 10 n := by
  unfold formatInt
  have : ¬ ((n : Int) < 0) := by omega
  simp [this]

theorem isspace_iff (c : Char) :
    isspace c = true ↔
      c = ' ' ∨ c = '\t' ∨ c = '\n' ∨ c = '\x0b' ∨ c = '\x0c' ∨ c = '\r' := by
  simp [isspace, or_assoc]

theorem isDigit_not_isspace {c : Char} (h : c.isDigit = true) : isspace c = false := by
  cases hs : isspace c with
  | false => rfl
  | true =>
    exfalso
    rcases (isspace_iff c).mp hs with rfl | rfl | rfl | rfl | rfl | rfl <;>
      exact absurd h (by decide)

theorem isDigit_not_sign {c : Char} (h : c.isDigit = true) : c ≠ '-' ∧ c ≠ '+' := by
  constructor <;> (rintro rfl; exact absurd h (by decide))

theorem newline_isspace {c : Char} (h : isspace c = false) : c ≠ '\n' := by
  rintro rfl
  exact absurd h (by decide)

theorem isDigit_ne_newline {c : Char} (h : c.isDigit = true) : c ≠ '\n' :=
  newline_isspace (isDigit_not_isspace h)

/-! ### Extraction from a stream that starts with a formatted value -/

theorem dropWhile_of_head {α : Type} (p : α → Bool) (x : α) (xs : List α) (h : p x = false) :
    (x :: xs).dropWhile p = x :: xs := by
  simp [List.dropWhile, h]

theorem takeWhile_append_of_all {α : Type} (p : α → Bool) (xs rest : List α)
    (h : ∀ x ∈ xs, p x = true) (hr : ∀ x, rest.head? = some x → p x = false) :
    (xs ++ rest).takeWhile p = xs ∧ (xs ++ rest).dropWhile p = rest := by
  induction xs with
  | nil =>
    cases rest with
    | nil => simp
    | cons r rs =>
      have := hr r rfl
      simp [List.takeWhile, List.dropWhile, this]
  | cons x xs ih =>
    have hx := h x (List.mem_cons_self x xs)
    have ih2 := ih (fun y hy => h y (List.mem_cons_of_mem x hy))
    simp [List.takeWhile, List.dropWhile, hx, ih2.1, ih2.2]

theorem readSign_of_digit (c : Char) (s : List Char) (h : c.isDigit = true) :
    readSign (c :: s) = (false, c :: s) := by
  obtain ⟨h1, h2⟩ := isDigit_not_sign h
  unfold readSign
  split
  · rename_i heq
    exact absurd (List.cons.inj heq).1 h1
  · rename_i heq
    exact absurd (List.cons.inj heq).1 h2
  · rfl

/-- Reading back a number just written: `>> int` on the decimal digits of `n`
followed by a text that does not start with a digit gives `n` and leaves that
text, when `n` fits in an `int`. -/
theorem extractInt_formatInt (n : Nat) (rest : List Char) (hn : n ≤ 2147483647)
    (hr : ∀ x, rest.head? = some x → x.isDigit = false) :
    extractInt (formatInt (n : Int) ++ rest) = some ((n : Int), rest) := by
  obtain ⟨h1, h2, h3⟩ := toDigits_spec n
  rw [formatInt_natCast]
  obtain ⟨c, cs, hcs⟩ := List.exists_cons_of_ne_nil h2
  have hc : c.isDigit = true := h1 c (by rw [hcs]; exact List.mem_cons_self c cs)
  have hdrop : (Nat.toDigits 10 n ++ rest).dropWhile isspace = Nat.toDigits 10 n ++ rest := by
    rw [hcs, List.cons_append]
    exact dropWhile_of_head _ _ _ (isDigit_not_isspace hc)
  have hsign : readSign (Nat.toDigits 10 n ++ rest) = (false, Nat.toDigits 10 n ++ rest) := by
    rw [hcs, List.cons_append]
    exact readSign_of_digit _ _ hc
  obtain ⟨ht, hd⟩ := takeWhile_append_of_all Char.isDigit (Nat.toDigits 10 n) rest h1 hr
  unfold extractInt
  simp only [hdrop, hsign, ht, hd, h2, if_false, h3]
  have : (-2147483648 : Int) ≤ (n : Int) ∧ (n : Int) ≤ 2147483647 := by omega
  simp [this]

theorem extractInt_space (s : List Char) : extractInt (' ' :: s) = extractInt s := by
  unfold extractInt
  have : (' ' :: s).dropWhile isspace = s.dropWhile isspace := by
    simp [List.dropWhile, isspace]
  rw [this]

/-- Reading back a name just written: `>> string` on a space followed by a name
without whitespace, at the end of the line, gives the name. -/
theorem extractWord_space_word (w : List Char) (hw : w ≠ [])
    (hs : ∀ c ∈ w, isspace c = false) : extractWord (' ' :: w) = some (w, []) := by
  obtain ⟨c, cs, rfl⟩ := List.exists_cons_of_ne_nil hw
  have hc := hs c (List.mem_cons_self c cs)
  have h1 : (' ' :: c :: cs).dropWhile isspace = c :: cs := by
    have : isspace ' ' = true := by decide
    simp [List.dropWhile, this, hc]
  obtain ⟨ht, hd⟩ := takeWhile_append_of_all (fun c => !isspace c) (c :: cs) []
    (fun x hx => by simp [hs x hx]) (by simp)
  rw [List.append_nil] at ht hd
  unfold extractWord
  simp only [h1, ht, hd]
  simp


/-! ## Lemmas: the lines of the appointments file -/

theorem isWord_iff (s : List Char) :
    isWord s = true ↔ s ≠ [] ∧ ∀ c ∈ s, isspace c = false := by
  cases s <;> simp [isWord]

theorem formatInt_natCast_digits (n : Nat) : ∀ c ∈ formatInt (n : Int), c.isDigit = true := by
  rw [formatInt_natCast]
  exact (toDigits_spec n).1

/-- A written line parses back to its date and name, when the indices fit in an
`int` and the name is a word. -/
theorem parseLine_written (i j k : Nat) (a : Appointment) (hi : i ≤ 2147483647)
    (hj : j ≤ 2147483647) (hk : k ≤ 2147483647) (hw : isWord a.customerName = true) :
    parseLine (writtenLine (⟨i, j, k⟩, a)) = some ((k : Int), (j : Int), (i : Int), a.customerName) := by
  obtain ⟨hne, hsp⟩ := (isWord_iff _).mp hw
  have hsp' : ∀ (s : List Char) (x : Char), (' ' :: s).head? = some x → x.isDigit = false := by
    intro s x hx
    obtain rfl : ' ' = x := by simpa using hx
    decide
  unfold parseLine writtenLine
  simp only
  rw [extractInt_formatInt k _ hk (hsp' _)]
  simp only
  rw [extractInt_space, extractInt_formatInt j _ hj (hsp' _)]
  simp only
  rw [extractInt_space, extractInt_formatInt i _ hi (hsp' _)]
  simp only
  rw [extractWord_space_word _ hne hsp]

theorem writtenLine_no_newline (i j k : Nat) (a : Appointment)
    (hw : isWord a.customerName = true) : ∀ c ∈ writtenLine (⟨i, j, k⟩, a), c ≠ '\n' := by
  obtain ⟨_, hsp⟩ := (isWord_iff _).mp hw
  intro c hc
  unfold writtenLine at hc
  simp only [List.mem_append, List.mem_cons] at hc
  rcases hc with hc | rfl | hc | rfl | hc | rfl | hc
  · exact isDigit_ne_newline (formatInt_natCast_digits k c hc)
  · decide
  · exact isDigit_ne_newline (formatInt_natCast_digits j c hc)
  · decide
  · exact isDigit_ne_newline (formatInt_natCast_digits i c hc)
  · decide
  · exact newline_isspace (hsp c hc)

theorem appointmentLine_eq (e : Date × Appointment) :
    appointmentLine e.1 e.2 = writtenLine e ++ ['\n'] := by
  simp [appointmentLine, writtenLine]

theorem getlines_append_newline (l rest : List Char) (h : ∀ c ∈ l, c ≠ '\n') :
    getlines (l ++ '\n' :: rest) = l :: getlines rest := by
  induction l with
  | nil => simp [getlines]
  | cons c cs ih =>
    have hc : c ≠ '\n' := h c (List.mem_cons_self c cs)
    rw [List.cons_append, getlines]
    simp only [hc, if_false]
    rw [ih (fun x hx => h x (List.mem_cons_of_mem c hx))]

theorem getlines_flatMap (ls : List (List Char)) (h : ∀ l ∈ ls, ∀ c ∈ l, c ≠ '\n') :
    getlines (ls.flatMap fun l => l ++ ['\n']) = ls := by
  induction ls with
  | nil => simp [getlines]
  | cons l rest ih =>
    rw [List.flatMap_cons, List.append_assoc, List.singleton_append,
      getlines_append_newline l _ (h l (List.mem_cons_self l rest)),
      ih (fun x hx => h x (List.mem_cons_of_mem l hx))]

/-! ## Lemmas: readAppointmentsFromFile -/

theorem enqueuedAt_nil (uninit : Int) (date : Date) : enqueuedAt uninit [] date = [] := rfl

theorem enqueuedAt_cons_none (uninit : Int) (line : List Char) (rest : List (List Char))
    (date : Date) (h : parseLine line = none) :
    enqueuedAt uninit (line :: rest) date = enqueuedAt uninit rest date := by
  simp [enqueuedAt, List.filterMap_cons, h]

theorem enqueuedAt_cons_same (uninit : Int) (line : List Char) (rest : List (List Char))
    (day month year : Int) (name : List Char) (h : parseLine line = some (day, month, year, name)) :
    enqueuedAt uninit (line :: rest) ⟨year, month, day⟩ =
      ⟨uninit, name, []⟩ :: enqueuedAt uninit rest ⟨year, month, day⟩ := by
  simp [enqueuedAt, List.filterMap_cons, h]

theorem enqueuedAt_cons_other (uninit : Int) (line : List Char) (rest : List (List Char))
    (day month year : Int) (name : List Char) (date : Date)
    (h : parseLine line = some (day, month, year, name)) (hne : date ≠ ⟨year, month, day⟩) :
    enqueuedAt uninit (line :: rest) date = enqueuedAt uninit rest date := by
  have : ¬ ((⟨year, month, day⟩ : Date) = date) := fun h => hne h.symm
  simp [enqueuedAt, List.filterMap_cons, h, this]

theorem diagnostics_nil : diagnostics [] = [] := rfl

theorem diagnostics_cons_none (line : List Char) (rest : List (List Char))
    (h : parseLine line = none) :
    diagnostics (line :: rest) = formatError line ++ diagnostics rest := by
  simp [diagnostics, List.filter_cons, h, formatError]

theorem diagnostics_cons_some (line : List Char) (rest : List (List Char))
    (p : Int × Int × Int × List Char) (h : parseLine line = some p) :
    diagnostics (line :: rest) = diagnostics rest := by
  simp [diagnostics, List.filter_cons, h]

/-- The result of the reading loop when every line that parses has its date within
the bounds: the diagnostics of the lines that do not parse, in order, and in every
cell the appointments of the lines that parse with its date, appended in order. -/
theorem readLoop_spec (uninit : Int) (ls : List (List Char)) (m : AppointmentMatrix)
    (err : List Char)
    (hb : ∀ line ∈ ls, ∀ day month year name,
      parseLine line = some (day, month, year, name) → (cell m ⟨year, month, day⟩).isSome) :
    ∃ m1, readLoop uninit ls m err = some (m1, err ++ diagnostics ls) ∧ dims m1 = dims m ∧
      ∀ date : Date, cell m1 date = (cell m date).map fun q => q ++ enqueuedAt uninit ls date := by
  induction ls generalizing m err with
  | nil =>
    refine ⟨m, by simp [readLoop, diagnostics_nil], rfl, ?_⟩
    intro date
    cases cell m date <;> simp [enqueuedAt_nil]
  | cons line rest ih =>
    cases hp : parseLine line with
    | none =>
      obtain ⟨m1, h1, h2, h3⟩ := ih m (err ++ formatError line)
        (fun l hl => hb l (List.mem_cons_of_mem line hl))
      refine ⟨m1, ?_, h2, ?_⟩
      · rw [readLoop]
        simp only [hp]
        rw [h1, diagnostics_cons_none line rest hp, List.append_assoc]
      · intro date
        rw [h3 date, enqueuedAt_cons_none uninit line rest date hp]
    | some p =>
      obtain ⟨day, month, year, name⟩ := p
      have hin := hb line (List.mem_cons_self line rest) day month year name hp
      obtain ⟨q0, hq0⟩ := Option.isSome_iff_exists.mp hin
      obtain ⟨m0, ha, hc, ho, hdim⟩ := addAppointment_spec ⟨uninit, name, []⟩ hq0
      have hb0 : ∀ l ∈ rest, ∀ d mo y n,
          parseLine l = some (d, mo, y, n) → (cell m0 ⟨y, mo, d⟩).isSome := by
        intro l hl d mo y n hpl
        have := hb l (List.mem_cons_of_mem line hl) d mo y n hpl
        by_cases hsame : (⟨y, mo, d⟩ : Date) = ⟨year, month, day⟩
        · rw [hsame, hc]; rfl
        · rw [ho _ hsame]; exact this
      obtain ⟨m1, h1, h2, h3⟩ := ih m0 err hb0
      refine ⟨m1, ?_, h2.trans hdim, ?_⟩
      · rw [readLoop]
        simp only [hp, ha]
        rw [h1, diagnostics_cons_some line rest _ hp]
      · intro date
        rw [h3 date]
        by_cases hsame : date = ⟨year, month, day⟩
        · rw [hsame, hc, hq0, enqueuedAt_cons_same uninit line rest day month year name hp]
          simp
        · rw [ho _ hsame, enqueuedAt_cons_other uninit line rest day month year name date hp hsame]

theorem readLoop_eq_none (uninit : Int) (line : List Char) (rest : List (List Char))
    (m : AppointmentMatrix) (err : List Char) (day month year : Int) (name : List Char)
    (hp : parseLine line = some (day, month, year, name))
    (hc : cell m ⟨year, month, day⟩ = none) : readLoop uninit (line :: rest) m err = none := by
  rw [readLoop]
  simp only [hp]
  have : addAppointment ⟨year, month, day⟩ ⟨uninit, name, []⟩ m = none :=
    updateCell_eq_none _ hc
  rw [this]


/-! ## Lemmas: writing and reading back -/

theorem enqueuedAt_written (uninit : Int) (es : List (Date × Appointment)) (date : Date)
    (h : ∀ e ∈ es, parseLine (writtenLine e) =
      some (e.1.day, e.1.month, e.1.year, e.2.customerName)) :
    enqueuedAt uninit (es.map writtenLine) date =
      ((es.filter fun e => decide (e.1 = date)).map Prod.snd).map (restored uninit) := by
  induction es with
  | nil => rfl
  | cons e rest ih =>
    have he := h e (List.mem_cons_self e rest)
    have ih2 := ih (fun x hx => h x (List.mem_cons_of_mem e hx))
    rw [List.map_cons]
    by_cases hd : e.1 = date
    · have hd2 : date = ⟨e.1.year, e.1.month, e.1.day⟩ := by rw [← hd]
      rw [hd2, enqueuedAt_cons_same uninit _ _ _ _ _ _ he, ← hd2, ih2]
      simp [List.filter_cons, hd, restored]
    · have hd2 : date ≠ ⟨e.1.year, e.1.month, e.1.day⟩ := fun h => hd h.symm
      rw [enqueuedAt_cons_other uninit _ _ _ _ _ _ date he hd2, ih2]
      simp [List.filter_cons, hd]

theorem diagnostics_written (es : List (Date × Appointment))
    (h : ∀ e ∈ es, parseLine (writtenLine e) =
      some (e.1.day, e.1.month, e.1.year, e.2.customerName)) :
    diagnostics (es.map writtenLine) = [] := by
  induction es with
  | nil => rfl
  | cons e rest ih =>
    rw [List.map_cons, diagnostics_cons_some _ _ _ (h e (List.mem_cons_self e rest)),
      ih (fun x hx => h x (List.mem_cons_of_mem e hx))]

/-- The facts on an entry of a matrix whose names are words and whose indices fit
in an `int`: its line has no newline inside and parses back to the entry. -/
theorem entry_written {m : AppointmentMatrix}
    (hnames : ∀ (date : Date) (q : Queue), cell m date = some q →
      ∀ a ∈ q, isWord a.customerName = true)
    (hfit : ∀ date : Date, (cell m date).isSome →
      date.year ≤ 2147483647 ∧ date.month ≤ 2147483647 ∧ date.day ≤ 2147483647)
    {e : Date × Appointment} (he : e ∈ entries m) :
    (∀ c ∈ writtenLine e, c ≠ '\n') ∧
      parseLine (writtenLine e) = some (e.1.day, e.1.month, e.1.year, e.2.customerName) := by
  obtain ⟨n, ys, j, ms, k, q, _, _, _, h4, _⟩ := mem_entriesYears he
  obtain ⟨q1, hq1, hmem⟩ := cell_of_mem_entries he
  have hw := hnames e.1 q1 hq1 e.2 hmem
  have hf := hfit e.1 (by rw [hq1]; rfl)
  obtain ⟨d, a⟩ := e
  simp only at h4 hw hf ⊢
  subst h4
  simp only [Nat.cast_le_ofNat] at hf
  exact ⟨writtenLine_no_newline _ _ _ a hw, parseLine_written _ _ _ a hf.1 hf.2.1 hf.2.2 hw⟩

/-- Writing to an empty file and reading the file back, for a matrix whose names
are words and whose indices fit in an `int`: no diagnostic, and every cell holds
its appointments again, in order, with the customer name only. -/
theorem write_read_spec (uninit : Int) (m : AppointmentMatrix)
    (hnames : ∀ (date : Date) (q : Queue), cell m date = some q →
      ∀ a ∈ q, isWord a.customerName = true)
    (hfit : ∀ date : Date, (cell m date).isSome →
      date.year ≤ 2147483647 ∧ date.month ≤ 2147483647 ∧ date.day ≤ 2147483647) :
    ∃ m1, readAppointmentsFromFile uninit (some (writeAppointmentsToFile m []).2)
        (writeAppointmentsToFile m []).1 = some (m1, []) ∧ dims m1 = dims m ∧
      ∀ date : Date, cell m1 date = (cell m date).map (List.map (restored uninit)) := by
  have hent := fun e (he : e ∈ entries m) => entry_written hnames hfit he
  have hfile : (writeAppointmentsToFile m []).2 =
      ((entries m).map writtenLine).flatMap fun l => l ++ ['\n'] := by
    rw [writeAppointmentsToFile_eq]
    simp [List.flatMap_map, appointmentLine_eq]
  have hlines : getlines (writeAppointmentsToFile m []).2 = (entries m).map writtenLine := by
    rw [hfile]
    apply getlines_flatMap
    intro l hl
    obtain ⟨e, he, rfl⟩ := List.mem_map.mp hl
    exact (hent e he).1
  have hparse : ∀ e ∈ entries m, parseLine (writtenLine e) =
      some (e.1.day, e.1.month, e.1.year, e.2.customerName) := fun e he => (hent e he).2
  have hb : ∀ line ∈ (entries m).map writtenLine, ∀ day month year name,
      parseLine line = some (day, month, year, name) →
        (cell (emptied m) ⟨year, month, day⟩).isSome := by
    intro line hl day month year name hp
    obtain ⟨e, he, rfl⟩ := List.mem_map.mp hl
    rw [hparse e he] at hp
    simp only [Option.some.injEq, Prod.mk.injEq] at hp
    obtain ⟨rfl, rfl, rfl, _⟩ := hp
    obtain ⟨q1, hq1, _⟩ := cell_of_mem_entries he
    rw [cell_emptied, hq1]
    rfl
  obtain ⟨m1, h1, h2, h3⟩ := readLoop_spec uninit _ (emptied m) [] hb
  refine ⟨m1, ?_, ?_, ?_⟩
  · unfold readAppointmentsFromFile
    simp only [hlines]
    rw [writeAppointmentsToFile_eq]
    simp only
    rw [h1, diagnostics_written _ hparse]
    rfl
  · rw [h2, dims_emptied]
  · intro date
    rw [h3 date, cell_emptied, enqueuedAt_written uninit _ date hparse]
    cases hc : cell m date with
    | none => rfl
    | some q =>
      rw [filter_entries hc]
      simp

/-- The cells of the matrix of `main`: empty queues, at dates with year up to 2050,
month up to 13 and day up to 30 only. -/
theorem cell_mainMatrix_some {date : Date} {q : Queue} (h : cell mainMatrix date = some q) :
    q = [] ∧ date.year ≤ 2050 ∧ date.month ≤ 13 ∧ date.day ≤ 30 := by
  obtain ⟨m, hm0, hlen, hslots, hempty⟩ :=
    initializeAppointmentMatrix_dims 2050 13 30 (by decide) (by decide) (by decide) []
  rw [initializeAppointmentMatrix_main] at hm0
  obtain rfl := Option.some.inj hm0
  obtain ⟨ys, ms, hy, hmo, hd⟩ := cell_eq_some_iff.mp h
  have hysm := mem_of_index? hy
  have hmsm := mem_of_index? hmo
  obtain ⟨hl2, hl3⟩ := hslots ys hysm
  have hl3 := hl3 ms hmsm
  have b1 := ((index?_isSome_iff _ _).mp (by rw [hy]; rfl)).2
  have b2 := ((index?_isSome_iff _ _).mp (by rw [hmo]; rfl)).2
  have b3 := ((index?_isSome_iff _ _).mp (by rw [hd]; rfl)).2
  refine ⟨hempty rfl ys hysm ms hmsm q (mem_of_index? hd), ?_, ?_, ?_⟩ <;> omega

/-- The cells of the matrix of `main` after one `addAppointment` at a date within
its bounds. -/
theorem cell_mainMatrixWith_some {date : Date} {a : Appointment}
    (hy : 0 ≤ date.year ∧ date.year ≤ 2050) (hm : 0 ≤ date.month ∧ date.month ≤ 13)
    (hd : 0 ≤ date.day ∧ date.day ≤ 30) {other : Date} {q : Queue}
    (h : cell (mainMatrixWith date a) other = some q) :
    (q = [a] ∨ q = []) ∧ other.year ≤ 2050 ∧ other.month ≤ 13 ∧ other.day ≤ 30 := by
  by_cases hsame : other = date
  · subst hsame
    rw [cell_mainMatrixWith other a hy hm hd] at h
    exact ⟨Or.inl (Option.some.inj h).symm, hy.2, hm.2, hd.2⟩
  · obtain ⟨m1, h1, _, h3, _⟩ := addAppointment_spec a (cell_mainMatrix date hy hm hd)
    unfold mainMatrixWith at h
    rw [h1, Option.getD_some, h3 other hsame] at h
    obtain ⟨h4, h5⟩ := cell_mainMatrix_some h
    exact ⟨Or.inr h4, h5⟩


/-! ## Claim on the round trip through the appointments file -/

/-- C1, as stated, fails: in the matrix with the single cell (0, 0, 0) holding the
customer John Doe, `writeAppointmentsToFile` to an empty file writes
`0 0 0 John Doe`, and `readAppointmentsFromFile` puts the customer John, not John
Doe, in the cell. -/
theorem write_read_loses_name_after_space :
    (writeAppointmentsToFile [[[[⟨1, "John Doe".toList, "Repair".toList⟩]]]] []).2 =
        "0 0 0 John Doe\n".toList ∧
      ((readAppointmentsFromFile 0
          (some (writeAppointmentsToFile [[[[⟨1, "John Doe".toList, "Repair".toList⟩]]]] []).2)
          (writeAppointmentsToFile [[[[⟨1, "John Doe".toList, "Repair".toList⟩]]]] []).1).bind
        fun r => (cell r.1 ⟨0, 0, 0⟩).map (List.map Appointment.customerName)) =
        some ["John".toList] ∧
      (cell [[[[⟨1, "John Doe".toList, "Repair".toList⟩]]]] ⟨0, 0, 0⟩).map
        (List.map Appointment.customerName) = some ["John Doe".toList] ∧
      ["John".toList] ≠ ["John Doe".toList] := by
  decide

/-- C1, amended: the round trip for names that are words. For every matrix whose
queued customer names are non-empty and without whitespace, and whose indices fit
in an `int`, `writeAppointmentsToFile` to an empty file followed by
`readAppointmentsFromFile` of that file succeeds without a diagnostic, keeps the
sizes, and leaves in every cell the same customer names in the same order as before
the write; the vehicle ID is the indeterminate one and the appointment type is
empty. -/
theorem write_then_read_restores_names (uninit : Int) (m : AppointmentMatrix)
    (hnames : ∀ (date : Date) (q : Queue), cell m date = some q →
      ∀ a ∈ q, isWord a.customerName = true)
    (hfit : ∀ date : Date, (cell m date).isSome →
      date.year ≤ 2147483647 ∧ date.month ≤ 2147483647 ∧ date.day ≤ 2147483647) :
    ∃ m1, readAppointmentsFromFile uninit (some (writeAppointmentsToFile m []).2)
        (writeAppointmentsToFile m []).1 = some (m1, []) ∧ dims m1 = dims m ∧
      (∀ date : Date, (cell m1 date).map (List.map Appointment.customerName) =
        (cell m date).map (List.map Appointment.customerName)) ∧
      ∀ date : Date, cell m1 date =
        (cell m date).map (List.map fun a => ⟨uninit, a.customerName, []⟩) := by
  obtain ⟨m1, h1, h2, h3⟩ := write_read_spec uninit m hnames hfit
  refine ⟨m1, h1, h2, ?_, ?_⟩
  · intro date
    rw [h3 date]
    cases cell m date with
    | none => rfl
    | some q => simp [restored, Function.comp_def]
  · intro date
    rw [h3 date]
    rfl

/-- C1, amended, the test `TestReadAndWriteAppointments`: John queued at
(2023, 10, 11) in the matrix of `main` is at the front of that cell after the write
to an empty file and the read. -/
theorem write_then_read_restores_names_witness :
    ∃ m1, readAppointmentsFromFile 0
        (some (writeAppointmentsToFile
          (mainMatrixWith ⟨2023, 10, 11⟩ ⟨1, "John".toList, "Repair".toList⟩) []).2)
        (writeAppointmentsToFile
          (mainMatrixWith ⟨2023, 10, 11⟩ ⟨1, "John".toList, "Repair".toList⟩) []).1 =
          some (m1, []) ∧
      ((cell m1 ⟨2023, 10, 11⟩).bind List.head?).map Appointment.customerName =
        some "John".toList := by
  have hnames : ∀ (date : Date) (q : Queue),
      cell (mainMatrixWith ⟨2023, 10, 11⟩ ⟨1, "John".toList, "Repair".toList⟩) date = some q →
        ∀ a ∈ q, isWord a.customerName = true := by
    intro date q hq a ha
    rcases (cell_mainMatrixWith_some (by decide) (by decide) (by decide) hq).1 with rfl | rfl
    · obtain rfl := List.mem_singleton.mp ha
      decide
    · simp at ha
  have hfit : ∀ date : Date,
      (cell (mainMatrixWith ⟨2023, 10, 11⟩ ⟨1, "John".toList, "Repair".toList⟩) date).isSome →
        date.year ≤ 2147483647 ∧ date.month ≤ 2147483647 ∧ date.day ≤ 2147483647 := by
    intro date hd
    obtain ⟨q, hq⟩ := Option.isSome_iff_exists.mp hd
    have := (cell_mainMatrixWith_some (by decide) (by decide) (by decide) hq).2
    omega
  obtain ⟨m1, h1, _, _, h4⟩ := write_then_read_restores_names 0 _ hnames hfit
  refine ⟨m1, h1, ?_⟩
  rw [h4, cell_mainMatrixWith _ _ (by decide) (by decide) (by decide)]
  rfl


/-! ## Lemmas: tokens and extraction -/

theorem writtenLine_newline_free (e : Date × Appointment) (he : 0 ≤ e.1.year ∧ 0 ≤ e.1.month ∧ 0 ≤ e.1.day)
    (hn : ∀ c ∈ e.2.customerName, c ≠ '\n') : ∀ c ∈ writtenLine e, c ≠ '\n' := by
  have hdig : ∀ v : Int, 0 ≤ v → ∀ c ∈ formatInt v, c ≠ '\n' := by
    intro v hv c hc
    obtain ⟨n, rfl⟩ := Int.eq_ofNat_of_zero_le hv
    exact isDigit_ne_newline (formatInt_natCast_digits n c hc)
  intro c hc
  unfold writtenLine at hc
  simp only [List.mem_append, List.mem_cons] at hc
  rcases hc with hc | rfl | hc | rfl | hc | rfl | hc
  · exact hdig _ he.2.2 c hc
  · decide
  · exact hdig _ he.2.1 c hc
  · decide
  · exact hdig _ he.1 c hc
  · decide
  · exact hn c hc

theorem entry_date_nonneg {m : AppointmentMatrix} {e : Date × Appointment}
    (he : e ∈ entries m) : 0 ≤ e.1.year ∧ 0 ≤ e.1.month ∧ 0 ≤ e.1.day := by
  obtain ⟨n, ys, j, ms, k, q, _, _, _, h4, _⟩ := mem_entriesYears he
  rw [h4]
  simp

/-- The lines that `getline` finds in the text written for a matrix whose customer
names have no newline inside: one per entry. -/
theorem getlines_written (m : AppointmentMatrix)
    (hn : ∀ e ∈ entries m, ∀ c ∈ e.2.customerName, c ≠ '\n') :
    getlines ((entries m).flatMap fun e => appointmentLine e.1 e.2) =
      (entries m).map writtenLine := by
  have h1 : ((entries m).flatMap fun e => appointmentLine e.1 e.2) =
      ((entries m).map writtenLine).flatMap fun l => l ++ ['\n'] := by
    simp [List.flatMap_map, appointmentLine_eq]
  rw [h1]
  apply getlines_flatMap
  intro l hl
  obtain ⟨e, he, rfl⟩ := List.mem_map.mp hl
  exact writtenLine_newline_free e (entry_date_nonneg he) (hn e he)

/-- C5: the lines appended by `writeAppointmentsToFile`. For every matrix and file
content, the content afterwards is the previous content followed by one line
`<day> <month> <year> <customerName>` per entry of the matrix; the entries are as
many as the queued appointments, their dates ascend by year, then month, then day,
every entry sits in the cell of its date, and the entries of one cell are its queue
in order. When no customer name has a newline inside, the appended text read line by
line is these lines, as many as the queued appointments. -/
theorem writeAppointmentsToFile_appends (m : AppointmentMatrix) (file : List Char) :
    (writeAppointmentsToFile m file).2 =
        file ++ (entries m).flatMap (fun e =>
          formatInt e.1.day ++ [' '] ++ formatInt e.1.month ++ [' '] ++ formatInt e.1.year ++
            [' '] ++ e.2.customerName ++ ['\n']) ∧
      (entries m).length = total m ∧
      (entries m).Pairwise (fun e1 e2 => dateLe e1.1 e2.1) ∧
      (∀ e ∈ entries m, ∃ q, cell m e.1 = some q ∧ e.2 ∈ q) ∧
      (∀ (date : Date) (q : Queue), cell m date = some q →
        ((entries m).filter fun e => decide (e.1 = date)).map Prod.snd = q) ∧
      ((∀ e ∈ entries m, ∀ c ∈ e.2.customerName, c ≠ '\n') →
        (getlines ((entries m).flatMap (fun e =>
          formatInt e.1.day ++ [' '] ++ formatInt e.1.month ++ [' '] ++ formatInt e.1.year ++
            [' '] ++ e.2.customerName ++ ['\n']))).length = total m) := by
  have hline : (fun e : Date × Appointment =>
      formatInt e.1.day ++ [' '] ++ formatInt e.1.month ++ [' '] ++ formatInt e.1.year ++
        [' '] ++ e.2.customerName ++ ['\n']) = fun e => appointmentLine e.1 e.2 := by
    funext e
    simp [appointmentLine]
  refine ⟨?_, length_entriesYears 0 m, pairwise_entriesYears 0 m,
    fun e he => cell_of_mem_entries he, fun date q h => filter_entries h, ?_⟩
  · rw [writeAppointmentsToFile_eq, hline]
  · intro hn
    rw [hline, getlines_written m hn, List.length_map]
    exact length_entriesYears 0 m

/-- C5 on a matrix of 2 years, 3 months and 2 days with Ann at [1][2][0] and Bob,
then Cy, at [1][2][1], appended to a file that holds one line. -/
theorem writeAppointmentsToFile_appends_witness :
    (writeAppointmentsToFile
        [[[[], []], [[], []], [[], []]],
          [[[], []], [[], []],
            [[⟨1, "Ann".toList, "Repair".toList⟩],
              [⟨2, "Bob".toList, "Repair".toList⟩, ⟨3, "Cy".toList, "Maintenance".toList⟩]]]]
        "7 7 7 Old\n".toList).2 =
      "7 7 7 Old\n0 2 1 Ann\n1 2 1 Bob\n1 2 1 Cy\n".toList :=
  (writeAppointmentsToFile_appends _ _).1.trans (by decide)


/-! ## Lemmas: forward traversals -/

theorem isChain_nil {heap : List Vehicle} {p : Option Nat} : IsChain heap p [] ↔ p = none := by
  cases p <;> simp [IsChain, isChain]

theorem isChain_cons {heap : List Vehicle} {p : Option Nat} {a : Nat} {l : List Nat} :
    IsChain heap p (a :: l) ↔ p = some a ∧ ∃ v, heap[a]? = some v ∧ IsChain heap v.next l := by
  unfold IsChain
  rw [isChain]
  cases h : heap[a]? with
  | none => simp
  | some v => simp

theorem isChain_functional {heap : List Vehicle} {p : Option Nat} {l1 l2 : List Nat}
    (h1 : IsChain heap p l1) (h2 : IsChain heap p l2) : l1 = l2 := by
  induction l1 generalizing p l2 with
  | nil =>
    have hp := isChain_nil.mp h1
    cases l2 with
    | nil => rfl
    | cons b l2 =>
      have := (isChain_cons.mp h2).1
      rw [hp] at this
      exact absurd this (by simp)
  | cons a l1 ih =>
    obtain ⟨hp, v, hv, hc⟩ := isChain_cons.mp h1
    cases l2 with
    | nil =>
      have := isChain_nil.mp h2
      rw [hp] at this
      exact absurd this (by simp)
    | cons b l2 =>
      obtain ⟨hp2, v2, hv2, hc2⟩ := isChain_cons.mp h2
      rw [hp] at hp2
      obtain rfl : a = b := Option.some.inj hp2
      rw [hv] at hv2
      obtain rfl : v = v2 := Option.some.inj hv2
      rw [ih hc hc2]

theorem isChain_append {heap : List Vehicle} {p : Option Nat} {l1 l2 : List Nat}
    (h : IsChain heap p (l1 ++ l2)) : ∃ q, IsChain heap q l2 := by
  induction l1 generalizing p with
  | nil => exact ⟨p, h⟩
  | cons a l1 ih =>
    obtain ⟨_, v, _, hc⟩ := isChain_cons.mp h
    exact ih hc

theorem isChain_of_mem {heap : List Vehicle} {p : Option Nat} {l : List Nat} {a : Nat}
    (h : IsChain heap p l) (ha : a ∈ l) :
    ∃ l1 l2, l = l1 ++ a :: l2 ∧ IsChain heap (some a) (a :: l2) := by
  obtain ⟨l1, l2, rfl⟩ := List.append_of_mem ha
  obtain ⟨q, hq⟩ := isChain_append h
  have hqa := (isChain_cons.mp hq).1
  rw [hqa] at hq
  exact ⟨l1, l2, rfl, hq⟩

/-- A forward traversal meets no vehicle twice. -/
theorem isChain_nodup {heap : List Vehicle} {p : Option Nat} {l : List Nat}
    (h : IsChain heap p l) : l.Nodup := by
  induction l generalizing p with
  | nil => exact List.nodup_nil
  | cons a l ih =>
    obtain ⟨hp, v, hv, hc⟩ := isChain_cons.mp h
    refine List.nodup_cons.mpr ⟨?_, ih hc⟩
    intro ha
    obtain ⟨l1, l2, rfl, h2⟩ := isChain_of_mem hc ha
    rw [hp] at h
    have := isChain_functional h h2
    have hlen := congrArg List.length this
    simp at hlen
    omega

theorem isChain_lt {heap : List Vehicle} {p : Option Nat} {l : List Nat}
    (h : IsChain heap p l) : ∀ a ∈ l, a < heap.length := by
  induction l generalizing p with
  | nil => simp
  | cons a l ih =>
    obtain ⟨_, v, hv, hc⟩ := isChain_cons.mp h
    intro b hb
    rcases List.mem_cons.mp hb with rfl | hb
    · exact (List.getElem?_eq_some_iff.mp hv).1
    · exact ih hc b hb

/-- A forward traversal has at most as many vehicles as the heap has objects. -/
theorem isChain_length_le {heap : List Vehicle} {p : Option Nat} {l : List Nat}
    (h : IsChain heap p l) : l.length ≤ heap.length := by
  have hsub : l ⊆ List.range heap.length := by
    intro a ha
    exact List.mem_range.mpr (isChain_lt h a ha)
  have := (List.subperm_of_subset (isChain_nodup h) hsub).length_le
  simpa using this

/-- A traversal depends on the `next` pointers of its vehicles only. -/
theorem isChain_congr {heap heap1 : List Vehicle} {p : Option Nat} {l : List Nat}
    (hsame : ∀ a ∈ l, ∀ v, heap[a]? = some v → ∃ v1, heap1[a]? = some v1 ∧ v1.next = v.next)
    (h : IsChain heap p l) : IsChain heap1 p l := by
  induction l generalizing p with
  | nil => exact isChain_nil.mpr (isChain_nil.mp h)
  | cons a l ih =>
    obtain ⟨hp, v, hv, hc⟩ := isChain_cons.mp h
    obtain ⟨v1, hv1, hn⟩ := hsame a (List.mem_cons_self a l) v hv
    refine isChain_cons.mpr ⟨hp, v1, hv1, ?_⟩
    rw [hn]
    exact ih (fun b hb => hsame b (List.mem_cons_of_mem a hb)) hc

theorem isChain_snoc {heap : List Vehicle} {p : Option Nat} {l : List Nat} {a : Nat}
    (h : IsChain heap p (l ++ [a])) : ∃ v, heap[a]? = some v ∧ v.next = none := by
  obtain ⟨q, hq⟩ := isChain_append h
  obtain ⟨_, v, hv, hc⟩ := isChain_cons.mp hq
  exact ⟨v, hv, isChain_nil.mp hc⟩

theorem recordsAt_nil (heap : List Vehicle) : recordsAt heap [] = [] := rfl

theorem recordsAt_cons {heap : List Vehicle} {a : Nat} {v : Vehicle} (l : List Nat)
    (h : heap[a]? = some v) : recordsAt heap (a :: l) = v :: recordsAt heap l := by
  simp [recordsAt, List.filterMap_cons, h]

theorem length_recordsAt {heap : List Vehicle} {p : Option Nat} {l : List Nat}
    (h : IsChain heap p l) : (recordsAt heap l).length = l.length := by
  induction l generalizing p with
  | nil => rfl
  | cons a l ih =>
    obtain ⟨_, v, hv, hc⟩ := isChain_cons.mp h
    rw [recordsAt_cons l hv, List.length_cons, ih hc, List.length_cons]

/-! ### The loops that follow `next` -/

theorem countLoop_of_chain {heap : List Vehicle} {p : Option Nat} {l : List Nat} (fuel : Nat)
    (count : Int) (h : IsChain heap p l) (hf : l.length ≤ fuel) :
    countLoop heap fuel p count = some (count + l.length) := by
  induction l generalizing p fuel count with
  | nil =>
    rw [isChain_nil.mp h]
    cases fuel <;> simp [countLoop]
  | cons a l ih =>
    obtain ⟨hp, v, hv, hc⟩ := isChain_cons.mp h
    cases fuel with
    | zero => simp at hf
    | succ fuel =>
      rw [hp, countLoop]
      simp only [hv]
      rw [ih fuel (count + 1) hc (by simpa using hf)]
      simp only [List.length_cons, Nat.cast_add, Nat.cast_one]
      congr 1
      ring

theorem writeLoop_of_chain {heap : List Vehicle} {p : Option Nat} {l : List Nat} (fuel : Nat)
    (temp : List Vehicle) (h : IsChain heap p l) (hf : l.length ≤ fuel) :
    writeLoop heap fuel p temp = some (temp ++ recordsAt heap l) := by
  induction l generalizing p fuel temp with
  | nil =>
    rw [isChain_nil.mp h]
    cases fuel <;> simp [writeLoop, recordsAt_nil]
  | cons a l ih =>
    obtain ⟨hp, v, hv, hc⟩ := isChain_cons.mp h
    cases fuel with
    | zero => simp at hf
    | succ fuel =>
      rw [hp, writeLoop]
      simp only [hv]
      rw [ih fuel (temp ++ [v]) hc (by simpa using hf), recordsAt_cons l hv]
      simp

/-- When the writing loop ends, the list has a forward traversal and the records
written are its vehicles. -/
theorem writeLoop_some {heap : List Vehicle} {p : Option Nat} {fuel : Nat}
    {temp out : List Vehicle} (h : writeLoop heap fuel p temp = some out) :
    ∃ l, IsChain heap p l ∧ out = temp ++ recordsAt heap l := by
  induction fuel generalizing p temp with
  | zero =>
    cases p with
    | none =>
      simp only [writeLoop, Option.some.injEq] at h
      exact ⟨[], isChain_nil.mpr rfl, by simp [recordsAt_nil, h]⟩
    | some a => simp [writeLoop] at h
  | succ fuel ih =>
    cases p with
    | none =>
      simp only [writeLoop, Option.some.injEq] at h
      exact ⟨[], isChain_nil.mpr rfl, by simp [recordsAt_nil, h]⟩
    | some a =>
      rw [writeLoop] at h
      cases hv : heap[a]? with
      | none => simp [hv] at h
      | some v =>
        simp only [hv] at h
        obtain ⟨l, hl, hout⟩ := ih h
        refine ⟨a :: l, isChain_cons.mpr ⟨rfl, v, hv, hl⟩, ?_⟩
        rw [hout, recordsAt_cons l hv]
        simp


/-! ## Claims on the amount without labor, CountVehicles and CreateWarranty -/

/-- C11: the amount without labor. For every list of parts `calculateTotalPrice`
returns as `amountWithoutLabor` the sum of the prices of the parts; for the empty
list both amounts are 0. -/
theorem calculateTotalPrice_amountWithoutLabor (parts : List Part) :
    (calculateTotalPrice parts).amountWithoutLabor = (parts.map fun p => p.price).sum ∧
      calculateTotalPrice [] = ⟨0, 0⟩ := by
  refine ⟨?_, rfl⟩
  unfold calculateTotalPrice
  rw [foldl_priceStep_without]
  simp

/-- C19: `CountVehicles` on a list that ends. For every state whose list has the
forward traversal `l`, `CountVehicles` returns, its result is the number of vehicles
of `l` (0 when the head is `nullptr`), and the state is unchanged. -/
theorem CountVehicles_counts (s : VehicleState) (l : List Nat)
    (h : IsChain s.heap s.headVehicle l) :
    CountVehicles s = some ((l.length : Int), s) ∧
      (s.headVehicle = none → CountVehicles s = some (0, s)) := by
  have h1 : CountVehicles s = some ((l.length : Int), s) := by
    unfold CountVehicles
    rw [countLoop_of_chain s.heap.length 0 h (isChain_length_le h)]
    simp
  refine ⟨h1, ?_⟩
  intro hn
  rw [hn] at h
  have hl : l = [] := isChain_functional h (isChain_nil.mpr rfl)
  rw [h1, hl]
  rfl

/-- C19, the test `TestCountVehicles`: two linked vehicles are counted as 2. -/
theorem CountVehicles_counts_witness :
    IsChain
        [⟨1, 1001, "John Doe".toList, "ModelX".toList, "ABC123".toList, some 1, none⟩,
          ⟨2, 1002, "Jane Doe".toList, "ModelY".toList, "XYZ456".toList, none, some 0⟩]
        (some 0) [0, 1] ∧
      CountVehicles
          ⟨[⟨1, 1001, "John Doe".toList, "ModelX".toList, "ABC123".toList, some 1, none⟩,
            ⟨2, 1002, "Jane Doe".toList, "ModelY".toList, "XYZ456".toList, none, some 0⟩],
            some 0, 3, none⟩ =
        some (2, ⟨[⟨1, 1001, "John Doe".toList, "ModelX".toList, "ABC123".toList, some 1, none⟩,
            ⟨2, 1002, "Jane Doe".toList, "ModelY".toList, "XYZ456".toList, none, some 0⟩],
            some 0, 3, none⟩) :=
  ⟨by decide, (CountVehicles_counts _ [0, 1] (by decide)).1⟩

theorem wrapInt_of_fitsInt {v : Int} (h : fitsInt v) : wrapInt v = v := by
  unfold fitsInt at h
  unfold wrapInt
  omega

/-- The expiration date of `CreateWarranty` when no addition leaves the range of
`int`. -/
theorem warrantyExpiration_eq (date : Date) (hm : fitsInt date.month ∧ date.month < 2147483647)
    (hy : fitsInt date.year ∧ (12 ≤ date.month → date.year < 2147483647)) :
    warrantyExpiration date =
      if date.month + 1 ≤ 12 then ⟨date.year, date.month + 1, date.day⟩
      else ⟨date.year + 1, 1, date.day⟩ := by
  obtain ⟨hm1, hm2⟩ := hm
  obtain ⟨hy1, hy2⟩ := hy
  have hwm : wrapInt (date.month + 1) = date.month + 1 := by
    apply wrapInt_of_fitsInt
    unfold fitsInt at hm1 ⊢
    omega
  unfold warrantyExpiration
  simp only [hwm]
  by_cases h : date.month + 1 ≤ 12
  · have h2 : ¬ date.month + 1 > 12 := by omega
    simp only [h, h2, if_true, if_false]
  · have h2 : date.month + 1 > 12 := by omega
    have hwy : wrapInt (date.year + 1) = date.year + 1 := by
      apply wrapInt_of_fitsInt
      have := hy2 (by omega)
      unfold fitsInt at hy1 ⊢
      omega
    simp only [h, h2, if_true, if_false, hwy]

/-- C20, as stated, fails: the additions of `CreateWarranty` are `int` additions. For
the date (2147483647, 12, 14) the claim gives the expiration year 2147483648, and
`CreateWarranty` writes the year -2147483648; for the date (2023, 2147483647, 14)
the claim gives the expiration 14/1/2024, and `CreateWarranty` writes the month
-2147483648 of the year 2023. -/
theorem CreateWarranty_wraps_around :
    CreateWarranty [] ⟨1, "John Doe".toList, "Repair".toList⟩ ⟨2147483647, 12, 14⟩ =
        (" | Repair, performed to the customer : \n | John Doe with vehicle ID 1, " ++
          "on this date: 14/12/2147483647\n | Warranty for repair valid until: " ++
          "14/1/-2147483648\n\n").toList ∧
      warrantyExpiration ⟨2147483647, 12, 14⟩ ≠ ⟨2147483647 + 1, 1, 14⟩ ∧
      CreateWarranty [] ⟨1, "John Doe".toList, "Repair".toList⟩ ⟨2023, 2147483647, 14⟩ =
        (" | Repair, performed to the customer : \n | John Doe with vehicle ID 1, " ++
          "on this date: 14/2147483647/2023\n | Warranty for repair valid until: " ++
          "14/-2147483648/2023\n\n").toList ∧
      warrantyExpiration ⟨2023, 2147483647, 14⟩ ≠ ⟨2023 + 1, 1, 14⟩ := by
  refine ⟨by decide, by decide, by decide, by decide⟩

/-- C20, amended: the stanza of `CreateWarranty` for the dates on which no addition
leaves the range of `int`. For every appointment, file content and date whose month
and year are values of an `int`, the month below 2147483647, and the year below
2147483647 when the month is 12 or more, the content afterwards is the previous
content followed by the three lines of the warranty and an empty line, and the date
of the third line is (year, month + 1, day) when month + 1 is at most 12 and
(year + 1, 1, day) otherwise. -/
theorem CreateWarranty_stanza (file : List Char) (a : Appointment) (date : Date)
    (hm : fitsInt date.month ∧ date.month < 2147483647)
    (hy : fitsInt date.year ∧ (12 ≤ date.month → date.year < 2147483647)) :
    ∃ e : Date,
      (date.month + 1 ≤ 12 → e = ⟨date.year, date.month + 1, date.day⟩) ∧
      (¬ date.month + 1 ≤ 12 → e = ⟨date.year + 1, 1, date.day⟩) ∧
      CreateWarranty file a date =
        file ++ (" | ".toList ++ a.appointmentType ++
          ", performed to the customer : \n | ".toList ++ a.customerName ++
          " with vehicle ID ".toList ++ formatInt a.vehicleID ++ ", on this date: ".toList ++
          formatInt date.day ++ ['/'] ++ formatInt date.month ++ ['/'] ++ formatInt date.year ++
          ['\n'] ++ " | Warranty for repair valid until: ".toList ++ formatInt e.day ++ ['/'] ++
          formatInt e.month ++ ['/'] ++ formatInt e.year ++ ['\n', '\n']) := by
  have he := warrantyExpiration_eq date hm hy
  refine ⟨warrantyExpiration date, ?_, ?_, ?_⟩
  · intro h
    rw [he, if_pos h]
  · intro h
    rw [he, if_neg h]
  · simp [CreateWarranty]

/-- C20, amended, the tests: (2023, 11, 14) expires 14/12/2023 and (2023, 12, 14)
expires 14/1/2024. -/
theorem CreateWarranty_stanza_witness :
    (fitsInt (11 : Int) ∧ (11 : Int) < 2147483647) ∧
      (fitsInt (2023 : Int) ∧ ((12 : Int) ≤ 11 → (2023 : Int) < 2147483647)) ∧
      (fitsInt (12 : Int) ∧ (12 : Int) < 2147483647) ∧
      (fitsInt (2023 : Int) ∧ ((12 : Int) ≤ 12 → (2023 : Int) < 2147483647)) ∧
      CreateWarranty [] ⟨1, "John Doe".toList, "Repair".toList⟩ ⟨2023, 11, 14⟩ =
        (" | Repair, performed to the customer : \n | John Doe with vehicle ID 1, " ++
          "on this date: 14/11/2023\n | Warranty for repair valid until: 14/12/2023\n\n").toList ∧
      CreateWarranty [] ⟨1, "John Doe".toList, "Repair".toList⟩ ⟨2023, 12, 14⟩ =
        (" | Repair, performed to the customer : \n | John Doe with vehicle ID 1, " ++
          "on this date: 14/12/2023\n | Warranty for repair valid until: 14/1/2024\n\n").toList := by
  refine ⟨by decide, by decide, by decide, by decide, ?_, ?_⟩
  · obtain ⟨e, h1, _, h3⟩ := CreateWarranty_stanza []
      ⟨1, "John Doe".toList, "Repair".toList⟩ ⟨2023, 11, 14⟩ (by decide) (by decide)
    rw [h3, h1 (by decide)]
    decide
  · obtain ⟨e, _, h2, h3⟩ := CreateWarranty_stanza []
      ⟨1, "John Doe".toList, "Repair".toList⟩ ⟨2023, 12, 14⟩ (by decide) (by decide)
    rw [h3, h2 (by decide)]
    decide


/-! ## Lemmas: writes through pointers -/

theorem storeNext_eq {heap : List Vehicle} {a : Nat} {v : Vehicle} (n : Option Nat)
    (h : heap[a]? = some v) : storeNext heap a n = some (heap.set a (setNext v n)) := by
  simp [storeNext, h]

theorem storePrev_eq {heap : List Vehicle} {a : Nat} {v : Vehicle} (p : Option Nat)
    (h : heap[a]? = some v) : storePrev heap a p = some (heap.set a (setPrev v p)) := by
  simp [storePrev, h]

theorem getElem?_set_self_of {heap : List Vehicle} {a : Nat} {v : Vehicle} (w : Vehicle)
    (h : heap[a]? = some v) : (heap.set a w)[a]? = some w := by
  have hlt : a < heap.length := (List.getElem?_eq_some_iff.mp h).1
  simp [List.getElem?_set, hlt]

theorem getElem?_set_other (heap : List Vehicle) {a b : Nat} (w : Vehicle) (h : b ≠ a) :
    (heap.set a w)[b]? = heap[b]? := by
  simp [List.getElem?_set, Ne.symm h]

theorem getElem?_append_old (heap : List Vehicle) (w : Vehicle) {a : Nat}
    (h : a < heap.length) : (heap ++ [w])[a]? = heap[a]? :=
  List.getElem?_append_left h

theorem getElem?_append_new (heap : List Vehicle) (w : Vehicle) :
    (heap ++ [w])[heap.length]? = some w :=
  List.getElem?_concat_length heap w

theorem vehicleData_setNext (v : Vehicle) (n : Option Nat) :
    vehicleData (setNext v n) = vehicleData v := rfl

theorem vehicleData_setPrev (v : Vehicle) (p : Option Nat) :
    vehicleData (setPrev v p) = vehicleData v := rfl

/-! ### Traversals after a change of the heap -/

/-- A new last vehicle: when the last vehicle `t` of a traversal gets `next = n` and
`n` has `next = nullptr`, the traversal is the old one followed by `n`. -/
theorem isChain_extend {heap heap2 : List Vehicle} {p : Option Nat} {l : List Nat} {t n : Nat}
    (h : IsChain heap p (l ++ [t]))
    (hsame : ∀ a ∈ l, ∀ v, heap[a]? = some v → ∃ v1, heap2[a]? = some v1 ∧ v1.next = v.next)
    (ht : ∃ vt, heap2[t]? = some vt ∧ vt.next = some n)
    (hn : ∃ vn, heap2[n]? = some vn ∧ vn.next = none) :
    IsChain heap2 p (l ++ [t, n]) := by
  induction l generalizing p with
  | nil =>
    obtain ⟨hp, _⟩ := isChain_cons.mp h
    obtain ⟨vt, hvt, hnext⟩ := ht
    obtain ⟨vn, hvn, hnn⟩ := hn
    refine isChain_cons.mpr ⟨hp, vt, hvt, ?_⟩
    rw [hnext]
    refine isChain_cons.mpr ⟨rfl, vn, hvn, ?_⟩
    rw [hnn]
    exact isChain_nil.mpr rfl
  | cons a l ih =>
    obtain ⟨hp, v, hv, hc⟩ := isChain_cons.mp h
    obtain ⟨v1, hv1, hn1⟩ := hsame a (List.mem_cons_self a l) v hv
    refine isChain_cons.mpr ⟨hp, v1, hv1, ?_⟩
    rw [hn1]
    exact ih hc (fun b hb => hsame b (List.mem_cons_of_mem a hb))

/-- A vehicle taken out: when the vehicle `p` before `a` gets the `next` of `a`, the
traversal is the old one without `a`. -/
theorem isChain_skip {heap heap2 : List Vehicle} {q : Option Nat} {l1 l2 : List Nat} {p a : Nat}
    (h : IsChain heap q (l1 ++ p :: a :: l2))
    (hsame : ∀ b ∈ l1 ++ l2, ∀ v, heap[b]? = some v →
      ∃ v1, heap2[b]? = some v1 ∧ v1.next = v.next)
    (hp : ∃ va vp, heap[a]? = some va ∧ heap2[p]? = some vp ∧ vp.next = va.next) :
    IsChain heap2 q (l1 ++ p :: l2) := by
  induction l1 generalizing q with
  | nil =>
    obtain ⟨hq, vp0, _, hc⟩ := isChain_cons.mp h
    obtain ⟨_, va0, hva0, hc2⟩ := isChain_cons.mp hc
    obtain ⟨va, vp, hva, hvp, hnext⟩ := hp
    rw [hva0] at hva
    obtain rfl := Option.some.inj hva
    refine isChain_cons.mpr ⟨hq, vp, hvp, ?_⟩
    rw [hnext]
    exact isChain_congr (fun b hb => hsame b (by simpa using hb)) hc2
  | cons b l1 ih =>
    obtain ⟨hq, v, hv, hc⟩ := isChain_cons.mp h
    obtain ⟨v1, hv1, hn1⟩ := hsame b (by simp) v hv
    refine isChain_cons.mpr ⟨hq, v1, hv1, ?_⟩
    rw [hn1]
    exact ih hc (fun c hc => hsame c (by
      rcases List.mem_append.mp hc with h1 | h2
      · exact List.mem_append.mpr (Or.inl (List.mem_cons_of_mem b h1))
      · exact List.mem_append.mpr (Or.inr h2)))

theorem findTail_of_chain {heap : List Vehicle} {a : Nat} {l : List Nat} {t : Nat} (fuel : Nat)
    (h : IsChain heap (some a) (l ++ [t])) (hf : (l ++ [t]).length ≤ fuel) :
    findTail heap fuel a = some t := by
  induction l generalizing a fuel with
  | nil =>
    obtain ⟨ha, v, hv, hc⟩ := isChain_cons.mp h
    obtain rfl : a = t := Option.some.inj ha
    cases fuel with
    | zero => simp at hf
    | succ fuel =>
      rw [findTail]
      simp only [hv, isChain_nil.mp hc]
  | cons b l ih =>
    obtain ⟨ha, v, hv, hc⟩ := isChain_cons.mp h
    obtain rfl : a = b := Option.some.inj ha
    cases fuel with
    | zero => simp at hf
    | succ fuel =>
      have hnext : ∃ c, v.next = some c := by
        cases l with
        | nil => exact ⟨t, (isChain_cons.mp hc).1⟩
        | cons c l => exact ⟨c, (isChain_cons.mp hc).1⟩
      obtain ⟨c, hcn⟩ := hnext
      rw [findTail]
      simp only [hv, hcn]
      rw [hcn] at hc
      exact ih fuel hc (by simpa using hf)


/-! ## Lemmas: Registration -/

theorem isChain_append_heap {heap : List Vehicle} {p : Option Nat} {l : List Nat} (w : Vehicle)
    (h : IsChain heap p l) : IsChain (heap ++ [w]) p l :=
  isChain_congr (fun a ha v hv =>
    ⟨v, by rw [getElem?_append_old heap w (isChain_lt h a ha)]; exact hv, rfl⟩) h

/-- The result of `Registration` on a list with forward traversal `l`. -/
theorem Registration_spec (customerID : Int) (customerName model plateNumber : List Char)
    (s : VehicleState) (l : List Nat) (h : IsChain s.heap s.headVehicle l) :
    ∃ s1, Registration customerID customerName model plateNumber s =
        some (s1, registrationScreen) ∧
      s1.vehicleID = s.vehicleID + 1 ∧
      IsChain s1.heap s1.headVehicle (l ++ [s.heap.length]) ∧
      s1.heap[s.heap.length]? =
        some ⟨s.vehicleID, customerID, customerName, model, plateNumber, none, l.getLast?⟩ ∧
      s1.heap.length = s.heap.length + 1 ∧
      (∀ a, a < s.heap.length → s1.heap[a]? = (s.heap[a]?).map fun v =>
        if l.getLast? = some a then setNext v (some s.heap.length) else v) ∧
      s1.headVehicle = (if l = [] then some s.heap.length else s.headVehicle) ∧
      s1.vehicleFile = some (s.vehicleFile.getD [] ++
        [⟨s.vehicleID, customerID, customerName, model, plateNumber, none, l.getLast?⟩]) := by
  rcases List.eq_nil_or_concat l with rfl | ⟨l1, t, hl⟩
  · have hhead : s.headVehicle = none := isChain_nil.mp h
    refine ⟨⟨s.heap ++ [⟨s.vehicleID, customerID, customerName, model, plateNumber, none, none⟩],
      some s.heap.length, s.vehicleID + 1, some (s.vehicleFile.getD [] ++
        [⟨s.vehicleID, customerID, customerName, model, plateNumber, none, none⟩])⟩, ?_, rfl,
      ?_, ?_, ?_, ?_, ?_, ?_⟩
    · unfold Registration
      simp only [hhead]
      simp [writeVehicleToFile]
    · refine isChain_cons.mpr ⟨rfl, _, getElem?_append_new _ _, isChain_nil.mpr rfl⟩
    · exact getElem?_append_new _ _
    · simp
    · intro a ha
      simp only
      rw [getElem?_append_old _ _ ha]
      cases s.heap[a]? <;> simp
    · simp
    · simp
  · rw [List.concat_eq_append] at hl
    subst hl
    obtain ⟨vt, hvt, hvtn⟩ := isChain_snoc h
    have hlen := isChain_length_le h
    have hlt := isChain_lt h
    have htlt : t < s.heap.length := hlt t (by simp)
    have hnd := isChain_nodup h
    obtain ⟨hd, hhead⟩ : ∃ hd, s.headVehicle = some hd := by
      cases l1 with
      | nil => exact ⟨t, (isChain_cons.mp h).1⟩
      | cons b l1 => exact ⟨b, (isChain_cons.mp h).1⟩
    let newV : Vehicle := ⟨s.vehicleID, customerID, customerName, model, plateNumber, none, none⟩
    have h0 : IsChain (s.heap ++ [newV]) (some hd) (l1 ++ [t]) := by
      rw [← hhead]; exact isChain_append_heap newV h
    have hft : findTail (s.heap ++ [newV]) (s.heap ++ [newV]).length hd = some t :=
      findTail_of_chain _ h0 (by simp only [List.length_append, List.length_singleton] at hlen ⊢; omega)
    have hvt0 : (s.heap ++ [newV])[t]? = some vt := by
      rw [getElem?_append_old _ _ htlt]; exact hvt
    have hne : s.heap.length ≠ t := by omega
    have hnew1 : ((s.heap ++ [newV]).set t (setNext vt (some s.heap.length)))[s.heap.length]? =
        some newV := by
      rw [getElem?_set_other _ _ hne]; exact getElem?_append_new _ _
    have hlast : (l1 ++ [t]).getLast? = some t := by simp
    refine ⟨⟨((s.heap ++ [newV]).set t (setNext vt (some s.heap.length))).set s.heap.length
        (setPrev newV (some t)), s.headVehicle, s.vehicleID + 1,
      some (s.vehicleFile.getD [] ++ [setPrev newV (some t)])⟩, ?_, rfl, ?_, ?_, ?_, ?_, ?_, ?_⟩
    · unfold Registration
      simp only [hhead, hft, storeNext_eq _ hvt0, storePrev_eq _ hnew1, Option.map_some']
      simp only [writeVehicleToFile, getElem?_set_self_of _ hnew1, Option.map_some']
    · simp only
      rw [List.append_assoc]
      refine isChain_extend h ?_ ?_ ?_
      · intro a ha v hv
        have hat : a ≠ t := by
          rintro rfl
          exact (List.nodup_append.mp hnd).2.2 ha (by simp)
        have han : a ≠ s.heap.length := by
          have := hlt a (by simp [ha]); omega
        refine ⟨v, ?_, rfl⟩
        rw [getElem?_set_other _ _ han, getElem?_set_other _ _ hat,
          getElem?_append_old _ _ (hlt a (by simp [ha]))]
        exact hv
      · refine ⟨setNext vt (some s.heap.length), ?_, rfl⟩
        rw [getElem?_set_other _ _ (Ne.symm hne)]
        exact getElem?_set_self_of _ hvt0
      · exact ⟨setPrev newV (some t), getElem?_set_self_of _ hnew1, rfl⟩
    · simp only [hlast]
      exact getElem?_set_self_of _ hnew1
    · simp
    · intro a ha
      simp only [hlast]
      have han : a ≠ s.heap.length := by omega
      rw [getElem?_set_other _ _ han]
      by_cases hat : a = t
      · subst hat
        rw [getElem?_set_self_of _ hvt0, hvt]
        simp
      · rw [getElem?_set_other _ _ hat, getElem?_append_old _ _ ha]
        have : ¬ (some t = some a) := fun h => hat (Option.some.inj h).symm
        cases s.heap[a]? <;> simp [this]
    · simp
    · simp only [hlast]
      rfl


theorem dataAt_congr {heap heap1 : List Vehicle} {l : List Nat}
    (h : ∀ a ∈ l, (heap1[a]?).map vehicleData = (heap[a]?).map vehicleData) :
    dataAt heap1 l = dataAt heap l := by
  induction l with
  | nil => rfl
  | cons a l ih =>
    have ha := h a (List.mem_cons_self a l)
    have ih2 := ih (fun b hb => h b (List.mem_cons_of_mem a hb))
    unfold dataAt recordsAt at ih2 ⊢
    cases h1 : heap1[a]? with
    | none =>
      cases h2 : heap[a]? with
      | none => simpa [List.filterMap_cons, h1, h2] using ih2
      | some v => simp [h1, h2] at ha
    | some v1 =>
      cases h2 : heap[a]? with
      | none => simp [h1, h2] at ha
      | some v =>
        have hd : vehicleData v1 = vehicleData v := by simpa [h1, h2] using ha
        simp only [List.filterMap_cons, h1, h2, List.map_cons, hd]
        rw [ih2]

/-! ## Claim on Registration -/

theorem findVehicle_not_found {heap : List Vehicle} {p : Option Nat} {l : List Nat} (id : Int)
    (fuel : Nat) (h : IsChain heap p l)
    (hno : ∀ a ∈ l, ∀ v, heap[a]? = some v → v.vehicleID ≠ id) (hf : l.length ≤ fuel) :
    findVehicle heap id fuel p = some none := by
  induction l generalizing p fuel with
  | nil =>
    rw [isChain_nil.mp h]
    cases fuel <;> simp [findVehicle]
  | cons a l ih =>
    obtain ⟨hp, v, hv, hc⟩ := isChain_cons.mp h
    cases fuel with
    | zero => simp at hf
    | succ fuel =>
      rw [hp, findVehicle]
      simp only [hv, hno a (List.mem_cons_self a l) v hv, if_false]
      exact ih fuel hc (fun b hb => hno b (List.mem_cons_of_mem a hb)) (by simpa using hf)

theorem findVehicle_found {heap : List Vehicle} {p : Option Nat} {l1 l2 : List Nat} {a : Nat}
    {v : Vehicle} (fuel : Nat) (h : IsChain heap p (l1 ++ a :: l2))
    (hno : ∀ b ∈ l1, ∀ w, heap[b]? = some w → w.vehicleID ≠ v.vehicleID)
    (hv : heap[a]? = some v) (hf : (l1 ++ a :: l2).length ≤ fuel) :
    findVehicle heap v.vehicleID fuel p = some (some a) := by
  induction l1 generalizing p fuel with
  | nil =>
    obtain ⟨hp, _⟩ := isChain_cons.mp h
    cases fuel with
    | zero => simp at hf
    | succ fuel =>
      rw [hp, findVehicle]
      simp [hv]
  | cons b l1 ih =>
    obtain ⟨hp, w, hw, hc⟩ := isChain_cons.mp h
    cases fuel with
    | zero => simp at hf
    | succ fuel =>
      rw [hp, findVehicle]
      simp only [hw, hno b (List.mem_cons_self b l1) w hw, if_false]
      exact ih fuel hc (fun c hc => hno c (List.mem_cons_of_mem b hc)) (by simpa using hf)

/-- The first vehicle of a traversal with a given ID, when some vehicle has it. -/
theorem exists_first_with_id {heap : List Vehicle} {p : Option Nat} {l : List Nat} {id : Int}
    (h : IsChain heap p l) (hid : ∃ a ∈ l, ∃ v, heap[a]? = some v ∧ v.vehicleID = id) :
    ∃ l1 a l2 v, l = l1 ++ a :: l2 ∧ heap[a]? = some v ∧ v.vehicleID = id ∧
      ∀ b ∈ l1, ∀ w, heap[b]? = some w → w.vehicleID ≠ id := by
  induction l generalizing p with
  | nil => simp at hid
  | cons a l ih =>
    obtain ⟨_, v, hv, hc⟩ := isChain_cons.mp h
    by_cases hva : v.vehicleID = id
    · exact ⟨[], a, l, v, rfl, hv, hva, by simp⟩
    · obtain ⟨b, hb, w, hw, hwid⟩ := hid
      have hbl : b ∈ l := by
        rcases List.mem_cons.mp hb with rfl | hbl
        · rw [hv] at hw
          exact absurd ((Option.some.inj hw) ▸ hwid) hva
        · exact hbl
      obtain ⟨l1, c, l2, u, rfl, hu, huid, hno⟩ := ih hc ⟨b, hbl, w, hw, hwid⟩
      refine ⟨a :: l1, c, l2, u, rfl, hu, huid, ?_⟩
      intro d hd x hx
      rcases List.mem_cons.mp hd with rfl | hd
      · rw [hv] at hx
        exact (Option.some.inj hx) ▸ hva
      · exact hno d hd x hx

/-! ## Lemmas: the `prev` pointers -/

theorem prevOK_cons {heap : List Vehicle} {r : Option Nat} {a : Nat} {l : List Nat} :
    prevOK heap r (a :: l) = true ↔
      (∃ v, heap[a]? = some v ∧ v.prev = r) ∧ prevOK heap (some a) l = true := by
  rw [prevOK]
  cases h : heap[a]? with
  | none => simp
  | some v => simp

theorem prevOK_after {heap : List Vehicle} {r : Option Nat} {l1 l2 : List Nat} {p : Nat}
    (h : prevOK heap r (l1 ++ p :: l2) = true) : prevOK heap (some p) l2 = true := by
  induction l1 generalizing r with
  | nil => exact (prevOK_cons.mp h).2
  | cons b l1 ih => exact ih (prevOK_cons.mp h).2

/-! ## Lemmas: the three cases of DeleteVehicle -/

/-- Taking the vehicle `a` out of a well-formed list with traversal `l1 ++ a :: l2`:
the traversal afterwards is `l1 ++ l2`, and no vehicle changes its data. -/
theorem unlink_spec {heap : List Vehicle} {headVehicle : Option Nat} {l1 l2 : List Nat} {a : Nat}
    (h : WellFormed heap headVehicle (l1 ++ a :: l2)) :
    ∃ heap1 head1, unlink heap headVehicle a = some (heap1, head1) ∧
      IsChain heap1 head1 (l1 ++ l2) ∧ heap1.length = heap.length ∧
      (∀ b : Nat, (heap1[b]?).map vehicleData = (heap[b]?).map vehicleData) ∧
      (l1 ≠ [] → head1 = headVehicle) := by
  obtain ⟨hc, hp⟩ := h
  have hnd := isChain_nodup hc
  rcases List.eq_nil_or_concat l1 with rfl | ⟨l0, p, hl⟩
  · -- no previous vehicle: the head moves on
    obtain ⟨_, va, hva, hc2⟩ := isChain_cons.mp hc
    obtain ⟨⟨va1, hva1, hprev⟩, _⟩ := prevOK_cons.mp hp
    rw [hva] at hva1
    obtain rfl := Option.some.inj hva1
    refine ⟨heap, va.next, ?_, hc2, rfl, fun b => rfl, fun h => absurd rfl h⟩
    unfold unlink
    simp only [hva, hprev]
  · rw [List.concat_eq_append] at hl
    subst hl
    rw [List.append_assoc, List.singleton_append] at hc hp hnd
    obtain ⟨q, hq⟩ := isChain_append hc
    obtain ⟨_, vp, hvp, hq2⟩ := isChain_cons.mp hq
    obtain ⟨hpa, va, hva, hc2⟩ := isChain_cons.mp hq2
    have hp2 := prevOK_after hp
    obtain ⟨⟨va1, hva1, hprev⟩, _⟩ := prevOK_cons.mp hp2
    rw [hva] at hva1
    obtain rfl := Option.some.inj hva1
    have hnd2 := (List.nodup_append.mp hnd).2.1
    have hpa_ne : p ≠ a := by
      intro h
      exact (List.nodup_cons.mp hnd2).1 (by simp [h])
    have hdisj := (List.nodup_append.mp hnd).2.2
    have hp_notin_l0 : p ∉ l0 := fun h => hdisj h (by simp)
    have hp_notin_l2 : p ∉ l2 := fun h => (List.nodup_cons.mp hnd2).1 (by simp [h])
    have hsame_next : ∀ (heap2 : List Vehicle),
        (∀ b, b ≠ p → ∀ v, heap[b]? = some v → ∃ v1, heap2[b]? = some v1 ∧ v1.next = v.next) →
        ∀ b ∈ l0 ++ l2, ∀ v, heap[b]? = some v → ∃ v1, heap2[b]? = some v1 ∧ v1.next = v.next := by
      intro heap2 hall b hb v hv
      have hbp : b ≠ p := by
        rintro rfl
        rcases List.mem_append.mp hb with h1 | h2
        · exact hp_notin_l0 h1
        · exact hp_notin_l2 h2
      exact hall b hbp v hv
    have hne : l0 ++ [p] ≠ [] := by simp
    cases hnext : va.next with
    | none =>
      -- a previous vehicle only: it becomes the last
      refine ⟨heap.set p (setNext vp none), headVehicle, ?_, ?_, by simp, ?_, fun _ => rfl⟩
      · unfold unlink
        simp only [hva, hprev, hnext, storeNext_eq _ hvp, Option.map_some']
      · rw [List.append_assoc, List.singleton_append]
        refine isChain_skip hc (hsame_next _ ?_) ⟨va, _, hva, getElem?_set_self_of _ hvp, ?_⟩
        · intro b hbp v hv
          exact ⟨v, by rw [getElem?_set_other _ _ hbp]; exact hv, rfl⟩
        · rw [hnext]; rfl
      · intro b
        by_cases hb : b = p
        · subst hb
          rw [getElem?_set_self_of _ hvp, hvp]
          rfl
        · rw [getElem?_set_other _ _ hb]
    | some n =>
      -- both neighbours
      have hn_mem : ∃ l3, l2 = n :: l3 := by
        rw [hnext] at hc2
        cases l2 with
        | nil => exact absurd (isChain_nil.mp hc2) (by simp)
        | cons c l3 =>
          obtain ⟨hcn, _⟩ := isChain_cons.mp hc2
          exact ⟨l3, by rw [Option.some.inj hcn]⟩
      obtain ⟨l3, rfl⟩ := hn_mem
      rw [hnext] at hc2
      obtain ⟨_, vn, hvn, _⟩ := isChain_cons.mp hc2
      have hnp : n ≠ p := by
        rintro rfl
        exact hp_notin_l2 (by simp)
      have hap : a ≠ p := Ne.symm hpa_ne
      have h1a : (heap.set p (setNext vp (some n)))[a]? = some va := by
        rw [getElem?_set_other _ _ hap]; exact hva
      have h1n : (heap.set p (setNext vp (some n)))[n]? = some vn := by
        rw [getElem?_set_other _ _ hnp]; exact hvn
      refine ⟨(heap.set p (setNext vp (some n))).set n (setPrev vn (some p)), headVehicle,
        ?_, ?_, by simp, ?_, fun _ => rfl⟩
      · unfold unlink
        simp only [hva, hprev, hnext, storeNext_eq _ hvp, h1a, storePrev_eq _ h1n,
          Option.map_some']
      · rw [List.append_assoc, List.singleton_append]
        refine isChain_skip hc (hsame_next _ ?_) ⟨va, setNext vp (some n), hva, ?_, ?_⟩
        · intro b hbp v hv
          by_cases hbn : b = n
          · subst hbn
            rw [hvn] at hv
            obtain rfl := Option.some.inj hv
            exact ⟨setPrev vn (some p), getElem?_set_self_of _ h1n, rfl⟩
          · refine ⟨v, ?_, rfl⟩
            rw [getElem?_set_other _ _ hbn, getElem?_set_other _ _ hbp]
            exact hv
        · rw [getElem?_set_other _ _ (Ne.symm hnp)]
          exact getElem?_set_self_of _ hvp
        · rw [hnext]; rfl
      · intro b
        by_cases hbn : b = n
        · subst hbn
          rw [getElem?_set_self_of _ h1n, hvn]
          rfl
        · rw [getElem?_set_other _ _ hbn]
          by_cases hb : b = p
          · subst hb
            rw [getElem?_set_self_of _ hvp, hvp]
            rfl
          · rw [getElem?_set_other _ _ hb]


/-! ## Lemmas: UpdateVehicle and DeleteVehicle -/

theorem updateVehicleFile_of_chain {heap : List Vehicle} {headVehicle : Option Nat}
    {l : List Nat} (tempFile finalFile : Option (List Vehicle))
    (h : IsChain heap headVehicle l) :
    updateVehicleFile heap headVehicle tempFile finalFile =
      some (none, some (recordsAt heap l)) := by
  unfold updateVehicleFile
  rw [writeLoop_of_chain heap.length [] h (isChain_length_le h)]
  rfl

/-- When `updateVehicleFile` returns, the list has a forward traversal and the final
file holds its vehicles. -/
theorem updateVehicleFile_some {heap : List Vehicle} {headVehicle : Option Nat}
    {tempFile finalFile : Option (List Vehicle)}
    {files : Option (List Vehicle) × Option (List Vehicle)}
    (h : updateVehicleFile heap headVehicle tempFile finalFile = some files) :
    ∃ l, IsChain heap headVehicle l ∧ files = (none, some (recordsAt heap l)) := by
  unfold updateVehicleFile at h
  cases hw : writeLoop heap heap.length headVehicle [] with
  | none => simp [hw] at h
  | some out =>
    obtain ⟨l, hl, hout⟩ := writeLoop_some hw
    refine ⟨l, hl, ?_⟩
    simp only [hw, Option.map_some', Option.some.injEq] at h
    rw [← h, hout]
    rfl

/-- `DeleteVehicle` and `UpdateVehicle` when the list ends and no vehicle has the ID. -/
theorem not_found_spec (id customerID : Int) (customerName model plateNumber : List Char)
    (s : VehicleState) (l : List Nat) (h : IsChain s.heap s.headVehicle l)
    (hno : ∀ a ∈ l, ∀ v, s.heap[a]? = some v → v.vehicleID ≠ id) :
    DeleteVehicle id s = some (s, deleteNotFoundScreen id) ∧
      UpdateVehicle id customerID customerName model plateNumber s =
        some (s, updateNotFoundScreen id) := by
  have hf := findVehicle_not_found id s.heap.length h hno (isChain_length_le h)
  constructor
  · unfold DeleteVehicle
    simp only [hf]
  · unfold UpdateVehicle
    simp only [hf]

/-- `UpdateVehicle` when `a` is the first vehicle of the list with the ID. -/
theorem UpdateVehicle_found (customerID : Int) (customerName model plateNumber : List Char)
    (s : VehicleState) {l1 l2 : List Nat} {a : Nat} {v : Vehicle}
    (h : IsChain s.heap s.headVehicle (l1 ++ a :: l2)) (hv : s.heap[a]? = some v)
    (hno : ∀ b ∈ l1, ∀ w, s.heap[b]? = some w → w.vehicleID ≠ v.vehicleID) :
    UpdateVehicle v.vehicleID customerID customerName model plateNumber s =
        some (⟨s.heap.set a
            ⟨v.vehicleID, customerID, customerName, model, plateNumber, v.next, v.prev⟩,
          s.headVehicle, s.vehicleID,
          some (recordsAt (s.heap.set a
            ⟨v.vehicleID, customerID, customerName, model, plateNumber, v.next, v.prev⟩)
            (l1 ++ a :: l2))⟩, updateDoneScreen) ∧
      IsChain (s.heap.set a
          ⟨v.vehicleID, customerID, customerName, model, plateNumber, v.next, v.prev⟩)
        s.headVehicle (l1 ++ a :: l2) := by
  have hf := findVehicle_found s.heap.length h hno hv (isChain_length_le h)
  have hc : IsChain (s.heap.set a
      ⟨v.vehicleID, customerID, customerName, model, plateNumber, v.next, v.prev⟩)
      s.headVehicle (l1 ++ a :: l2) := by
    refine isChain_congr ?_ h
    intro b _ w hw
    by_cases hb : b = a
    · subst hb
      rw [hv] at hw
      obtain rfl := Option.some.inj hw
      exact ⟨_, getElem?_set_self_of _ hv, rfl⟩
    · exact ⟨w, by rw [getElem?_set_other _ _ hb]; exact hw, rfl⟩
  refine ⟨?_, hc⟩
  unfold UpdateVehicle
  simp only [hf, hv]
  rw [updateVehicleFile_of_chain none s.vehicleFile hc]
  rfl

/-- `DeleteVehicle` on a well-formed list when `a` is the first vehicle with the ID. -/
theorem DeleteVehicle_found (s : VehicleState) {l1 l2 : List Nat} {a : Nat} {v : Vehicle}
    (h : WellFormed s.heap s.headVehicle (l1 ++ a :: l2)) (hv : s.heap[a]? = some v)
    (hno : ∀ b ∈ l1, ∀ w, s.heap[b]? = some w → w.vehicleID ≠ v.vehicleID) :
    ∃ s1, DeleteVehicle v.vehicleID s = some (s1, deleteDoneScreen v.vehicleID) ∧
      IsChain s1.heap s1.headVehicle (l1 ++ l2) ∧
      (∀ b : Nat, (s1.heap[b]?).map vehicleData = (s.heap[b]?).map vehicleData) ∧
      s1.heap.length = s.heap.length ∧ s1.vehicleID = s.vehicleID ∧
      s1.vehicleFile = some (recordsAt s1.heap (l1 ++ l2)) ∧
      (l1 ≠ [] → s1.headVehicle = s.headVehicle) := by
  have hf := findVehicle_found s.heap.length h.1 hno hv (isChain_length_le h.1)
  obtain ⟨heap1, head1, hu, hc, hlen, hdata, hhead⟩ := unlink_spec h
  refine ⟨⟨heap1, head1, s.vehicleID, some (recordsAt heap1 (l1 ++ l2))⟩, ?_, hc, hdata, hlen,
    rfl, rfl, hhead⟩
  unfold DeleteVehicle
  simp only [hf, hu]
  rw [updateVehicleFile_of_chain none s.vehicleFile hc]
  rfl


/-! ## Claims on DeleteVehicle and UpdateVehicle -/

/-- C13: `DeleteVehicle` takes the first vehicle with the ID out of the list. For
every well-formed doubly linked list with forward traversal `l` and every ID that a
vehicle of `l` has, `l` is `l1 ++ a :: l2` with `a` the first vehicle with the ID,
`DeleteVehicle` returns, and the forward traversal afterwards is `l1 ++ l2` with the
data of these vehicles unchanged; this covers the only vehicle, the head, and an
inner or last vehicle. The counter is unchanged and the file is rewritten with the
vehicles of the list. -/
theorem DeleteVehicle_removes_first (id : Int) (s : VehicleState) (l : List Nat)
    (h : WellFormed s.heap s.headVehicle l)
    (hid : ∃ a ∈ l, ∃ v, s.heap[a]? = some v ∧ v.vehicleID = id) :
    ∃ l1 a l2 v s1, l = l1 ++ a :: l2 ∧ s.heap[a]? = some v ∧ v.vehicleID = id ∧
      (∀ b ∈ l1, ∀ w, s.heap[b]? = some w → w.vehicleID ≠ id) ∧
      DeleteVehicle id s = some (s1, deleteDoneScreen id) ∧
      IsChain s1.heap s1.headVehicle (l1 ++ l2) ∧
      dataAt s1.heap (l1 ++ l2) = dataAt s.heap (l1 ++ l2) ∧
      s1.vehicleID = s.vehicleID ∧ s1.vehicleFile = some (recordsAt s1.heap (l1 ++ l2)) := by
  obtain ⟨l1, a, l2, v, rfl, hv, hvid, hno⟩ := exists_first_with_id h.1 hid
  subst hvid
  obtain ⟨s1, h1, h2, h3, _, h5, h6, _⟩ := DeleteVehicle_found s h hv hno
  exact ⟨l1, a, l2, v, s1, rfl, hv, rfl, hno, h1, h2, dataAt_congr (fun b _ => h3 b), h5, h6⟩

/-- C13 on a well-formed list of the vehicles 1, 2, 3: deleting 2 (an inner
vehicle), 1 (the head) and 3 (the last) leaves the other two, in order, and
deleting the only vehicle of a list leaves the empty list. -/
theorem DeleteVehicle_removes_first_witness :
    WellFormed
        [⟨1, 1001, "A".toList, "X".toList, "P1".toList, some 1, none⟩,
          ⟨2, 1002, "B".toList, "Y".toList, "P2".toList, some 2, some 0⟩,
          ⟨3, 1003, "C".toList, "Z".toList, "P3".toList, none, some 1⟩] (some 0) [0, 1, 2] ∧
      (∃ l1 a l2 v s1, [0, 1, 2] = l1 ++ a :: l2 ∧
        ([⟨1, 1001, "A".toList, "X".toList, "P1".toList, some 1, none⟩,
          ⟨2, 1002, "B".toList, "Y".toList, "P2".toList, some 2, some 0⟩,
          ⟨3, 1003, "C".toList, "Z".toList, "P3".toList, none, some 1⟩] : List Vehicle)[a]? =
            some v ∧ v.vehicleID = 2 ∧
        DeleteVehicle 2
            ⟨[⟨1, 1001, "A".toList, "X".toList, "P1".toList, some 1, none⟩,
              ⟨2, 1002, "B".toList, "Y".toList, "P2".toList, some 2, some 0⟩,
              ⟨3, 1003, "C".toList, "Z".toList, "P3".toList, none, some 1⟩], some 0, 4, none⟩ =
          some (s1, deleteDoneScreen 2) ∧
        IsChain s1.heap s1.headVehicle (l1 ++ l2)) ∧
      ((DeleteVehicle 2
          ⟨[⟨1, 1001, "A".toList, "X".toList, "P1".toList, some 1, none⟩,
            ⟨2, 1002, "B".toList, "Y".toList, "P2".toList, some 2, some 0⟩,
            ⟨3, 1003, "C".toList, "Z".toList, "P3".toList, none, some 1⟩], some 0, 4, none⟩).map
        fun r => (r.1.vehicleFile.map (List.map Vehicle.vehicleID),
          decide (IsChain r.1.heap r.1.headVehicle [0, 2]))) = some (some [1, 3], true) ∧
      ((DeleteVehicle 1
          ⟨[⟨1, 1001, "A".toList, "X".toList, "P1".toList, some 1, none⟩,
            ⟨2, 1002, "B".toList, "Y".toList, "P2".toList, some 2, some 0⟩,
            ⟨3, 1003, "C".toList, "Z".toList, "P3".toList, none, some 1⟩], some 0, 4, none⟩).map
        fun r => (r.1.vehicleFile.map (List.map Vehicle.vehicleID),
          decide (IsChain r.1.heap r.1.headVehicle [1, 2]))) = some (some [2, 3], true) ∧
      ((DeleteVehicle 3
          ⟨[⟨1, 1001, "A".toList, "X".toList, "P1".toList, some 1, none⟩,
            ⟨2, 1002, "B".toList, "Y".toList, "P2".toList, some 2, some 0⟩,
            ⟨3, 1003, "C".toList, "Z".toList, "P3".toList, none, some 1⟩], some 0, 4, none⟩).map
        fun r => (r.1.vehicleFile.map (List.map Vehicle.vehicleID),
          decide (IsChain r.1.heap r.1.headVehicle [0, 1]))) = some (some [1, 2], true) ∧
      ((DeleteVehicle 1
          ⟨[⟨1, 1001, "A".toList, "X".toList, "P1".toList, none, none⟩], some 0, 2, none⟩).map
        fun r => (r.1.vehicleFile.map (List.map Vehicle.vehicleID), r.1.headVehicle)) =
          some (some [], none) := by
  refine ⟨by decide, ?_, by decide, by decide, by decide, by decide⟩
  obtain ⟨l1, a, l2, v, s1, h1, h2, h3, _, h5, h6, _⟩ :=
    DeleteVehicle_removes_first 2
      ⟨[⟨1, 1001, "A".toList, "X".toList, "P1".toList, some 1, none⟩,
        ⟨2, 1002, "B".toList, "Y".toList, "P2".toList, some 2, some 0⟩,
        ⟨3, 1003, "C".toList, "Z".toList, "P3".toList, none, some 1⟩], some 0, 4, none⟩ [0, 1, 2]
      (by decide) ⟨1, by decide, _, rfl, rfl⟩
  exact ⟨l1, a, l2, v, s1, h1, h2, h3, h5, h6⟩

/-- C14: a missing ID, and what `UpdateVehicle` changes. For every list with a
forward traversal `l`: when no vehicle of `l` has the ID, `DeleteVehicle` and
`UpdateVehicle` return with the heap, the head, the counter and the vehicle file
unchanged and show `Vehicle with ID <id> not found!`; when `a` is the first vehicle
of `l` with the ID, `UpdateVehicle` returns with the customer ID, customer name,
model and plate number of `a` replaced and its vehicle ID, `next` and `prev`, every
other object, the head and the counter unchanged. -/
theorem missing_id_and_update (id customerID : Int) (customerName model plateNumber : List Char)
    (s : VehicleState) (l : List Nat) (h : IsChain s.heap s.headVehicle l) :
    ((∀ a ∈ l, ∀ v, s.heap[a]? = some v → v.vehicleID ≠ id) →
      DeleteVehicle id s = some (s,
        [("Delete Vehicle".toList, ["Enter Vehicle ID to delete: ".toList]),
          ("Delete Vehicle".toList,
            ["Vehicle with ID ".toList ++ formatInt id ++ " not found!".toList,
              "Press any key to return...".toList])]) ∧
      UpdateVehicle id customerID customerName model plateNumber s = some (s,
        [("Update Vehicle".toList, ["Enter Vehicle ID: ".toList]),
          ("Update Vehicle".toList,
            ["Vehicle with ID ".toList ++ formatInt id ++ " not found!".toList,
              "Press any key to return...".toList])])) ∧
      ∀ (l1 l2 : List Nat) (a : Nat) (v : Vehicle), l = l1 ++ a :: l2 → s.heap[a]? = some v →
        v.vehicleID = id → (∀ b ∈ l1, ∀ w, s.heap[b]? = some w → w.vehicleID ≠ id) →
        ∃ s1, UpdateVehicle id customerID customerName model plateNumber s =
            some (s1, updateDoneScreen) ∧
          s1.heap[a]? =
            some ⟨v.vehicleID, customerID, customerName, model, plateNumber, v.next, v.prev⟩ ∧
          (∀ b : Nat, b ≠ a → s1.heap[b]? = s.heap[b]?) ∧ s1.heap.length = s.heap.length ∧
          s1.headVehicle = s.headVehicle ∧ s1.vehicleID = s.vehicleID ∧
          IsChain s1.heap s1.headVehicle l := by
  constructor
  · intro hno
    exact not_found_spec id customerID customerName model plateNumber s l h hno
  · intro l1 l2 a v hl hv hvid hno
    subst hl
    subst hvid
    obtain ⟨h1, h2⟩ := UpdateVehicle_found customerID customerName model plateNumber s h hv hno
    exact ⟨_, h1, getElem?_set_self_of _ hv, fun b hb => getElem?_set_other _ _ hb, by simp,
      rfl, rfl, h2⟩

/-- C14 on a list of the vehicles 1 and 2: the ID 7 is not found by either function,
and updating 2 changes the four fields of the second vehicle only. -/
theorem missing_id_and_update_witness :
    IsChain
        [⟨1, 1001, "A".toList, "X".toList, "P1".toList, some 1, none⟩,
          ⟨2, 1002, "B".toList, "Y".toList, "P2".toList, none, some 0⟩] (some 0) [0, 1] ∧
      (DeleteVehicle 7
          ⟨[⟨1, 1001, "A".toList, "X".toList, "P1".toList, some 1, none⟩,
            ⟨2, 1002, "B".toList, "Y".toList, "P2".toList, none, some 0⟩], some 0, 3, none⟩).map
        Prod.snd = some
          [("Delete Vehicle".toList, ["Enter Vehicle ID to delete: ".toList]),
            ("Delete Vehicle".toList,
              ["Vehicle with ID 7 not found!".toList, "Press any key to return...".toList])] ∧
      (UpdateVehicle 2 5 "N".toList "M".toList "Q".toList
          ⟨[⟨1, 1001, "A".toList, "X".toList, "P1".toList, some 1, none⟩,
            ⟨2, 1002, "B".toList, "Y".toList, "P2".toList, none, some 0⟩], some 0, 3, none⟩).map
        Prod.fst = some
          ⟨[⟨1, 1001, "A".toList, "X".toList, "P1".toList, some 1, none⟩,
            ⟨2, 5, "N".toList, "M".toList, "Q".toList, none, some 0⟩], some 0, 3,
            some [⟨1, 1001, "A".toList, "X".toList, "P1".toList, some 1, none⟩,
              ⟨2, 5, "N".toList, "M".toList, "Q".toList, none, some 0⟩]⟩ := by
  refine ⟨by decide, ?_, by decide⟩
  have h := (missing_id_and_update 7 0 [] [] []
    ⟨[⟨1, 1001, "A".toList, "X".toList, "P1".toList, some 1, none⟩,
      ⟨2, 1002, "B".toList, "Y".toList, "P2".toList, none, some 0⟩], some 0, 3, none⟩ [0, 1]
    (by decide)).1 (by decide)
  rw [h.1]
  decide


/-! ## Lemmas: loadVehiclesFromFile -/

theorem dataAt_nil (heap : List Vehicle) : dataAt heap [] = [] := rfl

theorem dataAt_cons {heap : List Vehicle} {a : Nat} {v : Vehicle} (l : List Nat)
    (h : heap[a]? = some v) : dataAt heap (a :: l) = vehicleData v :: dataAt heap l := by
  unfold dataAt
  rw [recordsAt_cons l h, List.map_cons]

theorem dataAt_append (heap : List Vehicle) (l1 l2 : List Nat) :
    dataAt heap (l1 ++ l2) = dataAt heap l1 ++ dataAt heap l2 := by
  simp [dataAt, recordsAt, List.filterMap_append]

/-- The result of the loading loop on the records `rs`, from a heap in which
`current` is `nullptr` or an address. The loop returns; the new vehicles are at the
addresses from `heap.length` on, in the order of the records and with their data;
each has the vehicle loaded before it as `prev` (the first one `current`); each but
the last has the vehicle loaded after it as `next`, and the last has the `next`
stored in its record; of the old objects only `*current` changes, in `next`. -/
theorem loadLoop_spec (rs : List Vehicle) (heap : List Vehicle) (headVehicle current : Option Nat)
    (vehicleID : Int) (hcur : ∀ c, current = some c → c < heap.length) :
    ∃ heap1 head1 id1, loadLoop rs heap headVehicle current vehicleID = some (heap1, head1, id1) ∧
      heap1.length = heap.length + rs.length ∧
      (∀ b : Nat, b < heap.length → heap1[b]? = (heap[b]?).map fun v =>
        if rs ≠ [] ∧ current = some b then setNext v (some heap.length) else v) ∧
      (rs = [] → heap1 = heap ∧ head1 = headVehicle ∧ id1 = vehicleID) ∧
      (rs ≠ [] → head1 = if current = none then some heap.length else headVehicle) ∧
      dataAt heap1 (List.range' heap.length rs.length) = rs.map vehicleData ∧
      prevOK heap1 current (List.range' heap.length rs.length) = true ∧
      ∀ last, rs.getLast? = some last →
        id1 = last.vehicleID + 1 ∧
        (∃ v, heap1[heap.length + rs.length - 1]? = some v ∧ v.next = last.next) ∧
        (last.next = none →
          IsChain heap1 (some heap.length) (List.range' heap.length rs.length)) := by
  induction rs generalizing heap headVehicle current vehicleID with
  | nil =>
    refine ⟨heap, headVehicle, vehicleID, rfl, by simp, ?_, fun _ => ⟨rfl, rfl, rfl⟩,
      fun h => absurd rfl h, rfl, rfl, by simp⟩
    intro b _
    cases heap[b]? <;> simp
  | cons r rest ih =>
    -- the heap after the allocation and the link from `current`
    have hstep : ∃ heap2 head2, heap2.length = heap.length + 1 ∧
        loadLoop (r :: rest) heap headVehicle current vehicleID =
          loadLoop rest heap2 head2 (some heap.length) (r.vehicleID + 1) ∧
        heap2[heap.length]? = some (setPrev r current) ∧
        (∀ b : Nat, b < heap.length → heap2[b]? = (heap[b]?).map fun v =>
          if current = some b then setNext v (some heap.length) else v) ∧
        head2 = (if current = none then some heap.length else headVehicle) := by
      cases hc : current with
      | none =>
        refine ⟨heap ++ [setPrev r none], some heap.length, by simp, ?_,
          getElem?_append_new _ _, ?_, by simp⟩
        · rw [loadLoop]
        · intro b hb
          rw [getElem?_append_old _ _ hb]
          cases heap[b]? <;> simp
      | some c =>
        have hclt : c < heap.length := hcur c hc
        obtain ⟨vc, hvc⟩ : ∃ vc, heap[c]? = some vc :=
          ⟨heap[c], List.getElem?_eq_getElem hclt⟩
        have hvc1 : (heap ++ [setPrev r (some c)])[c]? = some vc := by
          rw [getElem?_append_old _ _ hclt]; exact hvc
        refine ⟨(heap ++ [setPrev r (some c)]).set c (setNext vc (some heap.length)),
          headVehicle, by simp, ?_, ?_, ?_, by simp⟩
        · rw [loadLoop]
          simp only [storeNext_eq _ hvc1]
        · rw [getElem?_set_other _ _ (by omega)]
          exact getElem?_append_new _ _
        · intro b hb
          by_cases hbc : b = c
          · subst hbc
            rw [getElem?_set_self_of _ hvc1, hvc]
            simp
          · rw [getElem?_set_other _ _ hbc, getElem?_append_old _ _ hb]
            have : ¬ (some c = some b) := fun h => hbc (Option.some.inj h).symm
            cases heap[b]? <;> simp [this]
    obtain ⟨heap2, head2, hlen2, hloop, hnew, hold, hhead2⟩ := hstep
    obtain ⟨heap1, head1, id1, h1, h2, h3, h4, h5, h6, h7, h8⟩ :=
      ih heap2 head2 (some heap.length) (r.vehicleID + 1)
        (fun c hc => by rw [← Option.some.inj hc, hlen2]; omega)
    rw [hlen2] at h2 h3 h6 h7 h8
    -- the first new vehicle in the final heap
    have hfirst : heap1[heap.length]? = some
        (if rest ≠ [] then setNext (setPrev r current) (some (heap.length + 1))
          else setPrev r current) := by
      rw [h3 heap.length (by omega), hnew]
      by_cases hr : rest = []
      · simp [hr]
      · simp [hr]
    refine ⟨heap1, head1, id1, hloop.trans h1, by simp only [List.length_cons]; omega,
      ?_, fun h => absurd h (by simp), ?_, ?_, ?_, ?_⟩
    · intro b hb
      rw [h3 b (by omega), hold b hb]
      have hne : ¬ (heap.length = b) := by omega
      cases heap[b]? with
      | none => rfl
      | some v => simp [hne]
    · intro _
      by_cases hr : rest = []
      · rw [(h4 hr).2.1, hhead2]
      · rw [h5 hr, hhead2]
        simp
    · rw [List.length_cons, List.range'_succ, dataAt_cons _ hfirst, h6, List.map_cons]
      congr 1
      split <;> rfl
    · rw [List.length_cons, List.range'_succ]
      refine prevOK_cons.mpr ⟨⟨_, hfirst, ?_⟩, h7⟩
      split <;> rfl
    · intro last hlast
      by_cases hr : rest = []
      · subst hr
        obtain rfl : r = last := by simpa using hlast
        obtain ⟨rfl, rfl, rfl⟩ := h4 rfl
        have hfirst2 : heap1[heap.length]? = some (setPrev r current) := by
          simpa using hfirst
        refine ⟨rfl, ⟨setPrev r current, by simpa using hfirst2, rfl⟩, ?_⟩
        intro hn
        simp only [List.length_singleton, List.range'_one]
        exact isChain_cons.mpr ⟨rfl, setPrev r current, hfirst2, isChain_nil.mpr hn⟩
      · have hlast2 : rest.getLast? = some last := by
          obtain ⟨r2, rest2, hrest⟩ := List.exists_cons_of_ne_nil hr
          rw [hrest, List.getLast?_cons_cons] at hlast
          rw [hrest]
          exact hlast
        obtain ⟨e1, e2, e3⟩ := h8 last hlast2
        refine ⟨e1, ?_, ?_⟩
        · have hpos : 0 < rest.length := List.length_pos.mpr hr
          have : heap.length + (r :: rest).length - 1 = heap.length + 1 + rest.length - 1 := by
            simp only [List.length_cons]; omega
          rw [this]
          exact e2
        · intro hn
          rw [List.length_cons, List.range'_succ]
          refine isChain_cons.mpr ⟨rfl, _, hfirst, ?_⟩
          simp only [hr, ne_eq, not_false_eq_true, if_true]
          exact e3 hn


/-! ## Claims on loadVehiclesFromFile -/

theorem recordsAt_append (heap : List Vehicle) (l1 l2 : List Nat) :
    recordsAt heap (l1 ++ l2) = recordsAt heap l1 ++ recordsAt heap l2 := by
  simp [recordsAt, List.filterMap_append]

/-- Writing a list that is not empty with `updateVehicleFile` and loading the file:
the file holds the vehicles of the list, the loaded vehicles are new objects behind
the old ones, the head is the first of them, and they carry the data of the list
written, in its order. -/
theorem update_load_spec (s : VehicleState) (l : List Nat)
    (tempFile finalFile : Option (List Vehicle)) (h : IsChain s.heap s.headVehicle l)
    (hne : l ≠ []) :
    ∃ file s1, updateVehicleFile s.heap s.headVehicle tempFile finalFile =
        some (none, some file) ∧
      loadVehiclesFromFile (some file) s = some s1 ∧
      s1.headVehicle = some s.heap.length ∧
      IsChain s1.heap s1.headVehicle (List.range' s.heap.length l.length) ∧
      dataAt s1.heap (List.range' s.heap.length l.length) = dataAt s.heap l ∧
      file.map vehicleData = dataAt s.heap l ∧ s1.vehicleFile = s.vehicleFile ∧
      file = recordsAt s.heap l ∧ s1.heap.length = s.heap.length + l.length ∧
      (∀ b : Nat, b < s.heap.length → (s1.heap[b]?).map vehicleData =
        (s.heap[b]?).map vehicleData) := by
  rcases List.eq_nil_or_concat l with rfl | ⟨l0, t, hl⟩
  · exact absurd rfl hne
  · rw [List.concat_eq_append] at hl
    obtain ⟨vt, hvt, hnext⟩ := isChain_snoc (hl ▸ h)
    have hlenr := length_recordsAt h
    have hlast : (recordsAt s.heap l).getLast? = some vt := by
      rw [hl, recordsAt_append, recordsAt_cons [] hvt, recordsAt_nil]
      simp
    have hrne : recordsAt s.heap l ≠ [] := by
      intro h0
      rw [h0] at hlast
      simp at hlast
    obtain ⟨heap1, head1, id1, h1, h2, h3, _, h5, h6, _, h8⟩ :=
      loadLoop_spec (recordsAt s.heap l) s.heap s.headVehicle none 0 (by simp)
    obtain ⟨_, _, e3⟩ := h8 vt hlast
    rw [hlenr] at h6 e3 h2
    have hhead : head1 = some s.heap.length := by simpa using h5 hrne
    refine ⟨recordsAt s.heap l, ⟨heap1, head1, id1, s.vehicleFile⟩,
      updateVehicleFile_of_chain tempFile finalFile h, ?_, hhead, ?_, h6, rfl, rfl, rfl, h2, ?_⟩
    · unfold loadVehiclesFromFile
      simp only [h1, Option.map_some']
    · simp only [hhead]
      exact e3 hnext
    · intro b hb
      simp only
      rw [h3 b hb]
      cases s.heap[b]? with
      | none => rfl
      | some v => simp

/-- C15: the vehicle round trip. For every list with a forward traversal `l` that is
not empty and every prior content of the two files, `updateVehicleFile` returns and
leaves as final file the records of the vehicles of `l`, as many as `l` has
vehicles; `loadVehiclesFromFile` of that file returns; it allocates as many new
vehicles as the file has records, behind the objects that exist, whose data it leaves
unchanged; the head afterwards is the first new vehicle, and the forward traversal
from the head is the new vehicles in the order of their allocation, none of them a
vehicle of `l`; they carry the same data (vehicle ID, customer ID, customer name,
model, plate number) in the same order as `l`, and are as many. -/
theorem update_then_load_roundtrip (s : VehicleState) (l : List Nat)
    (tempFile finalFile : Option (List Vehicle)) (h : IsChain s.heap s.headVehicle l)
    (hne : l ≠ []) :
    ∃ file s1 l1, updateVehicleFile s.heap s.headVehicle tempFile finalFile =
        some (none, some file) ∧
      file = recordsAt s.heap l ∧ file.length = l.length ∧
      file.map vehicleData = dataAt s.heap l ∧
      loadVehiclesFromFile (some file) s = some s1 ∧
      s1.heap.length = s.heap.length + file.length ∧
      (∀ b : Nat, b < s.heap.length → (s1.heap[b]?).map vehicleData =
        (s.heap[b]?).map vehicleData) ∧
      l1 = List.range' s.heap.length file.length ∧
      s1.headVehicle = some s.heap.length ∧
      IsChain s1.heap s1.headVehicle l1 ∧ (∀ a ∈ l1, a ∉ l) ∧
      dataAt s1.heap l1 = dataAt s.heap l ∧
      l1.length = l.length := by
  obtain ⟨file, s1, h1, h2, h3, h4, h5, h6, _, h8, h9, h10⟩ :=
    update_load_spec s l tempFile finalFile h hne
  have hlen : file.length = l.length := by
    rw [h8]
    exact length_recordsAt h
  refine ⟨file, s1, List.range' s.heap.length l.length, h1, h8, hlen, h6, h2, ?_, h10, ?_, h3,
    h4, ?_, h5, by simp⟩
  · rw [h9, hlen]
  · rw [hlen]
  · intro a ha hal
    have h1a := (List.mem_range'_1.mp ha).1
    have h2a := isChain_lt h a hal
    omega

/-- C15, the test `TestUpdateVehicleFile`: the vehicles 1 (John Doe, ModelX, ABC123)
and 2 (Jane Doe, ModelY, XYZ456), linked, each first appended to the file with
`writeVehicleToFile`, are loaded after `updateVehicleFile` as two new vehicles, at
the addresses 2 and 3, with the head at 2, that carry the data of these two vehicles
in this order. -/
theorem update_then_load_roundtrip_witness :
    IsChain
        [⟨1, 1001, "John Doe".toList, "ModelX".toList, "ABC123".toList, some 1, none⟩,
          ⟨2, 1002, "Jane Doe".toList, "ModelY".toList, "XYZ456".toList, none, some 0⟩]
        (some 0) [0, 1] ∧
      ∃ file s1,
        updateVehicleFile
            [⟨1, 1001, "John Doe".toList, "ModelX".toList, "ABC123".toList, some 1, none⟩,
              ⟨2, 1002, "Jane Doe".toList, "ModelY".toList, "XYZ456".toList, none, some 0⟩]
            (some 0) none
            ((writeVehicleToFile
              [⟨1, 1001, "John Doe".toList, "ModelX".toList, "ABC123".toList, some 1, none⟩,
                ⟨2, 1002, "Jane Doe".toList, "ModelY".toList, "XYZ456".toList, none, some 0⟩]
              0 none).bind fun f => writeVehicleToFile
              [⟨1, 1001, "John Doe".toList, "ModelX".toList, "ABC123".toList, some 1, none⟩,
                ⟨2, 1002, "Jane Doe".toList, "ModelY".toList, "XYZ456".toList, none, some 0⟩]
              1 (some f)) = some (none, some file) ∧
        file.length = 2 ∧
        loadVehiclesFromFile (some file)
            ⟨[⟨1, 1001, "John Doe".toList, "ModelX".toList, "ABC123".toList, some 1, none⟩,
              ⟨2, 1002, "Jane Doe".toList, "ModelY".toList, "XYZ456".toList, none, some 0⟩],
              some 0, 1, none⟩ = some s1 ∧
        s1.heap.length = 4 ∧ s1.headVehicle = some 2 ∧
        IsChain s1.heap s1.headVehicle [2, 3] ∧
        dataAt s1.heap [2, 3] =
          [(1, 1001, "John Doe".toList, "ModelX".toList, "ABC123".toList),
            (2, 1002, "Jane Doe".toList, "ModelY".toList, "XYZ456".toList)] := by
  refine ⟨by decide, ?_⟩
  obtain ⟨file, s1, l1, h1, _, h3, _, h5, h6, _, h8, h9, h10, _, h12, _⟩ :=
    update_then_load_roundtrip
      ⟨[⟨1, 1001, "John Doe".toList, "ModelX".toList, "ABC123".toList, some 1, none⟩,
        ⟨2, 1002, "Jane Doe".toList, "ModelY".toList, "XYZ456".toList, none, some 0⟩],
        some 0, 1, none⟩ [0, 1] none
      ((writeVehicleToFile
        [⟨1, 1001, "John Doe".toList, "ModelX".toList, "ABC123".toList, some 1, none⟩,
          ⟨2, 1002, "Jane Doe".toList, "ModelY".toList, "XYZ456".toList, none, some 0⟩]
        0 none).bind fun f => writeVehicleToFile
        [⟨1, 1001, "John Doe".toList, "ModelX".toList, "ABC123".toList, some 1, none⟩,
          ⟨2, 1002, "Jane Doe".toList, "ModelY".toList, "XYZ456".toList, none, some 0⟩]
        1 (some f)) (by decide) (by decide)
  have hl2 : file.length = 2 := h3
  have hl1 : l1 = [2, 3] := by
    rw [h8, hl2]
    rfl
  rw [hl1] at h10 h12
  refine ⟨file, s1, h1, hl2, h5, ?_, h9, h10, ?_⟩
  · rw [h6, hl2]
    rfl
  · rw [h12]
    decide

/-- C16, the code against the claim: a file with the single record of vehicle 1,
written while vehicle 1 had vehicle 2 (at address 1) as successor, is loaded as a
vehicle whose `next` is the stored pointer, not `nullptr`: the loaded list runs on
into the old vehicle 2. The same record with `nullptr` stored as `next` is loaded
with `next = nullptr`, so the stored pointer decides the linkage. -/
theorem loadVehiclesFromFile_keeps_stored_next :
    writeVehicleToFile
        [⟨1, 1001, "John Doe".toList, "ModelX".toList, "ABC123".toList, some 1, none⟩,
          ⟨2, 1002, "Jane Doe".toList, "ModelY".toList, "XYZ456".toList, none, some 0⟩] 0 none =
      some [⟨1, 1001, "John Doe".toList, "ModelX".toList, "ABC123".toList, some 1, none⟩] ∧
    ((loadVehiclesFromFile
        (some [⟨1, 1001, "John Doe".toList, "ModelX".toList, "ABC123".toList, some 1, none⟩])
        ⟨[⟨1, 1001, "John Doe".toList, "ModelX".toList, "ABC123".toList, some 1, none⟩,
          ⟨2, 1002, "Jane Doe".toList, "ModelY".toList, "XYZ456".toList, none, some 0⟩],
          some 0, 3, none⟩).map fun s1 =>
      (s1.headVehicle, (s1.heap[2]?).map Vehicle.next,
        decide (IsChain s1.heap s1.headVehicle [2, 1]),
        (CountVehicles s1).map Prod.fst)) = some (some 2, some (some 1), true, some 2) ∧
    ((loadVehiclesFromFile
        (some [⟨1, 1001, "John Doe".toList, "ModelX".toList, "ABC123".toList, none, none⟩])
        ⟨[⟨1, 1001, "John Doe".toList, "ModelX".toList, "ABC123".toList, some 1, none⟩,
          ⟨2, 1002, "Jane Doe".toList, "ModelY".toList, "XYZ456".toList, none, some 0⟩],
          some 0, 3, none⟩).map fun s1 =>
      (s1.headVehicle, (s1.heap[2]?).map Vehicle.next,
        decide (IsChain s1.heap s1.headVehicle [2]),
        (CountVehicles s1).map Prod.fst)) = some (some 2, some none, true, some 1) := by
  refine ⟨by decide, by decide, by decide⟩

theorem prevSafe_cons {heap : List Vehicle} {a : Nat} {l : List Nat} :
    prevSafe heap (a :: l) = true ↔
      (∃ v, heap[a]? = some v ∧ ∀ p, v.prev = some p → p < heap.length ∧ p ∉ l) ∧
        prevSafe heap l = true := by
  rw [prevSafe]
  cases h : heap[a]? with
  | none => simp
  | some v =>
    cases hp : v.prev with
    | none => simp [hp]
    | some p => simp [hp]

theorem prevSafe_at {heap : List Vehicle} {l1 l2 : List Nat} {a : Nat} {v : Vehicle}
    (h : prevSafe heap (l1 ++ a :: l2) = true) (hv : heap[a]? = some v) :
    ∀ p, v.prev = some p → p < heap.length ∧ p ∉ l2 := by
  induction l1 with
  | nil =>
    obtain ⟨⟨v1, hv1, hp⟩, _⟩ := prevSafe_cons.mp h
    rw [hv] at hv1
    obtain rfl := Option.some.inj hv1
    exact hp
  | cons b l1 ih => exact ih (prevSafe_cons.mp h).2

/-- The `prev` pointers of a well-formed list are safe. -/
theorem prevSafe_of_prevOK {heap : List Vehicle} {q r : Option Nat} {l : List Nat}
    (hc : IsChain heap q l) (hp : prevOK heap r l = true)
    (hr : ∀ p, r = some p → p < heap.length ∧ p ∉ l) : prevSafe heap l = true := by
  induction l generalizing q r with
  | nil => rfl
  | cons a l ih =>
    obtain ⟨_, v, hv, hc2⟩ := isChain_cons.mp hc
    obtain ⟨⟨v1, hv1, hprev⟩, hp2⟩ := prevOK_cons.mp hp
    rw [hv] at hv1
    obtain rfl := Option.some.inj hv1
    have hnd := List.nodup_cons.mp (isChain_nodup hc)
    refine prevSafe_cons.mpr ⟨⟨v, hv, ?_⟩, ih hc2 hp2 ?_⟩
    · intro p hpp
      rw [hprev] at hpp
      obtain ⟨h1, h2⟩ := hr p hpp
      exact ⟨h1, fun h => h2 (List.mem_cons_of_mem a h)⟩
    · intro p hpp
      obtain rfl := Option.some.inj hpp
      exact ⟨(List.getElem?_eq_some_iff.mp hv).1, hnd.1⟩

/-- A vehicle `p` of the traversal redirected to a later part: when `p` gets as
`next` a pointer whose traversal is `l2`, the traversal is the part up to `p`
followed by `l2`. -/
theorem isChain_jump {heap heap2 : List Vehicle} {q r : Option Nat} {m1 m2 l2 : List Nat}
    {p : Nat} (h : IsChain heap q (m1 ++ p :: m2)) (h2 : IsChain heap r l2)
    (hsame : ∀ b ∈ m1 ++ l2, ∀ v, heap[b]? = some v →
      ∃ v1, heap2[b]? = some v1 ∧ v1.next = v.next)
    (hp : ∃ vp, heap2[p]? = some vp ∧ vp.next = r) : IsChain heap2 q (m1 ++ p :: l2) := by
  induction m1 generalizing q with
  | nil =>
    obtain ⟨hq, _⟩ := isChain_cons.mp h
    obtain ⟨vp, hvp, hnext⟩ := hp
    refine isChain_cons.mpr ⟨hq, vp, hvp, ?_⟩
    rw [hnext]
    exact isChain_congr (fun b hb => hsame b (by simpa using hb)) h2
  | cons b m1 ih =>
    obtain ⟨hq, v, hv, hc⟩ := isChain_cons.mp h
    obtain ⟨v1, hv1, hn1⟩ := hsame b (by simp) v hv
    refine isChain_cons.mpr ⟨hq, v1, hv1, ?_⟩
    rw [hn1]
    exact ih hc (fun c hc => hsame c (by
      rcases List.mem_append.mp hc with h1 | h3
      · exact List.mem_append.mpr (Or.inl (List.mem_cons_of_mem b h1))
      · exact List.mem_append.mpr (Or.inr h3)))

/-- The list still ends after a vehicle `p` that is not in `l2` got the `next` of
the vehicle `a` of the traversal `l1 ++ a :: l2`. -/
theorem isChain_after_redirect {heap heap2 : List Vehicle} {q : Option Nat} {l1 l2 : List Nat}
    {a p : Nat} {v : Vehicle} (h : IsChain heap q (l1 ++ a :: l2)) (hv : heap[a]? = some v)
    (hp2 : p ∉ l2)
    (hsame : ∀ b : Nat, b ≠ p → ∀ w, heap[b]? = some w →
      ∃ w1, heap2[b]? = some w1 ∧ w1.next = w.next)
    (hp : ∃ vp, heap2[p]? = some vp ∧ vp.next = v.next) : ∃ l, IsChain heap2 q l := by
  have hnd := isChain_nodup h
  have hl2 : IsChain heap v.next l2 := by
    obtain ⟨q1, hq1⟩ := isChain_append h
    obtain ⟨_, v1, hv1, hc⟩ := isChain_cons.mp hq1
    rw [hv] at hv1
    obtain rfl := Option.some.inj hv1
    exact hc
  by_cases hmem : p ∈ l1 ++ [a]
  · obtain ⟨m1, m2, hsplit⟩ := List.append_of_mem hmem
    have hl : l1 ++ a :: l2 = m1 ++ p :: (m2 ++ l2) := by
      have : l1 ++ a :: l2 = (l1 ++ [a]) ++ l2 := by simp
      rw [this, hsplit]
      simp
    rw [hl] at h hnd
    refine ⟨m1 ++ p :: l2, isChain_jump h hl2 ?_ hp⟩
    intro b hb w hw
    refine hsame b ?_ w hw
    rintro rfl
    rcases List.mem_append.mp hb with h1 | h3
    · exact (List.nodup_append.mp hnd).2.2 h1 (by simp)
    · exact hp2 h3
  · refine ⟨l1 ++ a :: l2, isChain_congr ?_ h⟩
    intro b hb w hw
    refine hsame b ?_ w hw
    rintro rfl
    rcases List.mem_append.mp hb with h1 | h3
    · exact hmem (List.mem_append.mpr (Or.inl h1))
    · rcases List.mem_cons.mp h3 with rfl | h4
      · exact hmem (by simp)
      · exact hp2 h4

/-- The three cases of `DeleteVehicle` return with a list that ends, when the `prev`
pointer of the vehicle found is `nullptr`, or an address of the heap that is not a
later vehicle of the list. -/
theorem unlink_returns {heap : List Vehicle} {headVehicle : Option Nat} {l1 l2 : List Nat}
    {a : Nat} {v : Vehicle} (h : IsChain heap headVehicle (l1 ++ a :: l2))
    (hv : heap[a]? = some v) (hprev : ∀ p, v.prev = some p → p < heap.length ∧ p ∉ l2) :
    ∃ heap1 head1 l, unlink heap headVehicle a = some (heap1, head1) ∧
      IsChain heap1 head1 l := by
  have hl2 : IsChain heap v.next l2 := by
    obtain ⟨q1, hq1⟩ := isChain_append h
    obtain ⟨_, v1, hv1, hc⟩ := isChain_cons.mp hq1
    rw [hv] at hv1
    obtain rfl := Option.some.inj hv1
    exact hc
  cases hp : v.prev with
  | none =>
    refine ⟨heap, v.next, l2, ?_, hl2⟩
    unfold unlink
    simp only [hv, hp]
  | some p =>
    obtain ⟨hplt, hpl2⟩ := hprev p hp
    obtain ⟨vp, hvp⟩ : ∃ vp, heap[p]? = some vp := ⟨heap[p], List.getElem?_eq_getElem hplt⟩
    cases hn : v.next with
    | none =>
      have hred : ∃ l, IsChain (heap.set p (setNext vp none)) headVehicle l :=
        isChain_after_redirect h hv hpl2
          (fun b hb w hw => ⟨w, by rw [getElem?_set_other _ _ hb]; exact hw, rfl⟩)
          ⟨_, getElem?_set_self_of _ hvp, by rw [hn]; rfl⟩
      obtain ⟨l, hl⟩ := hred
      refine ⟨_, headVehicle, l, ?_, hl⟩
      unfold unlink
      simp only [hv, hp, hn, storeNext_eq _ hvp, Option.map_some']
    | some n =>
      rw [hn] at hl2
      obtain ⟨l3, rfl⟩ : ∃ l3, l2 = n :: l3 := by
        cases l2 with
        | nil => exact absurd (isChain_nil.mp hl2) (by simp)
        | cons c l3 =>
          obtain ⟨hcn, _⟩ := isChain_cons.mp hl2
          exact ⟨l3, by rw [Option.some.inj hcn]⟩
      obtain ⟨_, vn, hvn, _⟩ := isChain_cons.mp hl2
      have hnp : n ≠ p := by
        rintro rfl
        exact hpl2 (by simp)
      -- the vehicle found, read again after the first assignment
      obtain ⟨v1, hv1, hv1n, hv1p⟩ : ∃ v1, (heap.set p (setNext vp (some n)))[a]? = some v1 ∧
          v1.next = some n ∧ v1.prev = some p := by
        by_cases hap : a = p
        · subst hap
          rw [hv] at hvp
          obtain rfl := Option.some.inj hvp
          exact ⟨_, getElem?_set_self_of _ hv, rfl, hp⟩
        · exact ⟨v, by rw [getElem?_set_other _ _ hap]; exact hv, hn, hp⟩
      have h1n : (heap.set p (setNext vp (some n)))[n]? = some vn := by
        rw [getElem?_set_other _ _ hnp]; exact hvn
      have hred : ∃ l, IsChain
          ((heap.set p (setNext vp (some n))).set n (setPrev vn (some p))) headVehicle l :=
        isChain_after_redirect h hv hpl2
        (fun b hb w hw => by
          by_cases hbn : b = n
          · subst hbn
            rw [hvn] at hw
            obtain rfl := Option.some.inj hw
            exact ⟨_, getElem?_set_self_of _ h1n, rfl⟩
          · exact ⟨w, by rw [getElem?_set_other _ _ hbn, getElem?_set_other _ _ hb]; exact hw,
              rfl⟩)
        ⟨setNext vp (some n), by
          rw [getElem?_set_other _ _ (Ne.symm hnp)]
          exact getElem?_set_self_of _ hvp, by rw [hn]; rfl⟩
      obtain ⟨l, hl⟩ := hred
      refine ⟨_, headVehicle, l, ?_, hl⟩
      unfold unlink
      simp only [hv, hp, hn, storeNext_eq _ hvp, hv1, hv1n, hv1p, storePrev_eq _ h1n,
        Option.map_some']

/-- `DeleteVehicle` returns on every list that ends and whose `prev` pointers are
safe. -/
theorem DeleteVehicle_returns (id : Int) (s : VehicleState) (l : List Nat)
    (h : IsChain s.heap s.headVehicle l) (hsafe : prevSafe s.heap l = true) :
    ∃ s1 screen, DeleteVehicle id s = some (s1, screen) := by
  by_cases hid : ∃ a ∈ l, ∃ v, s.heap[a]? = some v ∧ v.vehicleID = id
  · obtain ⟨l1, a, l2, v, rfl, hv, hvid, hno⟩ := exists_first_with_id h hid
    subst hvid
    have hf := findVehicle_found s.heap.length h hno hv (isChain_length_le h)
    obtain ⟨heap1, head1, l3, hu, hc⟩ := unlink_returns h hv (prevSafe_at hsafe hv)
    refine ⟨⟨heap1, head1, s.vehicleID, some (recordsAt heap1 l3)⟩, deleteDoneScreen v.vehicleID,
      ?_⟩
    unfold DeleteVehicle
    simp only [hf, hu]
    rw [updateVehicleFile_of_chain none s.vehicleFile hc]
    rfl
  · have hno : ∀ a ∈ l, ∀ v, s.heap[a]? = some v → v.vehicleID ≠ id := by
      intro a ha v hv hvid
      exact hid ⟨a, ha, v, hv, hvid⟩
    exact ⟨s, _, (not_found_spec id 0 [] [] [] s l h hno).1⟩


/-! ## Claim on the vehicle file as a mirror of the list -/

theorem mirrors_of_recordsAt (heap : List Vehicle) (headVehicle : Option Nat) (vehicleID : Int)
    (l : List Nat) : Mirrors ⟨heap, headVehicle, vehicleID, some (recordsAt heap l)⟩ l := by
  simp [Mirrors, dataAt]

/-- After `Registration` the file has one record more and mirrors the list. -/
theorem Registration_mirrors (customerID : Int) (customerName model plateNumber : List Char)
    (s : VehicleState) (l : List Nat) (h : IsChain s.heap s.headVehicle l) (hm : Mirrors s l) :
    ∃ s1, Registration customerID customerName model plateNumber s =
        some (s1, registrationScreen) ∧
      IsChain s1.heap s1.headVehicle (l ++ [s.heap.length]) ∧
      Mirrors s1 (l ++ [s.heap.length]) ∧
      (s1.vehicleFile.getD []).length = (s.vehicleFile.getD []).length + 1 := by
  obtain ⟨s1, h1, _, h3, h4, _, h6, _, h8⟩ :=
    Registration_spec customerID customerName model plateNumber s l h
  refine ⟨s1, h1, h3, ?_, by simp [h8]⟩
  have hold : dataAt s1.heap l = dataAt s.heap l := by
    apply dataAt_congr
    intro a ha
    rw [h6 a (isChain_lt h a ha)]
    cases s.heap[a]? with
    | none => rfl
    | some v =>
      simp only [Option.map_some']
      split <;> rfl
  unfold Mirrors at hm ⊢
  rw [dataAt_append, hold, dataAt_cons [] h4, dataAt_nil, h8]
  simp [hm]

/-- After `UpdateVehicle` on a list that ends the file mirrors the list. -/
theorem UpdateVehicle_mirrors (id customerID : Int) (customerName model plateNumber : List Char)
    (s : VehicleState) (l : List Nat) (h : IsChain s.heap s.headVehicle l) (hm : Mirrors s l) :
    ∃ s1 screen, UpdateVehicle id customerID customerName model plateNumber s =
        some (s1, screen) ∧
      IsChain s1.heap s1.headVehicle l ∧ Mirrors s1 l := by
  by_cases hid : ∃ a ∈ l, ∃ v, s.heap[a]? = some v ∧ v.vehicleID = id
  · obtain ⟨l1, a, l2, v, rfl, hv, hvid, hno⟩ := exists_first_with_id h hid
    subst hvid
    obtain ⟨h1, h2⟩ := UpdateVehicle_found customerID customerName model plateNumber s h hv hno
    exact ⟨_, _, h1, h2, mirrors_of_recordsAt _ _ _ _⟩
  · have hno : ∀ a ∈ l, ∀ v, s.heap[a]? = some v → v.vehicleID ≠ id := by
      intro a ha v hv hvid
      exact hid ⟨a, ha, v, hv, hvid⟩
    exact ⟨s, _, (not_found_spec id customerID customerName model plateNumber s l h hno).2, h, hm⟩

/-- Whenever `DeleteVehicle` returns, the list has a forward traversal and the file
mirrors it. -/
theorem DeleteVehicle_some_mirrors {id : Int} {s s1 : VehicleState} {screen : Screen}
    {l : List Nat} (h : IsChain s.heap s.headVehicle l) (hm : Mirrors s l)
    (hd : DeleteVehicle id s = some (s1, screen)) :
    ∃ l1, IsChain s1.heap s1.headVehicle l1 ∧ Mirrors s1 l1 := by
  unfold DeleteVehicle at hd
  cases hf : findVehicle s.heap id s.heap.length s.headVehicle with
  | none => simp [hf] at hd
  | some found =>
    cases found with
    | none =>
      simp only [hf, Option.some.injEq, Prod.mk.injEq] at hd
      obtain ⟨rfl, _⟩ := hd
      exact ⟨l, h, hm⟩
    | some current =>
      simp only [hf] at hd
      cases hu : unlink s.heap s.headVehicle current with
      | none => simp [hu] at hd
      | some r =>
        obtain ⟨heap1, head1⟩ := r
        simp only [hu] at hd
        cases hw : updateVehicleFile heap1 head1 none s.vehicleFile with
        | none => simp [hw] at hd
        | some files =>
          obtain ⟨l1, hl1, hfiles⟩ := updateVehicleFile_some hw
          simp only [hw, Option.map_some', Option.some.injEq, Prod.mk.injEq] at hd
          obtain ⟨rfl, _⟩ := hd
          subst hfiles
          exact ⟨l1, hl1, mirrors_of_recordsAt _ _ _ _⟩

/-- C18: the vehicle file mirrors the list. For every state whose list has a forward
traversal `l` that the records of the vehicle file mirror: `Registration` returns,
appends one record, and the file mirrors the list again; `UpdateVehicle` returns and
the file mirrors the list again; `DeleteVehicle` returns when no vehicle of the list
has a `prev` pointer that is no address or points to a later vehicle of the list,
as in every well-formed list, and whenever it returns the file mirrors the list
again; and `updateVehicleFile` alone, whatever the two files held, leaves a final
file with as many records as `CountVehicles` counts. -/
theorem vehicle_file_mirrors_list (s : VehicleState) (l : List Nat)
    (h : IsChain s.heap s.headVehicle l) (hm : Mirrors s l) :
    (∀ (customerID : Int) (customerName model plateNumber : List Char),
      ∃ s1 l1, Registration customerID customerName model plateNumber s =
          some (s1, registrationScreen) ∧
        IsChain s1.heap s1.headVehicle l1 ∧ Mirrors s1 l1 ∧
        (s1.vehicleFile.getD []).length = (s.vehicleFile.getD []).length + 1) ∧
      (∀ (id customerID : Int) (customerName model plateNumber : List Char),
        ∃ s1 screen l1, UpdateVehicle id customerID customerName model plateNumber s =
            some (s1, screen) ∧
          IsChain s1.heap s1.headVehicle l1 ∧ Mirrors s1 l1) ∧
      (∀ id : Int, prevSafe s.heap l = true →
        ∃ s1 screen l1, DeleteVehicle id s = some (s1, screen) ∧
          IsChain s1.heap s1.headVehicle l1 ∧ Mirrors s1 l1) ∧
      (prevOK s.heap none l = true → prevSafe s.heap l = true) ∧
      (∀ (id : Int) (s1 : VehicleState) (screen : Screen),
        DeleteVehicle id s = some (s1, screen) →
          ∃ l1, IsChain s1.heap s1.headVehicle l1 ∧ Mirrors s1 l1) ∧
      ∀ tempFile finalFile : Option (List Vehicle),
        ∃ file, updateVehicleFile s.heap s.headVehicle tempFile finalFile =
            some (none, some file) ∧
          CountVehicles s = some ((file.length : Int), s) := by
  refine ⟨?_, ?_, ?_, ?_, ?_, ?_⟩
  · intro customerID customerName model plateNumber
    obtain ⟨s1, h1, h2, h3, h4⟩ :=
      Registration_mirrors customerID customerName model plateNumber s l h hm
    exact ⟨s1, _, h1, h2, h3, h4⟩
  · intro id customerID customerName model plateNumber
    obtain ⟨s1, screen, h1, h2, h3⟩ :=
      UpdateVehicle_mirrors id customerID customerName model plateNumber s l h hm
    exact ⟨s1, screen, l, h1, h2, h3⟩
  · intro id hsafe
    obtain ⟨s1, screen, hd⟩ := DeleteVehicle_returns id s l h hsafe
    obtain ⟨l1, h1, h2⟩ := DeleteVehicle_some_mirrors h hm hd
    exact ⟨s1, screen, l1, hd, h1, h2⟩
  · intro hp
    exact prevSafe_of_prevOK h hp (by simp)
  · intro id s1 screen hd
    exact DeleteVehicle_some_mirrors h hm hd
  · intro tempFile finalFile
    refine ⟨recordsAt s.heap l, updateVehicleFile_of_chain tempFile finalFile h, ?_⟩
    unfold CountVehicles
    rw [countLoop_of_chain s.heap.length 0 h (isChain_length_le h), length_recordsAt h]
    simp

/-- C18 on a list of the vehicles 1 and 2 whose file holds their two records, with
a stale `next` in the first: after registering a third vehicle the file has three
records and mirrors the list, and after deleting vehicle 1 it holds the record of
vehicle 2 and mirrors the list. -/
theorem vehicle_file_mirrors_list_witness :
    IsChain
        [⟨1, 1001, "A".toList, "X".toList, "P1".toList, some 1, none⟩,
          ⟨2, 1002, "B".toList, "Y".toList, "P2".toList, none, some 0⟩] (some 0) [0, 1] ∧
      Mirrors
        ⟨[⟨1, 1001, "A".toList, "X".toList, "P1".toList, some 1, none⟩,
          ⟨2, 1002, "B".toList, "Y".toList, "P2".toList, none, some 0⟩], some 0, 3,
          some [⟨1, 1001, "A".toList, "X".toList, "P1".toList, none, none⟩,
            ⟨2, 1002, "B".toList, "Y".toList, "P2".toList, none, some 0⟩]⟩ [0, 1] ∧
      (∃ s1 l1, Registration 1003 "C".toList "Z".toList "P3".toList
          ⟨[⟨1, 1001, "A".toList, "X".toList, "P1".toList, some 1, none⟩,
            ⟨2, 1002, "B".toList, "Y".toList, "P2".toList, none, some 0⟩], some 0, 3,
            some [⟨1, 1001, "A".toList, "X".toList, "P1".toList, none, none⟩,
              ⟨2, 1002, "B".toList, "Y".toList, "P2".toList, none, some 0⟩]⟩ =
          some (s1, registrationScreen) ∧
        IsChain s1.heap s1.headVehicle l1 ∧ Mirrors s1 l1 ∧
        (s1.vehicleFile.getD []).length = 2 + 1) ∧
      ((DeleteVehicle 1
          ⟨[⟨1, 1001, "A".toList, "X".toList, "P1".toList, some 1, none⟩,
            ⟨2, 1002, "B".toList, "Y".toList, "P2".toList, none, some 0⟩], some 0, 3,
            some [⟨1, 1001, "A".toList, "X".toList, "P1".toList, none, none⟩,
              ⟨2, 1002, "B".toList, "Y".toList, "P2".toList, none, some 0⟩]⟩).map
        fun r => (r.1.vehicleFile.map (List.map Vehicle.vehicleID), decide (Mirrors r.1 [1]))) =
        some (some [2], true) := by
  refine ⟨by decide, by decide, ?_, by decide⟩
  exact (vehicle_file_mirrors_list _ [0, 1] (by decide) (by decide)).1
    1003 "C".toList "Z".toList "P3".toList


/-! ## Claims on CreateMaintenance, CreateReport and CreateFeedback -/

set_option maxRecDepth 4000 in
/-- C21, as stated, fails: the addition of `CreateMaintenance` is an `int` addition.
For the date (2147483647, 11, 14) the claim gives the year 2147483648 of the next
maintenance, and `CreateMaintenance` writes the year -2147483648. -/
theorem CreateMaintenance_wraps_around :
    CreateMaintenance [] ⟨1, "John Doe".toList, "Maintenance".toList⟩ ⟨2147483647, 11, 14⟩ =
        (" | Maintenance appointment performed for the customer  \n | John Doe with " ++
          "vehicle ID 1, on this date: 14/11/2147483647\n | Next maintenance date is : " ++
          "14/11/-2147483648\n\n").toList ∧
      maintenanceExpiration ⟨2147483647, 11, 14⟩ = ⟨-2147483648, 11, 14⟩ ∧
      maintenanceExpiration ⟨2147483647, 11, 14⟩ ≠ ⟨2147483647 + 1, 11, 14⟩ := by
  refine ⟨by decide, by decide, by decide⟩

/-- C21, amended: the stanza of `CreateMaintenance` for the dates whose year is below
2147483647. For every appointment, file content and date whose year is a value of
an `int` below 2147483647, the date of the next maintenance is
(year + 1, month, day), and the content afterwards is the previous content followed
by the line of the appointment, the line of the next maintenance with that date
and an empty line. -/
theorem CreateMaintenance_stanza (file : List Char) (a : Appointment) (date : Date)
    (hy : fitsInt date.year ∧ date.year < 2147483647) :
    maintenanceExpiration date = ⟨date.year + 1, date.month, date.day⟩ ∧
      CreateMaintenance file a date =
        file ++ (" | Maintenance appointment performed for the customer  \n | ".toList ++
          a.customerName ++ " with vehicle ID ".toList ++ formatInt a.vehicleID ++
          ", on this date: ".toList ++ formatInt date.day ++ ['/'] ++ formatInt date.month ++
          ['/'] ++ formatInt date.year ++ ['\n'] ++ " | Next maintenance date is : ".toList ++
          formatInt date.day ++ ['/'] ++ formatInt date.month ++ ['/'] ++
          formatInt (date.year + 1) ++ ['\n', '\n']) := by
  have hw : wrapInt (date.year + 1) = date.year + 1 := by
    apply wrapInt_of_fitsInt
    obtain ⟨h1, h2⟩ := hy
    unfold fitsInt at h1 ⊢
    omega
  refine ⟨?_, ?_⟩
  · unfold maintenanceExpiration
    rw [hw]
  · simp [CreateMaintenance, maintenanceExpiration, hw]

/-- C21, amended, the test `TestCreateMaintenance`: (2023, 11, 14) gives
14/11/2024. -/
theorem CreateMaintenance_stanza_witness :
    (fitsInt (2023 : Int) ∧ (2023 : Int) < 2147483647) ∧
      maintenanceExpiration ⟨2023, 11, 14⟩ = ⟨2024, 11, 14⟩ ∧
      CreateMaintenance [] ⟨1, "John Doe".toList, "Maintenance".toList⟩ ⟨2023, 11, 14⟩ =
        (" | Maintenance appointment performed for the customer  \n | John Doe with " ++
          "vehicle ID 1, on this date: 14/11/2023\n | Next maintenance date is : " ++
          "14/11/2024\n\n").toList := by
  obtain ⟨h1, h2⟩ := CreateMaintenance_stanza []
    ⟨1, "John Doe".toList, "Maintenance".toList⟩ ⟨2023, 11, 14⟩ (by decide)
  refine ⟨by decide, h1, ?_⟩
  rw [h2]
  decide

theorem CreateReport_append (file : List Char) (a : Appointment) (date : Date) :
    CreateReport file a date = file ++ CreateReport [] a date := by
  simp [CreateReport]

theorem CreateWarranty_append (file : List Char) (a : Appointment) (date : Date) :
    CreateWarranty file a date = file ++ CreateWarranty [] a date := by
  simp [CreateWarranty]

theorem CreateMaintenance_append (file : List Char) (a : Appointment) (date : Date) :
    CreateMaintenance file a date = file ++ CreateMaintenance [] a date := by
  simp [CreateMaintenance]

theorem CreateFeedback_append (file : List Char) (message : List Char) :
    CreateFeedback file message = file ++ CreateFeedback [] message := by
  simp [CreateFeedback]

theorem CreateReport_explicit (file : List Char) (a : Appointment) (date : Date) :
    CreateReport file a date =
      file ++ (" | The following operation: ".toList ++ a.appointmentType ++
        ", performed to the customer : \n | ".toList ++ a.customerName ++
        " with vehicle ID ".toList ++ formatInt a.vehicleID ++ ", on this date: ".toList ++
        formatInt date.day ++ ['/'] ++ formatInt date.month ++ ['/'] ++
        formatInt date.year ++ ['\n', '\n']) := by
  simp [CreateReport]

theorem CreateWarranty_explicit (file : List Char) (a : Appointment) (date : Date) :
    CreateWarranty file a date =
      file ++ (" | ".toList ++ a.appointmentType ++
        ", performed to the customer : \n | ".toList ++ a.customerName ++
        " with vehicle ID ".toList ++ formatInt a.vehicleID ++ ", on this date: ".toList ++
        formatInt date.day ++ ['/'] ++ formatInt date.month ++ ['/'] ++ formatInt date.year ++
        ['\n'] ++ " | Warranty for repair valid until: ".toList ++
        formatInt (warrantyExpiration date).day ++ ['/'] ++
        formatInt (warrantyExpiration date).month ++ ['/'] ++
        formatInt (warrantyExpiration date).year ++ ['\n', '\n']) := by
  simp [CreateWarranty]

theorem CreateMaintenance_explicit (file : List Char) (a : Appointment) (date : Date) :
    CreateMaintenance file a date =
      file ++ (" | Maintenance appointment performed for the customer  \n | ".toList ++
        a.customerName ++ " with vehicle ID ".toList ++ formatInt a.vehicleID ++
        ", on this date: ".toList ++ formatInt date.day ++ ['/'] ++ formatInt date.month ++
        ['/'] ++ formatInt date.year ++ ['\n'] ++ " | Next maintenance date is : ".toList ++
        formatInt (maintenanceExpiration date).day ++ ['/'] ++
        formatInt (maintenanceExpiration date).month ++ ['/'] ++
        formatInt (maintenanceExpiration date).year ++ ['\n', '\n']) := by
  simp [CreateMaintenance]

theorem CreateFeedback_explicit (file : List Char) (message : List Char) :
    CreateFeedback file message = file ++ (message ++ ['\n', '\n']) := by
  simp [CreateFeedback]

/-- Successive calls of `CreateReport` leave the prior content followed by the
stanzas of the calls, in call order. -/
theorem foldl_CreateReport (calls : List (Appointment × Date)) (file : List Char) :
    calls.foldl (fun f c => CreateReport f c.1 c.2) file =
      file ++ calls.flatMap fun c =>
        " | The following operation: ".toList ++ c.1.appointmentType ++
          ", performed to the customer : \n | ".toList ++ c.1.customerName ++
          " with vehicle ID ".toList ++ formatInt c.1.vehicleID ++ ", on this date: ".toList ++
          formatInt c.2.day ++ ['/'] ++ formatInt c.2.month ++ ['/'] ++
          formatInt c.2.year ++ ['\n', '\n'] := by
  induction calls generalizing file with
  | nil => simp
  | cons c rest ih =>
    rw [List.foldl_cons, ih, List.flatMap_cons, CreateReport_explicit file c.1 c.2,
      List.append_assoc]

theorem foldl_CreateWarranty (calls : List (Appointment × Date)) (file : List Char) :
    calls.foldl (fun f c => CreateWarranty f c.1 c.2) file =
      file ++ calls.flatMap fun c =>
        " | ".toList ++ c.1.appointmentType ++
          ", performed to the customer : \n | ".toList ++ c.1.customerName ++
          " with vehicle ID ".toList ++ formatInt c.1.vehicleID ++ ", on this date: ".toList ++
          formatInt c.2.day ++ ['/'] ++ formatInt c.2.month ++ ['/'] ++ formatInt c.2.year ++
          ['\n'] ++ " | Warranty for repair valid until: ".toList ++
          formatInt (warrantyExpiration c.2).day ++ ['/'] ++
          formatInt (warrantyExpiration c.2).month ++ ['/'] ++
          formatInt (warrantyExpiration c.2).year ++ ['\n', '\n'] := by
  induction calls generalizing file with
  | nil => simp
  | cons c rest ih =>
    rw [List.foldl_cons, ih, List.flatMap_cons, CreateWarranty_explicit file c.1 c.2,
      List.append_assoc]

theorem foldl_CreateMaintenance (calls : List (Appointment × Date)) (file : List Char) :
    calls.foldl (fun f c => CreateMaintenance f c.1 c.2) file =
      file ++ calls.flatMap fun c =>
        " | Maintenance appointment performed for the customer  \n | ".toList ++
          c.1.customerName ++ " with vehicle ID ".toList ++ formatInt c.1.vehicleID ++
          ", on this date: ".toList ++ formatInt c.2.day ++ ['/'] ++ formatInt c.2.month ++
          ['/'] ++ formatInt c.2.year ++ ['\n'] ++ " | Next maintenance date is : ".toList ++
          formatInt (maintenanceExpiration c.2).day ++ ['/'] ++
          formatInt (maintenanceExpiration c.2).month ++ ['/'] ++
          formatInt (maintenanceExpiration c.2).year ++ ['\n', '\n'] := by
  induction calls generalizing file with
  | nil => simp
  | cons c rest ih =>
    rw [List.foldl_cons, ih, List.flatMap_cons, CreateMaintenance_explicit file c.1 c.2,
      List.append_assoc]

theorem foldl_CreateFeedback (calls : List (List Char)) (file : List Char) :
    calls.foldl CreateFeedback file = file ++ calls.flatMap fun message =>
      message ++ ['\n', '\n'] := by
  induction calls generalizing file with
  | nil => simp
  | cons c rest ih =>
    rw [List.foldl_cons, ih, List.flatMap_cons, CreateFeedback_explicit file c,
      List.append_assoc]

theorem CreateReport_test :
    CreateReport [] ⟨1, "John Doe".toList, "Repair".toList⟩ ⟨2023, 11, 14⟩ =
      (" | The following operation: Repair, performed to the customer : \n | John Doe " ++
        "with vehicle ID 1, on this date: 14/11/2023\n\n").toList := by
  decide

theorem CreateFeedback_test :
    CreateFeedback [] "Great service!".toList = "Great service!\n\n".toList := by
  decide

/-- C22: the four functions only append. For every prior content of the file, the
content after `CreateReport`, `CreateWarranty`, `CreateMaintenance` or
`CreateFeedback` is the prior content followed by the stanza of the call: the line of
the operation and an empty line for `CreateReport`; the line of the operation, the
line of the warranty with the expiration date that the function computes, and an
empty line for `CreateWarranty`; the line of the appointment, the line of the next
maintenance with the date that the function computes, and an empty line for
`CreateMaintenance`; the message and two newlines for `CreateFeedback`. Successive
calls leave the prior content followed by the stanzas of the calls in call order.
The strings of the tests of `CreateReport` and `CreateFeedback` are reproduced. -/
theorem create_functions_append (file : List Char) :
    (∀ (a : Appointment) (date : Date),
        CreateReport file a date =
          file ++ (" | The following operation: ".toList ++ a.appointmentType ++
            ", performed to the customer : \n | ".toList ++ a.customerName ++
            " with vehicle ID ".toList ++ formatInt a.vehicleID ++ ", on this date: ".toList ++
            formatInt date.day ++ ['/'] ++ formatInt date.month ++ ['/'] ++
            formatInt date.year ++ ['\n', '\n'])) ∧
      (∀ (a : Appointment) (date : Date),
        CreateWarranty file a date =
          file ++ (" | ".toList ++ a.appointmentType ++
            ", performed to the customer : \n | ".toList ++ a.customerName ++
            " with vehicle ID ".toList ++ formatInt a.vehicleID ++ ", on this date: ".toList ++
            formatInt date.day ++ ['/'] ++ formatInt date.month ++ ['/'] ++
            formatInt date.year ++ ['\n'] ++ " | Warranty for repair valid until: ".toList ++
            formatInt (warrantyExpiration date).day ++ ['/'] ++
            formatInt (warrantyExpiration date).month ++ ['/'] ++
            formatInt (warrantyExpiration date).year ++ ['\n', '\n'])) ∧
      (∀ (a : Appointment) (date : Date),
        CreateMaintenance file a date =
          file ++ (" | Maintenance appointment performed for the customer  \n | ".toList ++
            a.customerName ++ " with vehicle ID ".toList ++ formatInt a.vehicleID ++
            ", on this date: ".toList ++ formatInt date.day ++ ['/'] ++
            formatInt date.month ++ ['/'] ++ formatInt date.year ++ ['\n'] ++
            " | Next maintenance date is : ".toList ++
            formatInt (maintenanceExpiration date).day ++ ['/'] ++
            formatInt (maintenanceExpiration date).month ++ ['/'] ++
            formatInt (maintenanceExpiration date).year ++ ['\n', '\n'])) ∧
      (∀ message : List Char, CreateFeedback file message = file ++ (message ++ ['\n', '\n'])) ∧
      (∀ calls : List (Appointment × Date),
        calls.foldl (fun f c => CreateReport f c.1 c.2) file =
          file ++ calls.flatMap fun c =>
            " | The following operation: ".toList ++ c.1.appointmentType ++
              ", performed to the customer : \n | ".toList ++ c.1.customerName ++
              " with vehicle ID ".toList ++ formatInt c.1.vehicleID ++
              ", on this date: ".toList ++ formatInt c.2.day ++ ['/'] ++
              formatInt c.2.month ++ ['/'] ++ formatInt c.2.year ++ ['\n', '\n']) ∧
      (∀ calls : List (Appointment × Date),
        calls.foldl (fun f c => CreateWarranty f c.1 c.2) file =
          file ++ calls.flatMap fun c =>
            " | ".toList ++ c.1.appointmentType ++
              ", performed to the customer : \n | ".toList ++ c.1.customerName ++
              " with vehicle ID ".toList ++ formatInt c.1.vehicleID ++
              ", on this date: ".toList ++ formatInt c.2.day ++ ['/'] ++
              formatInt c.2.month ++ ['/'] ++ formatInt c.2.year ++ ['\n'] ++
              " | Warranty for repair valid until: ".toList ++
              formatInt (warrantyExpiration c.2).day ++ ['/'] ++
              formatInt (warrantyExpiration c.2).month ++ ['/'] ++
              formatInt (warrantyExpiration c.2).year ++ ['\n', '\n']) ∧
      (∀ calls : List (Appointment × Date),
        calls.foldl (fun f c => CreateMaintenance f c.1 c.2) file =
          file ++ calls.flatMap fun c =>
            " | Maintenance appointment performed for the customer  \n | ".toList ++
              c.1.customerName ++ " with vehicle ID ".toList ++ formatInt c.1.vehicleID ++
              ", on this date: ".toList ++ formatInt c.2.day ++ ['/'] ++
              formatInt c.2.month ++ ['/'] ++ formatInt c.2.year ++ ['\n'] ++
              " | Next maintenance date is : ".toList ++
              formatInt (maintenanceExpiration c.2).day ++ ['/'] ++
              formatInt (maintenanceExpiration c.2).month ++ ['/'] ++
              formatInt (maintenanceExpiration c.2).year ++ ['\n', '\n']) ∧
      (∀ calls : List (List Char),
        calls.foldl CreateFeedback file = file ++ calls.flatMap fun message =>
          message ++ ['\n', '\n']) ∧
      CreateReport [] ⟨1, "John Doe".toList, "Repair".toList⟩ ⟨2023, 11, 14⟩ =
        (" | The following operation: Repair, performed to the customer : \n | John Doe " ++
          "with vehicle ID 1, on this date: 14/11/2023\n\n").toList ∧
      CreateFeedback [] "Great service!".toList = "Great service!\n\n".toList := by
  exact ⟨fun a date => CreateReport_explicit file a date,
    fun a date => CreateWarranty_explicit file a date,
    fun a date => CreateMaintenance_explicit file a date,
    fun message => CreateFeedback_explicit file message,
    fun calls => foldl_CreateReport calls file,
    fun calls => foldl_CreateWarranty calls file,
    fun calls => foldl_CreateMaintenance calls file,
    fun calls => foldl_CreateFeedback calls file, CreateReport_test, CreateFeedback_test⟩

/-! ## Claims on DisplayFileContent and on the files that cannot be opened -/

theorem foldl_lines (ls : List (List Char)) (output : List Char) :
    ls.foldl (fun output line => output ++ (line ++ "\n".toList)) output =
      output ++ ls.flatMap fun line => line ++ ['\n'] := by
  induction ls generalizing output with
  | nil => simp
  | cons l rest ih =>
    rw [List.foldl_cons, ih, List.flatMap_cons]
    simp

theorem getlines_eq_nil {content : List Char} (h : getlines content = []) : content = [] := by
  cases content with
  | nil => rfl
  | cons c cs =>
    rw [getlines] at h
    by_cases hc : c = '\n'
    · simp [hc] at h
    · simp only [hc, if_false] at h
      cases hg : getlines cs with
      | nil => simp [hg] at h
      | cons l ls => simp [hg] at h

/-- The lines of a text, each followed by a newline, are the text itself when it is
empty or ends with a newline, and the text followed by a newline otherwise. -/
theorem flatMap_getlines (content : List Char) :
    ((getlines content).flatMap fun line => line ++ ['\n']) =
      if content = [] ∨ content.getLast? = some '\n' then content else content ++ ['\n'] := by
  induction content with
  | nil => simp [getlines]
  | cons c cs ih =>
    rw [getlines]
    by_cases hc : c = '\n'
    · subst hc
      simp only [if_true, List.flatMap_cons, List.nil_append, List.singleton_append, ih]
      cases cs with
      | nil => simp
      | cons d ds =>
        simp only [List.getLast?_cons_cons, reduceCtorEq, false_or]
        split <;> rfl
    · simp only [hc, if_false]
      cases hg : getlines cs with
      | nil =>
        obtain rfl := getlines_eq_nil hg
        have : ¬ (some c = some '\n') := fun h => hc (Option.some.inj h)
        simp [this]
      | cons l ls =>
        have hne : cs ≠ [] := by
          rintro rfl
          simp [getlines] at hg
        obtain ⟨d, ds, rfl⟩ := List.exists_cons_of_ne_nil hne
        rw [hg] at ih
        simp only [List.flatMap_cons, List.cons_append] at ih ⊢
        rw [ih]
        simp [List.getLast?_cons_cons]
        split <;> rfl

/-- C25: the result of `DisplayFileContent`. For every content of a file that opens,
the result is every line of the file followed by a newline: the content itself when
it is empty or ends with a newline, and the content followed by one newline
otherwise; the three lines of the test, the last one not terminated, come back with
a newline after the third. -/
theorem DisplayFileContent_lines (content : List Char) :
    DisplayFileContent (some content) =
        ((getlines content).flatMap fun line => line ++ ['\n']) ∧
      ((content = [] ∨ content.getLast? = some '\n') →
        DisplayFileContent (some content) = content) ∧
      (¬ (content = [] ∨ content.getLast? = some '\n') →
        DisplayFileContent (some content) = content ++ ['\n']) ∧
      DisplayFileContent (some "Line 1\nLine 2\nLine 3".toList) =
        "Line 1\nLine 2\nLine 3\n".toList := by
  have h : DisplayFileContent (some content) =
      ((getlines content).flatMap fun line => line ++ ['\n']) := by
    unfold DisplayFileContent
    simp only [foldl_lines, List.nil_append]
  refine ⟨h, ?_, ?_, by decide⟩
  · intro hc
    rw [h, flatMap_getlines, if_pos hc]
  · intro hc
    rw [h, flatMap_getlines, if_neg hc]

/-- C26: the files that cannot be opened. With a file that is missing,
`readAppointmentsFromFile` returns with the matrix as it was, so with every cell
unchanged, and with no diagnostic written; `loadVehiclesFromFile` returns with the
state as it was, so with the head, the heap of the list and the counter unchanged;
and `DisplayFileContent` returns the empty string. -/
theorem missing_file_reads (uninit : Int) (m : AppointmentMatrix) (s : VehicleState) :
    readAppointmentsFromFile uninit none m = some (m, []) ∧
      (∃ s1, loadVehiclesFromFile none s = some s1 ∧ s1.headVehicle = s.headVehicle ∧
        s1.heap = s.heap ∧ s1.vehicleID = s.vehicleID ∧ s1.vehicleFile = s.vehicleFile) ∧
      DisplayFileContent none = [] :=
  ⟨rfl, ⟨s, rfl, rfl, rfl, rfl, rfl⟩, rfl⟩

/-! ## Claim on the dates of a calendar in the matrix of `main` -/

theorem cell_mainMatrix_day_31 (year month : Int) : cell mainMatrix ⟨year, month, 31⟩ = none := by
  cases h : cell mainMatrix ⟨year, month, 31⟩ with
  | none => rfl
  | some q =>
    obtain ⟨_, _, _, hd⟩ := cell_mainMatrix_some h
    have h31 : (31 : Int) ≤ 30 := hd
    omega

/-- C30, the code against the claim: in the matrix of `main`, which has the day slots
0 to 30, the day 31 of every month of every year is outside the bounds: the cell
does not exist and the indexing of `addAppointment` is undefined, as for the date
31/1/2023; the days up to 30 of these months and years are within the bounds. -/
theorem addAppointment_day_31_out_of_bounds (a : Appointment) (year month : Int) :
    cell mainMatrix ⟨year, month, 31⟩ = none ∧
      addAppointment ⟨year, month, 31⟩ a mainMatrix = none ∧
      addAppointment ⟨2023, 1, 31⟩ a mainMatrix = none ∧
      ∀ day : Int, 0 ≤ year ∧ year ≤ 2050 → 1 ≤ month ∧ month ≤ 12 → 1 ≤ day ∧ day ≤ 30 →
        (addAppointment ⟨year, month, day⟩ a mainMatrix).isSome := by
  refine ⟨cell_mainMatrix_day_31 year month,
    updateCell_eq_none _ (cell_mainMatrix_day_31 year month),
    updateCell_eq_none _ (cell_mainMatrix_day_31 2023 1), ?_⟩
  intro day hy hm hd
  have hm2 : 0 ≤ month ∧ month ≤ 13 := by omega
  have hd2 : 0 ≤ day ∧ day ≤ 30 := by omega
  obtain ⟨m1, h1, _⟩ := addAppointment_spec a (cell_mainMatrix ⟨year, month, day⟩ hy hm2 hd2)
  rw [h1]
  rfl


/-! ## Lemmas: the parts map -/

theorem lookup_assign_self (partHash : PartHash) (key : List Char) (part : Part) :
    (assign partHash key part).lookup key = some part := by
  simp [assign, List.lookup_cons]

theorem lookup_filter_ne (partHash : PartHash) {key k : List Char} (h : k ≠ key) :
    (partHash.filter fun e => e.1 != key).lookup k = partHash.lookup k := by
  induction partHash with
  | nil => rfl
  | cons e rest ih =>
    obtain ⟨k0, p0⟩ := e
    by_cases hk0 : k0 = key
    · subst hk0
      have hne : (k == k0) = false := by simpa using h
      simp [List.filter_cons, List.lookup_cons, hne, ih]
    · have hk1 : (k0 != key) = true := by simpa using hk0
      simp only [List.filter_cons, hk1, if_true, List.lookup_cons, ih]

theorem lookup_assign_other (partHash : PartHash) {key k : List Char} (part : Part)
    (h : k ≠ key) : (assign partHash key part).lookup k = partHash.lookup k := by
  have hne : (k == key) = false := by simpa using h
  simp only [assign, List.lookup_cons, hne]
  exact lookup_filter_ne partHash h

theorem length_assign_le (partHash : PartHash) (key : List Char) (part : Part) :
    (assign partHash key part).length ≤ partHash.length + 1 := by
  simp only [assign, List.length_cons]
  exact Nat.succ_le_succ (List.length_filter_le _ _)

theorem keys_assign (partHash : PartHash) (key : List Char) (part : Part) :
    ∀ k ∈ (assign partHash key part).map Prod.fst, k = key ∨ k ∈ partHash.map Prod.fst := by
  intro k hk
  simp only [assign, List.map_cons, List.mem_cons] at hk
  rcases hk with hk | hk
  · exact Or.inl hk
  · obtain ⟨e, he, rfl⟩ := List.mem_map.mp hk
    exact Or.inr (List.mem_map_of_mem _ (List.mem_filter.mp he).1)

theorem nodup_keys_assign (partHash : PartHash) (key : List Char) (part : Part)
    (h : (partHash.map Prod.fst).Nodup) : ((assign partHash key part).map Prod.fst).Nodup := by
  simp only [assign, List.map_cons]
  refine List.nodup_cons.mpr ⟨?_, ?_⟩
  · intro hk
    obtain ⟨e, he, hek⟩ := List.mem_map.mp hk
    have := (List.mem_filter.mp he).2
    simp [hek] at this
  · exact (List.filter_sublist _).map Prod.fst |>.nodup h

/-- A later assignment to the same key replaces the earlier one. -/
theorem assign_assign (partHash : PartHash) (key : List Char) (part1 part2 : Part) :
    assign (assign partHash key part1) key part2 = assign partHash key part2 := by
  simp [assign, List.filter_cons, List.filter_filter]

/-- An extraction of a word takes at least one character. -/
theorem extractWord_length {s w rest : List Char} (h : extractWord s = some (w, rest)) :
    rest.length < s.length := by
  unfold extractWord at h
  by_cases hw : (s.dropWhile isspace).takeWhile (fun c => !isspace c) = []
  · simp [hw] at h
  · simp only [hw, if_false, Option.some.injEq, Prod.mk.injEq] at h
    obtain ⟨hw1, hrest⟩ := h
    have h1 := congrArg List.length
      (List.takeWhile_append_dropWhile (fun c => !isspace c) (s.dropWhile isspace))
    have h2 : (s.dropWhile isspace).length ≤ s.length := (List.dropWhile_sublist isspace).length_le
    have h3 : 0 < ((s.dropWhile isspace).takeWhile (fun c => !isspace c)).length :=
      List.length_pos.mpr hw
    rw [List.length_append, hrest] at h1
    omega

theorem afterParts_nil (uninit : Int) (partHash : PartHash) :
    afterParts uninit partHash [] = partHash := rfl

theorem afterParts_cons (uninit : Int) (partHash : PartHash) (p : List Char × List Char × ℚ)
    (rest : List (List Char × List Char × ℚ)) :
    afterParts uninit partHash (p :: rest) =
      afterParts uninit (assign partHash (formatInt uninit) ⟨uninit, p.1, p.2.1, p.2.2⟩) rest := by
  cases rest with
  | nil => simp [afterParts]
  | cons q rest =>
    simp only [afterParts, List.getLast?_cons_cons]
    cases h : (q :: rest).getLast? with
    | none => simp at h
    | some r => simp only [assign_assign]

/-- The loop of `loadPartsFromFile` ends within the fuel when the fuel exceeds the
length of the stream, and leaves the map that the parts read determine. -/
theorem partsLoop_spec (extractFloat : List Char → Option (ℚ × Nat)) (uninit : Int)
    (fuel : Nat) (s : List Char) (partHash : PartHash) (hf : s.length < fuel) :
    partsLoop extractFloat uninit fuel s partHash =
      some (afterParts uninit partHash (parsedParts extractFloat fuel s)) := by
  induction fuel generalizing s partHash with
  | zero => omega
  | succ fuel ih =>
    rw [partsLoop, parsedParts]
    cases h1 : extractWord s with
    | none => rfl
    | some r1 =>
      obtain ⟨name, s1⟩ := r1
      have hl1 := extractWord_length h1
      dsimp only
      cases h2 : extractWord s1 with
      | none => rfl
      | some r2 =>
        obtain ⟨compatiblemodel, s2⟩ := r2
        have hl2 := extractWord_length h2
        dsimp only
        cases h3 : extractFloat s2 with
        | none => rfl
        | some r3 =>
          obtain ⟨price, used⟩ := r3
          dsimp only
          rw [ih (s2.drop used) _ (by rw [List.length_drop]; omega), afterParts_cons]

/-- The parts read do not depend on the fuel, once it exceeds the length of the
stream. -/
theorem parsedParts_fuel (extractFloat : List Char → Option (ℚ × Nat)) (fuel1 fuel2 : Nat)
    (s : List Char) (h1 : s.length < fuel1) (h2 : s.length < fuel2) :
    parsedParts extractFloat fuel1 s = parsedParts extractFloat fuel2 s := by
  induction fuel1 generalizing s fuel2 with
  | zero => omega
  | succ fuel1 ih =>
    cases fuel2 with
    | zero => omega
    | succ fuel2 =>
      rw [parsedParts, parsedParts]
      cases h1w : extractWord s with
      | none => rfl
      | some r1 =>
        obtain ⟨name, s1⟩ := r1
        have hl1 := extractWord_length h1w
        dsimp only
        cases h2w : extractWord s1 with
        | none => rfl
        | some r2 =>
          obtain ⟨compatiblemodel, s2⟩ := r2
          have hl2 := extractWord_length h2w
          dsimp only
          cases h3 : extractFloat s2 with
          | none => rfl
          | some r3 =>
            obtain ⟨price, used⟩ := r3
            dsimp only
            rw [ih fuel2 (s2.drop used) (by rw [List.length_drop]; omega)
              (by rw [List.length_drop]; omega)]

theorem afterParts_lookup_other (uninit : Int) (partHash : PartHash)
    (parts : List (List Char × List Char × ℚ)) {key : List Char} (h : key ≠ formatInt uninit) :
    (afterParts uninit partHash parts).lookup key = partHash.lookup key := by
  unfold afterParts
  cases parts.getLast? with
  | none => rfl
  | some p => exact lookup_assign_other partHash _ h

theorem afterParts_keys (uninit : Int) (partHash : PartHash)
    (parts : List (List Char × List Char × ℚ)) :
    ∀ key ∈ (afterParts uninit partHash parts).map Prod.fst,
      key = formatInt uninit ∨ key ∈ partHash.map Prod.fst := by
  unfold afterParts
  cases parts.getLast? with
  | none => exact fun key hk => Or.inr hk
  | some p => exact keys_assign partHash _ _

theorem afterParts_nodup (uninit : Int) (partHash : PartHash)
    (parts : List (List Char × List Char × ℚ)) (h : (partHash.map Prod.fst).Nodup) :
    ((afterParts uninit partHash parts).map Prod.fst).Nodup := by
  unfold afterParts
  cases parts.getLast? with
  | none => exact h
  | some p => exact nodup_keys_assign partHash _ _ h

theorem afterParts_length (uninit : Int) (partHash : PartHash)
    (parts : List (List Char × List Char × ℚ)) :
    (afterParts uninit partHash parts).length ≤ partHash.length + 1 := by
  unfold afterParts
  cases parts.getLast? with
  | none => exact Nat.le_succ _
  | some p => exact length_assign_le partHash _ _

/-- The result of `loadPartsFromFile`, whatever its argument: the map that the
parts read from the file `partfileName` determine. -/
theorem loadPartsFromFile_eq (extractFloat : List Char → Option (ℚ × Nat)) (uninit : Int)
    (fileName : List Char) (files : Files) (partHash : PartHash) :
    loadPartsFromFile extractFloat uninit fileName files partHash =
      some (afterParts uninit partHash
        (match files partfileName with
          | none => []
          | some content => parsedParts extractFloat (content.length + 1) content)) := by
  unfold loadPartsFromFile
  cases h : files partfileName with
  | none => rfl
  | some content =>
    simp only []
    exact partsLoop_spec extractFloat uninit _ content partHash (Nat.lt_succ_self _)

/-! ## Claims on loadPartsFromFile -/

/-- C23: `loadPartsFromFile` puts every part under one key. For every content of
the parts file and every map, `loadPartsFromFile` returns; every key other than the
decimal text of the ID of its one `Part` object, which no round of the loop sets,
keeps its entry; the map has at most that one key more, so at most one entry more;
when the loop reads at least one part, the entry under that key has the name, the
compatible model and the price of the last part read; when it reads none, the map
is unchanged. With a parts file of the two lines `Brake ModelX 100` and
`Filter ModelY 250` an empty map gets the single entry of `Filter`. -/
theorem loadPartsFromFile_one_key (extractFloat : List Char → Option (ℚ × Nat)) (uninit : Int)
    (fileName : List Char) (files : Files) (partHash : PartHash) :
    (∃ loaded, loadPartsFromFile extractFloat uninit fileName files partHash = some loaded ∧
        (∀ key, key ≠ formatInt uninit → loaded.lookup key = partHash.lookup key) ∧
        (∀ key ∈ loaded.map Prod.fst, key = formatInt uninit ∨ key ∈ partHash.map Prod.fst) ∧
        ((partHash.map Prod.fst).Nodup → (loaded.map Prod.fst).Nodup) ∧
        loaded.length ≤ partHash.length + 1 ∧
        ∀ content, files partfileName = some content →
          (∀ fuel, content.length < fuel → parsedParts extractFloat fuel content =
            parsedParts extractFloat (content.length + 1) content) ∧
          (∀ name compatiblemodel price,
            (parsedParts extractFloat (content.length + 1) content).getLast? =
              some (name, compatiblemodel, price) →
            loaded.lookup (formatInt uninit) = some ⟨uninit, name, compatiblemodel, price⟩) ∧
          (parsedParts extractFloat (content.length + 1) content = [] → loaded = partHash)) ∧
      parsedParts extractWhole 40 "Brake ModelX 100\nFilter ModelY 250\n".toList =
        [("Brake".toList, "ModelX".toList, 100), ("Filter".toList, "ModelY".toList, 250)] ∧
      loadPartsFromFile extractWhole 7 "parts.dat".toList
          (fun name =>
            if name = partfileName then some "Brake ModelX 100\nFilter ModelY 250\n".toList
            else none) [] =
        some [("7".toList, ⟨7, "Filter".toList, "ModelY".toList, 250⟩)] := by
  refine ⟨⟨_, loadPartsFromFile_eq extractFloat uninit fileName files partHash,
    fun key hk => afterParts_lookup_other uninit partHash _ hk,
    afterParts_keys uninit partHash _, afterParts_nodup uninit partHash _,
    afterParts_length uninit partHash _, ?_⟩, ?_, ?_⟩
  · intro content hc
    simp only [hc]
    refine ⟨fun fuel hf => parsedParts_fuel extractFloat _ _ content hf (Nat.lt_succ_self _),
      ?_, ?_⟩
    · intro name compatiblemodel price hlast
      unfold afterParts
      rw [hlast]
      exact lookup_assign_self partHash _ _
    · intro hnil
      rw [hnil]
      rfl
  · decide
  · decide

theorem partfileName_ne_test : partfileName ≠ "test_parts.txt".toList := by decide

/-- C24, the code against the claim: `loadPartsFromFile` does not open the file named
by its argument but the file `partfileName`. After `writePartToFile(part,
"test_parts.txt")` with no parts file, `loadPartsFromFile("test_parts.txt")` on the
cleared map loads nothing; the result is the same for every argument and depends on
the content of `partfileName` only; and two runs with the same content in
`test_parts.txt` load nothing and a part of the other file, as the parts file is
missing or holds the line `Brake ModelX 100`. -/
theorem loadPartsFromFile_ignores_fileName (formatFloat : ℚ → List Char)
    (extractFloat : List Char → Option (ℚ × Nat)) (uninit : Int) (part : Part) :
    loadPartsFromFile extractFloat uninit "test_parts.txt".toList
        (writePartToFile formatFloat part "test_parts.txt".toList fun _ => none) [] = some [] ∧
      (∀ (fileName1 fileName2 : List Char) (files1 files2 : Files) (partHash : PartHash),
        files1 partfileName = files2 partfileName →
          loadPartsFromFile extractFloat uninit fileName1 files1 partHash =
            loadPartsFromFile extractFloat uninit fileName2 files2 partHash) ∧
      loadPartsFromFile extractWhole 1 "test_parts.txt".toList
          (fun name =>
            if name = "test_parts.txt".toList then some "TestPart TestModel 500\n".toList
            else none) [] = some [] ∧
      loadPartsFromFile extractWhole 1 "test_parts.txt".toList
          (fun name =>
            if name = "test_parts.txt".toList then some "TestPart TestModel 500\n".toList
            else if name = partfileName then some "Brake ModelX 100\n".toList
            else none) [] =
        some [("1".toList, ⟨1, "Brake".toList, "ModelX".toList, 100⟩)] := by
  refine ⟨?_, ?_, by decide, by decide⟩
  · have h : writePartToFile formatFloat part "test_parts.txt".toList (fun _ => none)
        partfileName = none := by
      unfold writePartToFile
      rw [if_neg partfileName_ne_test]
    unfold loadPartsFromFile
    rw [h]
  · intro fileName1 fileName2 files1 files2 partHash h
    unfold loadPartsFromFile
    rw [h]


/-! ## Lemmas: Create_Appointment -/

theorem Create_Appointment_empties {vehicleID : Int} {customerName appointmentType : List Char}
    {day month year : Int} {s s1 : AppointmentState} {screen : Screen}
    (h : Create_Appointment vehicleID customerName appointmentType day month year s =
      some (s1, screen)) :
    ∃ m1, addAppointment ⟨year, month, day⟩ ⟨vehicleID, customerName, appointmentType⟩
        s.appointmentMatrix = some m1 ∧
      s1.appointmentMatrix = emptied m1 ∧
      s1.appointmentsFile = some (s.appointmentsFile.getD [] ++
        (entries m1).flatMap fun e => appointmentLine e.1 e.2) := by
  unfold Create_Appointment at h
  cases ha : addAppointment ⟨year, month, day⟩ ⟨vehicleID, customerName, appointmentType⟩
      s.appointmentMatrix with
  | none => simp [ha] at h
  | some m1 =>
    simp only [ha, Option.some.injEq, Prod.mk.injEq] at h
    obtain ⟨rfl, _⟩ := h
    exact ⟨m1, rfl, by simp [writeAppointmentsToFile_eq], by simp [writeAppointmentsToFile_eq]⟩

/-! ## Lemmas: the `prev` pointers after an operation -/

theorem prevSafe_append_right {heap : List Vehicle} {l1 l2 : List Nat}
    (h : prevSafe heap (l1 ++ l2) = true) : prevSafe heap l2 = true := by
  induction l1 with
  | nil => exact h
  | cons b l1 ih => exact ih (prevSafe_cons.mp h).2

/-- Safe `prev` pointers stay safe when a part of the traversal is left out. -/
theorem prevSafe_remove_middle {heap : List Vehicle} {x y z : List Nat}
    (h : prevSafe heap (x ++ y ++ z) = true) : prevSafe heap (x ++ z) = true := by
  induction x with
  | nil =>
    rw [List.nil_append] at h ⊢
    exact prevSafe_append_right h
  | cons b x ih =>
    rw [List.cons_append, List.cons_append] at h
    obtain ⟨⟨v, hv, hp⟩, h2⟩ := prevSafe_cons.mp h
    rw [List.cons_append]
    refine prevSafe_cons.mpr ⟨⟨v, hv, ?_⟩, ih h2⟩
    intro p hpp
    obtain ⟨e1, e2⟩ := hp p hpp
    refine ⟨e1, ?_⟩
    intro hmem
    apply e2
    rcases List.mem_append.mp hmem with h1 | h1
    · exact List.mem_append.mpr (Or.inl (List.mem_append.mpr (Or.inl h1)))
    · exact List.mem_append.mpr (Or.inr h1)

/-- Safe `prev` pointers depend on the `prev` pointers of the vehicles of the
traversal only, and stay safe when the heap grows. -/
theorem prevSafe_congr {heap heap2 : List Vehicle} {l : List Nat}
    (hlen : heap.length ≤ heap2.length)
    (hsame : ∀ b ∈ l, ∀ v, heap[b]? = some v → ∃ v2, heap2[b]? = some v2 ∧ v2.prev = v.prev)
    (h : prevSafe heap l = true) : prevSafe heap2 l = true := by
  induction l with
  | nil => rfl
  | cons b l ih =>
    obtain ⟨⟨v, hv, hp⟩, h2⟩ := prevSafe_cons.mp h
    obtain ⟨v2, hv2, hprev⟩ := hsame b (List.mem_cons_self b l) v hv
    refine prevSafe_cons.mpr ⟨⟨v2, hv2, ?_⟩,
      ih (fun c hc => hsame c (List.mem_cons_of_mem b hc)) h2⟩
    intro p hpp
    rw [hprev] at hpp
    obtain ⟨e1, e2⟩ := hp p hpp
    exact ⟨by omega, e2⟩

/-- One vehicle `n` of the traversal gets a new `prev` pointer that is safe. -/
theorem prevSafe_set_prev {heap heap2 : List Vehicle} {x l3 : List Nat} {n : Nat}
    (hlen : heap.length ≤ heap2.length) (h : prevSafe heap (x ++ n :: l3) = true)
    (hsame : ∀ b ∈ x ++ l3, ∀ v, heap[b]? = some v →
      ∃ v2, heap2[b]? = some v2 ∧ v2.prev = v.prev)
    (hn : ∃ w, heap2[n]? = some w ∧ ∀ q, w.prev = some q → q < heap2.length ∧ q ∉ l3) :
    prevSafe heap2 (x ++ n :: l3) = true := by
  induction x with
  | nil =>
    rw [List.nil_append] at h ⊢
    obtain ⟨w, hw, hq⟩ := hn
    refine prevSafe_cons.mpr ⟨⟨w, hw, hq⟩, ?_⟩
    exact prevSafe_congr hlen (fun b hb => hsame b (by simpa using hb)) (prevSafe_cons.mp h).2
  | cons b x ih =>
    rw [List.cons_append] at h ⊢
    obtain ⟨⟨v, hv, hp⟩, h2⟩ := prevSafe_cons.mp h
    obtain ⟨v2, hv2, hprev⟩ := hsame b (by simp) v hv
    refine prevSafe_cons.mpr ⟨⟨v2, hv2, ?_⟩, ih h2 (fun c hc => hsame c (by
      rcases List.mem_append.mp hc with h1 | h1
      · exact List.mem_append.mpr (Or.inl (List.mem_cons_of_mem b h1))
      · exact List.mem_append.mpr (Or.inr h1)))⟩
    intro p hpp
    rw [hprev] at hpp
    obtain ⟨e1, e2⟩ := hp p hpp
    exact ⟨by omega, e2⟩

/-- A new last vehicle `n`, at an address that the old heap does not have. -/
theorem prevSafe_snoc {heap heap2 : List Vehicle} {l : List Nat} {n : Nat}
    (hlen : heap.length ≤ heap2.length) (h : prevSafe heap l = true)
    (hsame : ∀ b ∈ l, ∀ v, heap[b]? = some v → ∃ v2, heap2[b]? = some v2 ∧ v2.prev = v.prev)
    (hnew : heap.length ≤ n)
    (hn : ∃ w, heap2[n]? = some w ∧ ∀ q, w.prev = some q → q < heap2.length) :
    prevSafe heap2 (l ++ [n]) = true := by
  induction l with
  | nil =>
    obtain ⟨w, hw, hq⟩ := hn
    exact prevSafe_cons.mpr ⟨⟨w, hw, fun q hqq => ⟨hq q hqq, by simp⟩⟩, rfl⟩
  | cons b l ih =>
    rw [List.cons_append]
    obtain ⟨⟨v, hv, hp⟩, h2⟩ := prevSafe_cons.mp h
    obtain ⟨v2, hv2, hprev⟩ := hsame b (List.mem_cons_self b l) v hv
    refine prevSafe_cons.mpr ⟨⟨v2, hv2, ?_⟩,
      ih h2 (fun c hc => hsame c (List.mem_cons_of_mem b hc))⟩
    intro p hpp
    rw [hprev] at hpp
    obtain ⟨e1, e2⟩ := hp p hpp
    refine ⟨by omega, ?_⟩
    intro hmem
    rcases List.mem_append.mp hmem with h1 | h1
    · exact e2 h1
    · have : p = n := by simpa using h1
      omega

/-! ## Lemmas: the vehicle IDs along the list -/

theorem idsAt_eq_map_dataAt (heap : List Vehicle) (l : List Nat) :
    idsAt heap l = (dataAt heap l).map Prod.fst := by
  simp [idsAt, dataAt, vehicleData, Function.comp_def]

theorem idsAt_congr {heap heap1 : List Vehicle} {l : List Nat}
    (h : ∀ a ∈ l, (heap1[a]?).map vehicleData = (heap[a]?).map vehicleData) :
    idsAt heap1 l = idsAt heap l := by
  rw [idsAt_eq_map_dataAt, idsAt_eq_map_dataAt, dataAt_congr h]

theorem idsAt_sublist (heap : List Vehicle) (x y z : List Nat) :
    (idsAt heap (x ++ z)).Sublist (idsAt heap (x ++ y ++ z)) := by
  unfold idsAt recordsAt
  refine List.Sublist.map _ (List.Sublist.filterMap _ ?_)
  rw [List.append_assoc]
  exact List.Sublist.append (List.Sublist.refl x) (List.sublist_append_right y z)

/-- The last record written from a list that ends has `nullptr` as `next`. -/
theorem getLast?_recordsAt {heap : List Vehicle} {p : Option Nat} {l : List Nat}
    (h : IsChain heap p l) : (recordsAt heap l).getLast?.bind Vehicle.next = none := by
  rcases List.eq_nil_or_concat l with rfl | ⟨l0, t, hl⟩
  · rfl
  · rw [List.concat_eq_append] at hl
    subst hl
    obtain ⟨vt, hvt, hnext⟩ := isChain_snoc h
    rw [recordsAt_append, recordsAt_cons [] hvt, recordsAt_nil]
    simp [hnext]

/-- In a list of increasing IDs no ID is above the last. -/
theorem le_last_of_pairwise {ids : List Int} {last : Int}
    (h : ids.Pairwise (fun x y => x < y)) (hl : ids.getLast? = some last) :
    ∀ i ∈ ids, i ≤ last := by
  rcases List.eq_nil_or_concat ids with rfl | ⟨l0, t, hids⟩
  · simp
  · rw [List.concat_eq_append] at hids
    subst hids
    obtain rfl : t = last := by simpa using hl
    intro i hi
    rcases List.mem_append.mp hi with h0 | h0
    · exact le_of_lt ((List.pairwise_append.mp h).2.2 i h0 t (by simp))
    · have : i = t := by simpa using h0
      omega
/-! ## Lemmas: the three cases of DeleteVehicle with the `prev` pointers as they are -/

/-- The traversal after a vehicle `p` that is not in `l2` got the `next` of the
vehicle `a` of the traversal `l1 ++ a :: l2`: a first part of `l1 ++ [a]`, then
`l2`. -/
theorem isChain_redirect {heap heap2 : List Vehicle} {q : Option Nat} {l1 l2 : List Nat}
    {a p : Nat} {v : Vehicle} (h : IsChain heap q (l1 ++ a :: l2)) (hv : heap[a]? = some v)
    (hp2 : p ∉ l2)
    (hsame : ∀ b : Nat, b ≠ p → ∀ w, heap[b]? = some w →
      ∃ w1, heap2[b]? = some w1 ∧ w1.next = w.next)
    (hp : ∃ vp, heap2[p]? = some vp ∧ vp.next = v.next) :
    ∃ x y, l1 ++ [a] = x ++ y ∧ IsChain heap2 q (x ++ l2) := by
  have hnd := isChain_nodup h
  have hl2 : IsChain heap v.next l2 := by
    obtain ⟨q1, hq1⟩ := isChain_append h
    obtain ⟨_, v1, hv1, hc⟩ := isChain_cons.mp hq1
    rw [hv] at hv1
    obtain rfl := Option.some.inj hv1
    exact hc
  by_cases hmem : p ∈ l1 ++ [a]
  · obtain ⟨m1, m2, hsplit⟩ := List.append_of_mem hmem
    have hl : l1 ++ a :: l2 = m1 ++ p :: (m2 ++ l2) := by
      have : l1 ++ a :: l2 = (l1 ++ [a]) ++ l2 := by simp
      rw [this, hsplit]
      simp
    rw [hl] at h hnd
    refine ⟨m1 ++ [p], m2, by rw [hsplit]; simp, ?_⟩
    have hshape : m1 ++ [p] ++ l2 = m1 ++ p :: l2 := by simp
    rw [hshape]
    refine isChain_jump h hl2 ?_ hp
    intro b hb w hw
    refine hsame b ?_ w hw
    rintro rfl
    rcases List.mem_append.mp hb with h1 | h3
    · exact (List.nodup_append.mp hnd).2.2 h1 (by simp)
    · exact hp2 h3
  · refine ⟨l1 ++ [a], [], by simp, ?_⟩
    have hshape : l1 ++ [a] ++ l2 = l1 ++ a :: l2 := by simp
    rw [hshape]
    refine isChain_congr ?_ h
    intro b hb w hw
    refine hsame b ?_ w hw
    rintro rfl
    rcases List.mem_append.mp hb with h1 | h3
    · exact hmem (List.mem_append.mpr (Or.inl h1))
    · rcases List.mem_cons.mp h3 with rfl | h4
      · exact hmem (by simp)
      · exact hp2 h4

/-- The three cases of `DeleteVehicle` on a list that ends and whose `prev` pointers
are safe: the traversal afterwards is a first part of the vehicles up to the one
found, then the vehicles after it; the `prev` pointers are safe again, and no
vehicle changes its data. -/
theorem unlink_safe {heap : List Vehicle} {headVehicle : Option Nat} {l1 l2 : List Nat}
    {a : Nat} {v : Vehicle} (h : IsChain heap headVehicle (l1 ++ a :: l2))
    (hv : heap[a]? = some v) (hsafe : prevSafe heap (l1 ++ a :: l2) = true) :
    ∃ heap1 head1 x y, unlink heap headVehicle a = some (heap1, head1) ∧
      l1 ++ [a] = x ++ y ∧ IsChain heap1 head1 (x ++ l2) ∧ prevSafe heap1 (x ++ l2) = true ∧
      heap1.length = heap.length ∧
      ∀ b : Nat, (heap1[b]?).map vehicleData = (heap[b]?).map vehicleData := by
  have hprev := prevSafe_at hsafe hv
  have hnd := isChain_nodup h
  have hl2 : IsChain heap v.next l2 := by
    obtain ⟨q1, hq1⟩ := isChain_append h
    obtain ⟨_, v1, hv1, hc⟩ := isChain_cons.mp hq1
    rw [hv] at hv1
    obtain rfl := Option.some.inj hv1
    exact hc
  have hshape : l1 ++ a :: l2 = l1 ++ [a] ++ l2 := by simp
  have hsafe2 : prevSafe heap (l1 ++ [a] ++ l2) = true := by rw [← hshape]; exact hsafe
  cases hp : v.prev with
  | none =>
    refine ⟨heap, v.next, [], l1 ++ [a], ?_, by simp, by simpa using hl2, ?_, rfl,
      fun b => rfl⟩
    · unfold unlink
      simp only [hv, hp]
    · rw [List.nil_append]
      exact prevSafe_append_right hsafe2
  | some p =>
    obtain ⟨hplt, hpl2⟩ := hprev p hp
    obtain ⟨vp, hvp⟩ : ∃ vp, heap[p]? = some vp := ⟨heap[p], List.getElem?_eq_getElem hplt⟩
    cases hn : v.next with
    | none =>
      have hred : ∃ x y, l1 ++ [a] = x ++ y ∧
          IsChain (heap.set p (setNext vp none)) headVehicle (x ++ l2) :=
        isChain_redirect h hv hpl2
          (fun b hb w hw => ⟨w, by rw [getElem?_set_other _ _ hb]; exact hw, rfl⟩)
          ⟨_, getElem?_set_self_of _ hvp, by rw [hn]; rfl⟩
      obtain ⟨x, y, hxy, hcx⟩ := hred
      refine ⟨_, headVehicle, x, y, ?_, hxy, hcx, ?_, by simp, ?_⟩
      · unfold unlink
        simp only [hv, hp, hn, storeNext_eq _ hvp, Option.map_some']
      · have h1 : prevSafe heap (x ++ l2) = true :=
          prevSafe_remove_middle (by rw [← hxy]; exact hsafe2)
        refine prevSafe_congr (by simp) ?_ h1
        intro b _ w hw
        by_cases hb : b = p
        · subst hb
          rw [hvp] at hw
          obtain rfl := Option.some.inj hw
          exact ⟨_, getElem?_set_self_of _ hvp, rfl⟩
        · exact ⟨w, by rw [getElem?_set_other _ _ hb]; exact hw, rfl⟩
      · intro b
        by_cases hb : b = p
        · subst hb
          rw [getElem?_set_self_of _ hvp, hvp]
          rfl
        · rw [getElem?_set_other _ _ hb]
    | some n =>
      rw [hn] at hl2
      obtain ⟨l3, rfl⟩ : ∃ l3, l2 = n :: l3 := by
        cases l2 with
        | nil => exact absurd (isChain_nil.mp hl2) (by simp)
        | cons c l3 =>
          obtain ⟨hcn, _⟩ := isChain_cons.mp hl2
          exact ⟨l3, by rw [Option.some.inj hcn]⟩
      obtain ⟨_, vn, hvn, _⟩ := isChain_cons.mp hl2
      have hnp : n ≠ p := by
        rintro rfl
        exact hpl2 (by simp)
      have hpl3 : p ∉ l3 := fun hmem => hpl2 (List.mem_cons_of_mem n hmem)
      -- the vehicle found, read again after the first assignment
      obtain ⟨v1, hv1, hv1n, hv1p⟩ : ∃ v1, (heap.set p (setNext vp (some n)))[a]? = some v1 ∧
          v1.next = some n ∧ v1.prev = some p := by
        by_cases hap : a = p
        · subst hap
          rw [hv] at hvp
          obtain rfl := Option.some.inj hvp
          exact ⟨_, getElem?_set_self_of _ hv, rfl, hp⟩
        · exact ⟨v, by rw [getElem?_set_other _ _ hap]; exact hv, hn, hp⟩
      have h1n : (heap.set p (setNext vp (some n)))[n]? = some vn := by
        rw [getElem?_set_other _ _ hnp]; exact hvn
      have hred : ∃ x y, l1 ++ [a] = x ++ y ∧ IsChain
          ((heap.set p (setNext vp (some n))).set n (setPrev vn (some p))) headVehicle
          (x ++ n :: l3) :=
        isChain_redirect h hv hpl2
        (fun b hb w hw => by
          by_cases hbn : b = n
          · subst hbn
            rw [hvn] at hw
            obtain rfl := Option.some.inj hw
            exact ⟨_, getElem?_set_self_of _ h1n, rfl⟩
          · exact ⟨w, by rw [getElem?_set_other _ _ hbn, getElem?_set_other _ _ hb]; exact hw,
              rfl⟩)
        ⟨setNext vp (some n), by
          rw [getElem?_set_other _ _ (Ne.symm hnp)]
          exact getElem?_set_self_of _ hvp, by rw [hn]; rfl⟩
      obtain ⟨x, y, hxy, hcx⟩ := hred
      refine ⟨_, headVehicle, x, y, ?_, hxy, hcx, ?_, by simp, ?_⟩
      · unfold unlink
        simp only [hv, hp, hn, storeNext_eq _ hvp, hv1, hv1n, hv1p, storePrev_eq _ h1n,
          Option.map_some']
      · have h1 : prevSafe heap (x ++ n :: l3) = true :=
          prevSafe_remove_middle (by rw [← hxy]; exact hsafe2)
        have hnd2 : (x ++ y ++ n :: l3).Nodup := by rw [← hxy, ← hshape]; exact hnd
        have hnx : n ∉ x := by
          intro hmem
          exact (List.nodup_append.mp hnd2).2.2 (List.mem_append.mpr (Or.inl hmem)) (by simp)
        have hnl3 : n ∉ l3 := (List.nodup_cons.mp (List.nodup_append.mp hnd2).2.1).1
        refine prevSafe_set_prev (by simp) h1 ?_
          ⟨setPrev vn (some p), getElem?_set_self_of _ h1n, ?_⟩
        · intro b hb w hw
          have hbn : b ≠ n := by
            rintro rfl
            rcases List.mem_append.mp hb with h0 | h0
            · exact hnx h0
            · exact hnl3 h0
          by_cases hbp : b = p
          · subst hbp
            rw [hvp] at hw
            obtain rfl := Option.some.inj hw
            exact ⟨setNext vp (some n),
              by rw [getElem?_set_other _ _ hbn]; exact getElem?_set_self_of _ hvp, rfl⟩
          · exact ⟨w, by rw [getElem?_set_other _ _ hbn, getElem?_set_other _ _ hbp]; exact hw,
              rfl⟩
        · intro q hq
          have hqp : q = p := by
            have : some p = some q := hq
            exact (Option.some.inj this).symm
          subst hqp
          exact ⟨by simpa using hplt, hpl3⟩
      · intro b
        by_cases hbn : b = n
        · subst hbn
          rw [getElem?_set_self_of _ h1n, hvn]
          rfl
        · rw [getElem?_set_other _ _ hbn]
          by_cases hb : b = p
          · subst hb
            rw [getElem?_set_self_of _ hvp, hvp]
            rfl
          · rw [getElem?_set_other _ _ hb]


/-! ## Lemmas: the invariant of the sequences of operations -/

theorem idsAt_congr_id {heap heap1 : List Vehicle} {l : List Nat}
    (h : ∀ a ∈ l, (heap1[a]?).map Vehicle.vehicleID = (heap[a]?).map Vehicle.vehicleID) :
    idsAt heap1 l = idsAt heap l := by
  induction l with
  | nil => rfl
  | cons a l ih =>
    have ha := h a (List.mem_cons_self a l)
    have ih2 := ih (fun b hb => h b (List.mem_cons_of_mem a hb))
    unfold idsAt recordsAt at ih2 ⊢
    cases h1 : heap1[a]? with
    | none =>
      cases h2 : heap[a]? with
      | none => simpa [List.filterMap_cons, h1, h2] using ih2
      | some v => simp [h1, h2] at ha
    | some v1 =>
      cases h2 : heap[a]? with
      | none => simp [h1, h2] at ha
      | some v =>
        have hd : v1.vehicleID = v.vehicleID := by simpa [h1, h2] using ha
        simp only [List.filterMap_cons, h1, h2, List.map_cons, hd]
        rw [ih2]

theorem startState_invariant : ListInvariant startState [] := by decide

/-- `Registration` keeps the invariant: the new vehicle comes last, with the counter
value as ID. -/
theorem Registration_invariant (customerID : Int) (customerName model plateNumber : List Char)
    (s : VehicleState) (l : List Nat) (h : ListInvariant s l) :
    ∃ s1, Registration customerID customerName model plateNumber s =
        some (s1, registrationScreen) ∧
      ListInvariant s1 (l ++ [s.heap.length]) ∧
      idsAt s1.heap (l ++ [s.heap.length]) = idsAt s.heap l ++ [s.vehicleID] ∧
      s1.vehicleID = s.vehicleID + 1 := by
  obtain ⟨hc, hsafe, hinc, hlt, hm, _⟩ := h
  obtain ⟨s1, h1, h2, h3, h4, h5, h6, _, h8⟩ :=
    Registration_spec customerID customerName model plateNumber s l hc
  obtain ⟨s2, h1b, _, hm2, _⟩ :=
    Registration_mirrors customerID customerName model plateNumber s l hc hm
  rw [h1] at h1b
  obtain rfl : s1 = s2 := (Prod.mk.inj (Option.some.inj h1b)).1
  have hold : ∀ a ∈ l, (s1.heap[a]?).map vehicleData = (s.heap[a]?).map vehicleData := by
    intro a ha
    rw [h6 a (isChain_lt hc a ha)]
    cases s.heap[a]? with
    | none => rfl
    | some v =>
      simp only [Option.map_some']
      split <;> rfl
  have hids : idsAt s1.heap (l ++ [s.heap.length]) = idsAt s.heap l ++ [s.vehicleID] := by
    rw [idsAt_eq_map_dataAt, idsAt_eq_map_dataAt, dataAt_append, dataAt_congr hold,
      dataAt_cons [] h4, dataAt_nil]
    simp [vehicleData]
  refine ⟨s1, h1, ⟨h3, ?_, ?_, ?_, hm2, ?_⟩, hids, h2⟩
  · refine prevSafe_snoc (by omega) hsafe ?_ (le_refl _) ⟨_, h4, ?_⟩
    · intro b hb v hv
      rw [h6 b (isChain_lt hc b hb), hv]
      simp only [Option.map_some']
      split
      · exact ⟨_, rfl, rfl⟩
      · exact ⟨_, rfl, rfl⟩
    · intro q hq
      have hql : q ∈ l := List.mem_of_getLast?_eq_some hq
      have := isChain_lt hc q hql
      omega
  · rw [hids]
    refine List.pairwise_append.mpr ⟨hinc, List.pairwise_singleton _ _, ?_⟩
    intro i hi j hj
    obtain rfl : j = s.vehicleID := by simpa using hj
    exact hlt i hi
  · rw [hids, h2]
    intro i hi
    rcases List.mem_append.mp hi with h0 | h0
    · have := hlt i h0
      omega
    · have : i = s.vehicleID := by simpa using h0
      omega
  · unfold fileEnds
    rw [h8]
    simp

/-- `UpdateVehicle` keeps the invariant, with the same traversal. -/
theorem UpdateVehicle_invariant (id customerID : Int) (customerName model plateNumber : List Char)
    (s : VehicleState) (l : List Nat) (h : ListInvariant s l) :
    ∃ s1 screen, UpdateVehicle id customerID customerName model plateNumber s =
        some (s1, screen) ∧
      ListInvariant s1 l ∧ idsAt s1.heap l = idsAt s.heap l ∧ s1.vehicleID = s.vehicleID := by
  obtain ⟨hc, hsafe, hinc, hlt, hm, hfe⟩ := h
  by_cases hid : ∃ a ∈ l, ∃ v, s.heap[a]? = some v ∧ v.vehicleID = id
  · obtain ⟨l1, a, l2, v, rfl, hv, hvid, hno⟩ := exists_first_with_id hc hid
    subst hvid
    obtain ⟨h1, h2⟩ := UpdateVehicle_found customerID customerName model plateNumber s hc hv hno
    have hids : idsAt (s.heap.set a
        ⟨v.vehicleID, customerID, customerName, model, plateNumber, v.next, v.prev⟩)
        (l1 ++ a :: l2) = idsAt s.heap (l1 ++ a :: l2) := by
      apply idsAt_congr_id
      intro b _
      by_cases hb : b = a
      · subst hb
        rw [getElem?_set_self_of _ hv, hv]
        rfl
      · rw [getElem?_set_other _ _ hb]
    refine ⟨_, _, h1, ⟨h2, ?_, ?_, ?_, mirrors_of_recordsAt _ _ _ _, ?_⟩, hids, rfl⟩
    · refine prevSafe_congr (by simp) ?_ hsafe
      intro b _ w hw
      by_cases hb : b = a
      · subst hb
        rw [hv] at hw
        obtain rfl := Option.some.inj hw
        exact ⟨_, getElem?_set_self_of _ hv, rfl⟩
      · exact ⟨w, by rw [getElem?_set_other _ _ hb]; exact hw, rfl⟩
    · simp only [hids]
      exact hinc
    · simp only [hids]
      exact hlt
    · exact getLast?_recordsAt h2
  · have hno : ∀ a ∈ l, ∀ v, s.heap[a]? = some v → v.vehicleID ≠ id := by
      intro a ha v hv hvid
      exact hid ⟨a, ha, v, hv, hvid⟩
    exact ⟨s, _, (not_found_spec id customerID customerName model plateNumber s l hc hno).2,
      ⟨hc, hsafe, hinc, hlt, hm, hfe⟩, rfl, rfl⟩

/-- `DeleteVehicle` keeps the invariant; the IDs afterwards are IDs of before, in the
same order. -/
theorem DeleteVehicle_invariant (id : Int) (s : VehicleState) (l : List Nat)
    (h : ListInvariant s l) :
    ∃ s1 screen l1, DeleteVehicle id s = some (s1, screen) ∧ ListInvariant s1 l1 ∧
      (idsAt s1.heap l1).Sublist (idsAt s.heap l) ∧ s1.vehicleID = s.vehicleID := by
  obtain ⟨hc, hsafe, hinc, hlt, hm, hfe⟩ := h
  by_cases hid : ∃ a ∈ l, ∃ v, s.heap[a]? = some v ∧ v.vehicleID = id
  · obtain ⟨l1, a, l2, v, rfl, hv, hvid, hno⟩ := exists_first_with_id hc hid
    subst hvid
    have hf := findVehicle_found s.heap.length hc hno hv (isChain_length_le hc)
    obtain ⟨heap1, head1, x, y, hu, hxy, hc1, hsafe1, _, hdata⟩ := unlink_safe hc hv hsafe
    have hshape : l1 ++ a :: l2 = x ++ y ++ l2 := by
      rw [← hxy]
      simp
    have hids : idsAt heap1 (x ++ l2) = idsAt s.heap (x ++ l2) :=
      idsAt_congr fun b _ => hdata b
    have hsub : (idsAt heap1 (x ++ l2)).Sublist (idsAt s.heap (l1 ++ a :: l2)) := by
      rw [hids, hshape]
      exact idsAt_sublist s.heap x y l2
    refine ⟨⟨heap1, head1, s.vehicleID, some (recordsAt heap1 (x ++ l2))⟩,
      deleteDoneScreen v.vehicleID, x ++ l2, ?_,
      ⟨hc1, hsafe1, hinc.sublist hsub, fun i hi => hlt i (hsub.subset hi),
        mirrors_of_recordsAt _ _ _ _, getLast?_recordsAt hc1⟩, hsub, rfl⟩
    unfold DeleteVehicle
    simp only [hf, hu]
    rw [updateVehicleFile_of_chain none s.vehicleFile hc1]
    rfl
  · have hno : ∀ a ∈ l, ∀ v, s.heap[a]? = some v → v.vehicleID ≠ id := by
      intro a ha v hv hvid
      exact hid ⟨a, ha, v, hv, hvid⟩
    exact ⟨s, _, l, (not_found_spec id 0 [] [] [] s l hc hno).1,
      ⟨hc, hsafe, hinc, hlt, hm, hfe⟩, List.Sublist.refl _, rfl⟩

/-- Loading the vehicle file in a fresh process keeps the invariant: the list loaded
has the IDs of the list that the file mirrored, and the counter is 1 without a file,
0 for a file without records, and one more than the last ID otherwise. -/
theorem load_fresh_invariant (s : VehicleState) (l : List Nat) (h : ListInvariant s l) :
    ∃ s1 l1, loadVehiclesFromFile s.vehicleFile ⟨[], none, 1, s.vehicleFile⟩ = some s1 ∧
      ListInvariant s1 l1 ∧ idsAt s1.heap l1 = idsAt s.heap l ∧
      (s1.vehicleID = 1 ∨ s1.vehicleID = 0 ∨ ∃ i ∈ idsAt s.heap l, s1.vehicleID = i + 1) := by
  obtain ⟨hc, _, hinc, _, hm, hfe⟩ := h
  have hlen := length_recordsAt hc
  cases hfile : s.vehicleFile with
  | none =>
    have hl : l = [] := by
      unfold Mirrors at hm
      rw [hfile] at hm
      have h0 : (dataAt s.heap l).length = 0 := by rw [← hm]; rfl
      unfold dataAt at h0
      rw [List.length_map, hlen] at h0
      exact List.length_eq_zero.mp h0
    subst hl
    exact ⟨⟨[], none, 1, none⟩, [], rfl, by decide, rfl, Or.inl rfl⟩
  | some rs =>
    have hdata : rs.map vehicleData = dataAt s.heap l := by
      unfold Mirrors at hm
      rw [hfile] at hm
      exact hm
    have hidsrs : rs.map Vehicle.vehicleID = idsAt s.heap l := by
      rw [idsAt_eq_map_dataAt, ← hdata]
      simp [vehicleData, Function.comp_def]
    obtain ⟨heap1, head1, id1, e1, e2, _, e4, e5, e6, e7, e8⟩ :=
      loadLoop_spec rs [] none none 0 (by simp)
    have hload : loadVehiclesFromFile (some rs) ⟨[], none, 1, some rs⟩ =
        some ⟨heap1, head1, id1, some rs⟩ := by
      unfold loadVehiclesFromFile
      simp only [e1, Option.map_some']
    simp only [List.length_nil, Nat.zero_add] at e2 e5 e6 e7 e8
    have hids1 : idsAt heap1 (List.range' 0 rs.length) = idsAt s.heap l := by
      rw [idsAt_eq_map_dataAt, e6, ← hidsrs]
      simp [vehicleData, Function.comp_def]
    by_cases hrs : rs = []
    · subst hrs
      obtain ⟨rfl, rfl, rfl⟩ := e4 rfl
      exact ⟨_, [], hload, by decide, by simpa using hids1, Or.inr (Or.inl rfl)⟩
    · obtain ⟨last, hlast⟩ : ∃ last, rs.getLast? = some last := by
        cases hg : rs.getLast? with
        | none => exact absurd (List.getLast?_eq_none_iff.mp hg) hrs
        | some last => exact ⟨last, rfl⟩
      obtain ⟨f1, _, f3⟩ := e8 last hlast
      have hnext : last.next = none := by
        unfold fileEnds at hfe
        rw [hfile] at hfe
        simpa [hlast] using hfe
      have hhead : head1 = some 0 := by simpa using e5 hrs
      have hchain : IsChain heap1 head1 (List.range' 0 rs.length) := by
        rw [hhead]
        exact f3 hnext
      have hlastid : (idsAt s.heap l).getLast? = some last.vehicleID := by
        rw [← hidsrs, List.getLast?_map, hlast]
        rfl
      refine ⟨⟨heap1, head1, id1, some rs⟩, List.range' 0 rs.length, hload,
        ⟨hchain, prevSafe_of_prevOK hchain e7 (by simp), ?_, ?_, ?_, ?_⟩, hids1,
        Or.inr (Or.inr ⟨last.vehicleID, List.mem_of_getLast?_eq_some hlastid, f1⟩)⟩
      · simp only [hids1]
        exact hinc
      · simp only [hids1]
        intro i hi
        have := le_last_of_pairwise hinc hlastid i hi
        simp only [f1]
        omega
      · unfold Mirrors
        simp only [Option.getD_some]
        rw [e6]
      · unfold fileEnds
        simp only [Option.getD_some, hlast, Option.some_bind]
        exact hnext

theorem startProcess_invariant : ProcessInvariant startProcess [] := by decide

/-- An action on a run with the invariant: either its behaviour is undefined, or it
returns in a run with the invariant. -/
theorem processStep_spec (p : Process) (l : List Nat) (a : ProcessAction)
    (h : ProcessInvariant p l) :
    (undefinedIn p a = true ∧ processStep p a = none) ∨
      (undefinedIn p a = false ∧ ∃ p1 l1, processStep p a = some p1 ∧
        ProcessInvariant p1 l1) := by
  cases hu : undefinedIn p a with
  | true =>
    refine Or.inl ⟨rfl, ?_⟩
    unfold processStep
    simp [hu]
  | false =>
    refine Or.inr ⟨rfl, ?_⟩
    obtain ⟨hinv, hpos, hc0, hcmax⟩ := h
    have hlt := hinv.2.2.2.1
    unfold processStep
    simp only [hu, Bool.false_eq_true, if_false]
    cases a with
    | restart =>
      obtain ⟨s1, l1, h1, h2, h3, h4⟩ := load_fresh_invariant p.state l hinv
      refine ⟨⟨s1, s1.heap.length⟩, l1, ?_, h2, ?_, ?_, ?_⟩
      · simp only [restart, h1, Option.map_some']
      · simp only [h3]
        exact hpos
      · rcases h4 with h4 | h4 | ⟨i, hi, h4⟩
        · simp only [h4]
          decide
        · simp only [h4]
          decide
        · have := hpos i hi
          simp only [h4]
          omega
      · rcases h4 with h4 | h4 | ⟨i, hi, h4⟩
        · simp only [h4]
          decide
        · simp only [h4]
          decide
        · have := hlt i hi
          simp only [h4]
          omega
    | operation op =>
      cases op with
      | registration customerID customerName model plateNumber =>
        have hne : p.state.vehicleID ≠ 2147483647 := by
          simpa [undefinedIn] using hu
        obtain ⟨s1, h1, h2, h3, h4⟩ :=
          Registration_invariant customerID customerName model plateNumber p.state l hinv
        refine ⟨⟨s1, p.loaded⟩, _, by simp [vehicleStep, h1], h2, ?_, ?_, ?_⟩
        · simp only [h3]
          intro i hi
          rcases List.mem_append.mp hi with h0 | h0
          · exact hpos i h0
          · have : i = p.state.vehicleID := by simpa using h0
            omega
        · simp only [h4]
          omega
        · simp only [h4]
          omega
      | update id customerID customerName model plateNumber =>
        obtain ⟨s1, screen, h1, h2, h3, h4⟩ :=
          UpdateVehicle_invariant id customerID customerName model plateNumber p.state l hinv
        refine ⟨⟨s1, p.loaded⟩, l, by simp [vehicleStep, h1], h2, ?_, ?_, ?_⟩
        · simp only [h3]
          exact hpos
        · simp only [h4]
          exact hc0
        · simp only [h4]
          exact hcmax
      | delete id =>
        obtain ⟨s1, screen, l1, h1, h2, h3, h4⟩ := DeleteVehicle_invariant id p.state l hinv
        refine ⟨⟨s1, p.loaded⟩, l1, by simp [vehicleStep, h1], h2, ?_, ?_, ?_⟩
        · intro i hi
          exact hpos i (h3.subset hi)
        · simp only [h4]
          exact hc0
        · simp only [h4]
          exact hcmax

/-- A sequence of actions on a run with the invariant: either it returns in a run
with the invariant, or it comes, after a first part that returns in a run with the
invariant, to an action whose behaviour is undefined there. -/
theorem processRun_spec (actions : List ProcessAction) (p : Process) (l : List Nat)
    (h : ProcessInvariant p l) :
    (∃ p1 l1, processRun actions p = some p1 ∧ ProcessInvariant p1 l1) ∨
      (processRun actions p = none ∧
        ∃ pre a post p1 l1, actions = pre ++ a :: post ∧ processRun pre p = some p1 ∧
          ProcessInvariant p1 l1 ∧ undefinedIn p1 a = true) := by
  induction actions generalizing p l with
  | nil => exact Or.inl ⟨p, l, rfl, h⟩
  | cons a rest ih =>
    rcases processStep_spec p l a h with ⟨hu, hnone⟩ | ⟨_, p1, l1, hstep, hinv1⟩
    · refine Or.inr ⟨by simp [processRun, hnone], [], a, rest, p, l, rfl, rfl, h, hu⟩
    · rcases ih p1 l1 hinv1 with ⟨p2, l2, hrun, hinv2⟩ | ⟨hrun, pre, b, post, p2, l2, hsplit,
        hpre, hinv2, hu⟩
      · exact Or.inl ⟨p2, l2, by simp [processRun, hstep, hrun], hinv2⟩
      · refine Or.inr ⟨by simp [processRun, hstep, hrun], a :: pre, b, post, p2, l2, ?_, ?_,
          hinv2, hu⟩
        · rw [hsplit]
          rfl
        · simp [processRun, hstep, hpre]

/-! ## Claim on the vehicle IDs in the reachable states -/

/-- C28: the vehicle IDs in the reachable states. A run of the application starts
with no vehicle, the counter 1 and no vehicle file; an action is a `Registration`,
an `UpdateVehicle` or a `DeleteVehicle` with any values entered, or a restart. In
every run that a sequence of actions reaches, the list has a forward traversal
along which the vehicle IDs are strictly increasing, so pairwise distinct; every ID
of the list is at least 0 and below the counter, and the counter is at most
2147483647, so all are values of an `int`; the counter is no ID of the list, and
while it is below 2147483647 `Registration` returns with the new vehicle, whose ID
is the counter, last in a list of distinct IDs. Every action returns in such a run
but the two whose behaviour the source leaves undefined: a `Registration` at the
counter 2147483647 and an `UpdateVehicle` of a vehicle that the run loaded from the
file; a sequence of actions reaches no run only when it comes to one of these. After
two registrations, the deletion of vehicle 1, a restart and a registration the IDs
are 2 and 3 and the counter is 4; an update of the vehicle registered after the
restart returns, and an update of the loaded vehicle 2 is undefined. -/
theorem reachable_ids_increasing (actions : List ProcessAction) :
    (∀ p, processRun actions startProcess = some p →
        ∃ l, IsChain p.state.heap p.state.headVehicle l ∧
          (idsAt p.state.heap l).Pairwise (fun x y => x < y) ∧
          (idsAt p.state.heap l).Nodup ∧
          (∀ i ∈ idsAt p.state.heap l, 0 ≤ i ∧ i < p.state.vehicleID) ∧
          p.state.vehicleID ≤ 2147483647 ∧
          p.state.vehicleID ∉ idsAt p.state.heap l ∧
          (∀ a, processStep p a = none ↔ undefinedIn p a = true) ∧
          (p.state.vehicleID ≠ 2147483647 →
            ∀ (customerID : Int) (customerName model plateNumber : List Char),
              ∃ s1, Registration customerID customerName model plateNumber p.state =
                  some (s1, registrationScreen) ∧
                IsChain s1.heap s1.headVehicle (l ++ [p.state.heap.length]) ∧
                idsAt s1.heap (l ++ [p.state.heap.length]) =
                  idsAt p.state.heap l ++ [p.state.vehicleID] ∧
                (idsAt s1.heap (l ++ [p.state.heap.length])).Nodup)) ∧
      (processRun actions startProcess = none →
        ∃ pre a post p, actions = pre ++ a :: post ∧
          processRun pre startProcess = some p ∧ undefinedIn p a = true) ∧
      (processRun
          [ProcessAction.operation
              (VehicleAction.registration 1001 "A".toList "X".toList "P1".toList),
            ProcessAction.operation
              (VehicleAction.registration 1002 "B".toList "Y".toList "P2".toList),
            ProcessAction.operation (VehicleAction.delete 1), ProcessAction.restart,
            ProcessAction.operation
              (VehicleAction.registration 1003 "C".toList "Z".toList "P3".toList)]
          startProcess).map
          (fun p => (decide (IsChain p.state.heap p.state.headVehicle [0, 1]),
            idsAt p.state.heap [0, 1], p.state.vehicleID, p.loaded)) =
        some (true, [2, 3], 4, 1) ∧
      (processRun
          [ProcessAction.operation
              (VehicleAction.registration 1001 "A".toList "X".toList "P1".toList),
            ProcessAction.operation
              (VehicleAction.registration 1002 "B".toList "Y".toList "P2".toList),
            ProcessAction.operation (VehicleAction.delete 1), ProcessAction.restart,
            ProcessAction.operation
              (VehicleAction.registration 1003 "C".toList "Z".toList "P3".toList),
            ProcessAction.operation
              (VehicleAction.update 3 1004 "D".toList "W".toList "P4".toList)]
          startProcess).map
          (fun p => (idsAt p.state.heap [0, 1], p.state.vehicleID)) = some ([2, 3], 4) ∧
      processRun
          [ProcessAction.operation
              (VehicleAction.registration 1001 "A".toList "X".toList "P1".toList),
            ProcessAction.operation
              (VehicleAction.registration 1002 "B".toList "Y".toList "P2".toList),
            ProcessAction.operation (VehicleAction.delete 1), ProcessAction.restart,
            ProcessAction.operation
              (VehicleAction.update 2 1004 "D".toList "W".toList "P4".toList)]
          startProcess = none := by
  refine ⟨?_, ?_, by decide, by decide, by decide⟩
  · intro p hrun
    rcases processRun_spec actions startProcess [] startProcess_invariant with
      ⟨p1, l, hrun1, hinv⟩ | ⟨hnone, _⟩
    · rw [hrun] at hrun1
      obtain rfl := Option.some.inj hrun1
      obtain ⟨⟨hc, hsafe, hinc, hlt, hm, hfe⟩, hpos, _, hcmax⟩ := hinv
      refine ⟨l, hc, hinc, hinc.imp (fun hxy => ne_of_lt hxy),
        fun i hi => ⟨hpos i hi, hlt i hi⟩, hcmax, ?_, ?_, ?_⟩
      · intro hmem
        exact lt_irrefl _ (hlt _ hmem)
      · intro a
        rcases processStep_spec p l a ⟨⟨hc, hsafe, hinc, hlt, hm, hfe⟩, hpos, by assumption,
          hcmax⟩ with ⟨hu, hnone⟩ | ⟨hu, p1, l1, hstep, _⟩
        · simp [hu, hnone]
        · simp [hu, hstep]
      · intro _ customerID customerName model plateNumber
        obtain ⟨s1, h1, ⟨hc1, _, hinc1, _⟩, hids, _⟩ :=
          Registration_invariant customerID customerName model plateNumber p.state l
            ⟨hc, hsafe, hinc, hlt, hm, hfe⟩
        exact ⟨s1, h1, hc1, hids, hinc1.imp (fun hxy => ne_of_lt hxy)⟩
    · rw [hrun] at hnone
      simp at hnone
  · intro hnone
    rcases processRun_spec actions startProcess [] startProcess_invariant with
      ⟨p1, l, hrun1, _⟩ | ⟨_, pre, a, post, p1, _, hsplit, hpre, _, hu⟩
    · rw [hnone] at hrun1
      simp at hrun1
    · exact ⟨pre, a, post, p1, hsplit, hpre, hu⟩

/-! ## Lemmas: Create_Appointment after List_Appointments in the matrix of `main` -/

theorem mem_entries_of_cell {m : AppointmentMatrix} {date : Date} {q : Queue} {a : Appointment}
    (h : cell m date = some q) (ha : a ∈ q) : (date, a) ∈ entries m := by
  have hf := filter_entries h
  rw [← hf] at ha
  obtain ⟨e, he, rfl⟩ := List.mem_map.mp ha
  obtain ⟨he1, he2⟩ := List.mem_filter.mp he
  have hdate : e.1 = date := by simpa using he2
  rw [← hdate]
  exact he1

theorem flatMap_of_mem {α : Type} (f : α → List Char) {l : List α} {e : α} (h : e ∈ l) :
    ∃ pre post, l.flatMap f = pre ++ f e ++ post := by
  obtain ⟨s, t, rfl⟩ := List.append_of_mem h
  exact ⟨s.flatMap f, t.flatMap f, by simp⟩

/-- The matrix of `main` with one appointment has this one entry. -/
theorem entries_mainMatrixWith (date : Date) (a : Appointment)
    (hy : 0 ≤ date.year ∧ date.year ≤ 2050) (hm : 0 ≤ date.month ∧ date.month ≤ 13)
    (hd : 0 ≤ date.day ∧ date.day ≤ 30) : entries (mainMatrixWith date a) = [(date, a)] := by
  obtain ⟨m1, h1, h2, h3, _⟩ := addAppointment_spec a (cell_mainMatrix date hy hm hd)
  have hM : mainMatrixWith date a = m1 := by
    unfold mainMatrixWith
    rw [h1]
    rfl
  rw [hM]
  have hall : ∀ e ∈ entries m1, e = (date, a) := by
    intro e he
    obtain ⟨q, hq, hmem⟩ := cell_of_mem_entries he
    by_cases hsame : e.1 = date
    · rw [hsame, h2] at hq
      have hq2 : q = [a] := by
        have := Option.some.inj hq
        simpa using this.symm
      rw [hq2] at hmem
      have h2a : e.2 = a := by simpa using hmem
      exact Prod.ext hsame h2a
    · rw [h3 e.1 hsame] at hq
      obtain ⟨hq2, _⟩ := cell_mainMatrix_some hq
      rw [hq2] at hmem
      simp at hmem
  have hfilter := filter_entries h2
  have hself : ((entries m1).filter fun e => decide (e.1 = date)) = entries m1 := by
    apply List.filter_eq_self.mpr
    intro e he
    rw [hall e he]
    simp
  rw [hself] at hfilter
  have hlen : (entries m1).length = 1 := by
    have := congrArg List.length hfilter
    simpa using this
  obtain ⟨e0, he0⟩ := List.length_eq_one.mp hlen
  rw [he0]
  rw [he0] at hall
  rw [hall e0 (by simp)]

/-- The result of `Create_Appointment` on a date within the bounds of the matrix. -/
theorem Create_Appointment_eq (vehicleID : Int) (customerName appointmentType : List Char)
    (day month year : Int) (s : AppointmentState) {m1 : AppointmentMatrix}
    (h : addAppointment ⟨year, month, day⟩ ⟨vehicleID, customerName, appointmentType⟩
      s.appointmentMatrix = some m1) :
    ∃ s1, Create_Appointment vehicleID customerName appointmentType day month year s =
        some (s1, createAppointmentScreen) ∧
      s1.appointmentMatrix = emptied m1 ∧
      s1.appointmentsFile = some (s.appointmentsFile.getD [] ++
        (entries m1).flatMap fun e => appointmentLine e.1 e.2) := by
  unfold Create_Appointment
  simp only [h, writeAppointmentsToFile_eq]
  exact ⟨_, rfl, rfl, rfl⟩

/-- In the matrix of `main`: after an appointment is created, the appointments are
listed and a second appointment is created, the appointments file holds the line of
the first appointment twice. -/
theorem create_list_create_main (uninit : Int) (a b : Appointment) (dA dB : Date)
    (hAy : 0 ≤ dA.year ∧ dA.year ≤ 2050) (hAm : 0 ≤ dA.month ∧ dA.month ≤ 13)
    (hAd : 0 ≤ dA.day ∧ dA.day ≤ 30) (hBy : 0 ≤ dB.year ∧ dB.year ≤ 2050)
    (hBm : 0 ≤ dB.month ∧ dB.month ≤ 13) (hBd : 0 ≤ dB.day ∧ dB.day ≤ 30)
    (hw : isWord a.customerName = true) (history warranty maintenance : List Char) :
    ∃ s3 mid post,
      appointmentRun uninit
          [AppointmentAction.create a.vehicleID a.customerName a.appointmentType
              dA.day dA.month dA.year,
            AppointmentAction.list,
            AppointmentAction.create b.vehicleID b.customerName b.appointmentType
              dB.day dB.month dB.year]
          ⟨mainMatrix, none, history, warranty, maintenance⟩ = some s3 ∧
        s3.appointmentsFile =
          some (appointmentLine dA a ++ mid ++ appointmentLine dA a ++ post) := by
  -- the first appointment
  obtain ⟨m1, hadd1, hcell1, hother1, _⟩ :=
    addAppointment_spec a (cell_mainMatrix dA hAy hAm hAd)
  have hM : mainMatrixWith dA a = m1 := by
    unfold mainMatrixWith
    rw [hadd1]
    rfl
  have hent1 : entries m1 = [(dA, a)] := by
    rw [← hM]
    exact entries_mainMatrixWith dA a hAy hAm hAd
  obtain ⟨s1, hc1, hs1m, hs1f⟩ := Create_Appointment_eq a.vehicleID a.customerName
    a.appointmentType dA.day dA.month dA.year
    ⟨mainMatrix, none, history, warranty, maintenance⟩ hadd1
  have hfile1 : s1.appointmentsFile = some (writeAppointmentsToFile m1 []).2 := by
    rw [hs1f, writeAppointmentsToFile_eq]
    rfl
  have hline1 : (writeAppointmentsToFile m1 []).2 = appointmentLine dA a := by
    rw [writeAppointmentsToFile_eq, hent1]
    simp
  have hmat1 : s1.appointmentMatrix = (writeAppointmentsToFile m1 []).1 := by
    rw [hs1m, writeAppointmentsToFile_eq]
  -- the listing
  have hnames : ∀ (date : Date) (q : Queue), cell m1 date = some q →
      ∀ x ∈ q, isWord x.customerName = true := by
    intro date q hq x hx
    rw [← hM] at hq
    obtain ⟨hq2, _⟩ := cell_mainMatrixWith_some hAy hAm hAd hq
    rcases hq2 with rfl | rfl
    · have : x = a := by simpa using hx
      rw [this]
      exact hw
    · simp at hx
  have hfit : ∀ date : Date, (cell m1 date).isSome →
      date.year ≤ 2147483647 ∧ date.month ≤ 2147483647 ∧ date.day ≤ 2147483647 := by
    intro date hsome
    obtain ⟨q, hq⟩ := Option.isSome_iff_exists.mp hsome
    rw [← hM] at hq
    obtain ⟨_, e1, e2, e3⟩ := cell_mainMatrixWith_some hAy hAm hAd hq
    omega
  obtain ⟨m2, hread, _, hcell2⟩ := write_read_spec uninit m1 hnames hfit
  have hl2 : List_Appointments uninit s1 =
      some (⟨m2, s1.appointmentsFile, s1.historyFile, s1.warrantyFile, s1.maintenanceFile⟩,
        listAppointmentsScreen, listYears 0 m2 [], []) := by
    unfold List_Appointments
    rw [hfile1, hmat1, hread]
  -- the second appointment
  have hcA2 : cell m2 dA = some [restored uninit a] := by
    rw [hcell2 dA, hcell1]
    rfl
  have hcB2 : ∃ q, cell m2 dB = some q := by
    rw [hcell2 dB]
    by_cases hsame : dB = dA
    · rw [hsame, hcell1]
      exact ⟨_, rfl⟩
    · rw [hother1 dB hsame, cell_mainMatrix dB hBy hBm hBd]
      exact ⟨_, rfl⟩
  obtain ⟨qB, hqB⟩ := hcB2
  obtain ⟨m3, hadd3, hcell3, hother3, _⟩ := addAppointment_spec b hqB
  obtain ⟨s3, hc3, _, hs3f⟩ := Create_Appointment_eq b.vehicleID b.customerName
    b.appointmentType dB.day dB.month dB.year
    ⟨m2, s1.appointmentsFile, s1.historyFile, s1.warrantyFile, s1.maintenanceFile⟩ hadd3
  have hmemA : ∃ q, cell m3 dA = some q ∧ restored uninit a ∈ q := by
    by_cases hsame : dA = dB
    · rw [hsame, hcell3]
      refine ⟨_, rfl, ?_⟩
      rw [hsame, hqB] at hcA2
      rw [Option.some.inj hcA2]
      simp
    · rw [hother3 dA hsame, hcA2]
      exact ⟨_, rfl, by simp⟩
  obtain ⟨q, hq, hqa⟩ := hmemA
  obtain ⟨pre, post, hsplit⟩ := flatMap_of_mem (fun e : Date × Appointment =>
    appointmentLine e.1 e.2) (mem_entries_of_cell hq hqa)
  refine ⟨s3, pre, post, ?_, ?_⟩
  · simp only [appointmentRun, appointmentStep, hc1, hl2, hc3, Option.map_some',
      Option.some_bind]
  · rw [hs3f]
    simp only [hfile1, hline1, Option.getD_some, hsplit]
    have hsame : appointmentLine dA (restored uninit a) = appointmentLine dA a := rfl
    simp only [hsame, List.append_assoc]

/-! ## Claim on the appointments file after Create_Appointment and List_Appointments -/

/-- C29, the code against the claim: `List_Appointments` reads the appointments file
into the matrix and pops nothing, so the next `Create_Appointment` writes the
appointments that were read once more. On a matrix of 2 years, 2 months and 2 days
with no appointment and no appointments file, after creating the appointment of Ann
on 1/1/1, listing, and creating the appointment of Bob on 1/1/0, the file has three
lines for the two appointments created, the line of Ann twice. In the matrix of
`main`, for every two dates within its bounds and every first customer name without
whitespace, the three actions return and the file holds the line of the first
appointment, and after it the same line once more. What holds of the claim:
whenever `Create_Appointment` returns, every queue of the matrix is empty. -/
theorem Create_Appointment_after_list_writes_twice :
    ((initializeAppointmentMatrix 1 1 1 []).bind fun m =>
        appointmentRun 0
          [AppointmentAction.create 1 "Ann".toList "Repair".toList 1 1 1,
            AppointmentAction.list,
            AppointmentAction.create 2 "Bob".toList "Repair".toList 1 1 0]
          ⟨m, none, [], [], []⟩).map (fun s => s.appointmentsFile) =
      some (some "1 1 1 Ann\n1 1 0 Bob\n1 1 1 Ann\n".toList) ∧
    createdCount
        [AppointmentAction.create 1 "Ann".toList "Repair".toList 1 1 1,
          AppointmentAction.list,
          AppointmentAction.create 2 "Bob".toList "Repair".toList 1 1 0] = 2 ∧
    (getlines "1 1 1 Ann\n1 1 0 Bob\n1 1 1 Ann\n".toList).length = 3 ∧
    ((initializeAppointmentMatrix 1 1 1 []).bind fun m =>
        appointmentRun 0
          [AppointmentAction.create 1 "Ann".toList "Repair".toList 1 1 1,
            AppointmentAction.list]
          ⟨m, none, [], [], []⟩).map
        (fun s => (s.appointmentsFile, cell s.appointmentMatrix ⟨1, 1, 1⟩)) =
      some (some "1 1 1 Ann\n".toList, some [⟨0, "Ann".toList, []⟩]) ∧
    (∀ (uninit : Int) (a b : Appointment) (dA dB : Date)
      (history warranty maintenance : List Char),
      (0 ≤ dA.year ∧ dA.year ≤ 2050) → (0 ≤ dA.month ∧ dA.month ≤ 13) →
      (0 ≤ dA.day ∧ dA.day ≤ 30) → (0 ≤ dB.year ∧ dB.year ≤ 2050) →
      (0 ≤ dB.month ∧ dB.month ≤ 13) → (0 ≤ dB.day ∧ dB.day ≤ 30) →
      isWord a.customerName = true →
      ∃ s3 mid post,
        appointmentRun uninit
            [AppointmentAction.create a.vehicleID a.customerName a.appointmentType
                dA.day dA.month dA.year,
              AppointmentAction.list,
              AppointmentAction.create b.vehicleID b.customerName b.appointmentType
                dB.day dB.month dB.year]
            ⟨mainMatrix, none, history, warranty, maintenance⟩ = some s3 ∧
          s3.appointmentsFile =
            some (appointmentLine dA a ++ mid ++ appointmentLine dA a ++ post)) ∧
    ∀ (vehicleID : Int) (customerName appointmentType : List Char) (day month year : Int)
      (s s1 : AppointmentState) (screen : Screen),
      Create_Appointment vehicleID customerName appointmentType day month year s =
          some (s1, screen) →
        ∀ yearSlot ∈ s1.appointmentMatrix, ∀ monthSlot ∈ yearSlot, ∀ q ∈ monthSlot, q = [] := by
  refine ⟨by decide, by decide, by decide, by decide, ?_, ?_⟩
  · intro uninit a b dA dB history warranty maintenance hAy hAm hAd hBy hBm hBd hw
    exact create_list_create_main uninit a b dA dB hAy hAm hAd hBy hBm hBd hw
      history warranty maintenance
  · intro vehicleID customerName appointmentType day month year s s1 screen h
    obtain ⟨m1, _, hm, _⟩ := Create_Appointment_empties h
    rw [hm]
    exact emptied_queues m1



/-! ## Claim on the well-formedness of the list after DeleteVehicle -/

/-- `DeleteVehicle` of the head `a` of a well-formed list when the head has a
successor `n`: the heap is unchanged, the head is `n`, and `n` still has `a` as
`prev`, so the list is not well formed. -/
theorem DeleteVehicle_head (s : VehicleState) {a n : Nat} {l3 : List Nat} {v : Vehicle}
    (h : WellFormed s.heap s.headVehicle (a :: n :: l3)) (hv : s.heap[a]? = some v) :
    DeleteVehicle v.vehicleID s =
        some (⟨s.heap, some n, s.vehicleID, some (recordsAt s.heap (n :: l3))⟩,
          deleteDoneScreen v.vehicleID) ∧
      IsChain s.heap (some n) (n :: l3) ∧ ¬ WellFormed s.heap (some n) (n :: l3) := by
  obtain ⟨hc, hp⟩ := h
  obtain ⟨_, v1, hv1, hc2⟩ := isChain_cons.mp hc
  rw [hv] at hv1
  obtain rfl := Option.some.inj hv1
  have hnext : v.next = some n := (isChain_cons.mp hc2).1
  rw [hnext] at hc2
  obtain ⟨⟨v2, hv2, hprev⟩, hp2⟩ := prevOK_cons.mp hp
  rw [hv] at hv2
  obtain rfl := Option.some.inj hv2
  obtain ⟨⟨vn, hvn, hnprev⟩, _⟩ := prevOK_cons.mp hp2
  have hf := @findVehicle_found s.heap s.headVehicle [] (n :: l3) a v s.heap.length hc
    (by simp) hv (isChain_length_le hc)
  refine ⟨?_, hc2, ?_⟩
  · unfold DeleteVehicle
    simp only [hf]
    have hu : unlink s.heap s.headVehicle a = some (s.heap, some n) := by
      unfold unlink
      simp only [hv, hprev, hnext]
    simp only [hu]
    rw [updateVehicleFile_of_chain none s.vehicleFile hc2]
    rfl
  · rintro ⟨_, hp3⟩
    obtain ⟨⟨vn2, hvn2, hnone⟩, _⟩ := prevOK_cons.mp hp3
    rw [hvn] at hvn2
    obtain rfl := Option.some.inj hvn2
    rw [hnprev] at hnone
    exact absurd hnone (by simp)

/-- C27, the code against the claim: `DeleteVehicle` on the head of a list with a
successor moves the head on but leaves the `prev` pointer of the new head on the
vehicle taken out. From the empty list, after two registrations the list of the
vehicles 1 and 2 is well formed; after `DeleteVehicle` of the ID 1 the traversal is
the vehicle 2 alone, whose `prev` still is the address of vehicle 1, so the list is
not well formed; `DeleteVehicle` of the ID 2 then finds vehicle 2, takes the case of
a previous vehicle only, and shows that it has been deleted, while vehicle 2 is
still the head, in the traversal and in the file. The same holds of every
well-formed list whose head has a successor: after `DeleteVehicle` of the ID of the
head the list is not well formed. -/
theorem DeleteVehicle_head_leaves_stale_prev :
    (vehicleRun
        [VehicleAction.registration 1001 "A".toList "X".toList "P1".toList,
          VehicleAction.registration 1002 "B".toList "Y".toList "P2".toList] startState).map
        (fun s => (decide (WellFormed s.heap s.headVehicle [0, 1]), idsAt s.heap [0, 1])) =
      some (true, [1, 2]) ∧
    (vehicleRun
        [VehicleAction.registration 1001 "A".toList "X".toList "P1".toList,
          VehicleAction.registration 1002 "B".toList "Y".toList "P2".toList,
          VehicleAction.delete 1] startState).map
        (fun s => (s.headVehicle, decide (IsChain s.heap s.headVehicle [1]),
          (s.heap[1]?).map Vehicle.prev, decide (WellFormed s.heap s.headVehicle [1]))) =
      some (some 1, true, some (some 0), false) ∧
    ((vehicleRun
        [VehicleAction.registration 1001 "A".toList "X".toList "P1".toList,
          VehicleAction.registration 1002 "B".toList "Y".toList "P2".toList,
          VehicleAction.delete 1] startState).bind (DeleteVehicle 2)).map
        (fun r => (decide (r.2 = deleteDoneScreen 2), r.1.headVehicle,
          decide (IsChain r.1.heap r.1.headVehicle [1]))) =
      some (true, some 1, true) ∧
    ((vehicleRun
        [VehicleAction.registration 1001 "A".toList "X".toList "P1".toList,
          VehicleAction.registration 1002 "B".toList "Y".toList "P2".toList,
          VehicleAction.delete 1, VehicleAction.delete 2] startState).map
        fun s => (idsAt s.heap [1], (s.vehicleFile.getD []).map Vehicle.vehicleID)) =
      some ([2], [2]) ∧
    ∀ (s : VehicleState) (a n : Nat) (l3 : List Nat) (v : Vehicle),
      WellFormed s.heap s.headVehicle (a :: n :: l3) → s.heap[a]? = some v →
        ∃ s1, DeleteVehicle v.vehicleID s = some (s1, deleteDoneScreen v.vehicleID) ∧
          IsChain s1.heap s1.headVehicle (n :: l3) ∧
          ¬ WellFormed s1.heap s1.headVehicle (n :: l3) := by
  refine ⟨by decide, by decide, by decide, by decide, ?_⟩
  intro s a n l3 v h hv
  obtain ⟨h1, h2, h3⟩ := DeleteVehicle_head s h hv
  exact ⟨_, h1, h2, h3⟩

end VehicleApp
